import Mathlib

/-!
# terraform-provider-bosk: the REST client of `internal/provider/bosk_client.go`

A shallow embedding of `BoskClient` (`GetJSONAsString`, `PutJSONAsString`,
`Delete`) and of `normalizeJSON`, together with the behaviour of the Go
standard library functions they call (`encoding/json`, `strconv`,
`unicode/utf8`, `net/http`), and the properties of the specification
established or refuted on that embedding.

Go strings and byte slices are lists of bytes; a byte is a natural number.
-/

namespace Bosk

/-! ## Bytes -/

/-- Go string or byte slice: the sequence of its bytes. -/
abbrev Bytes := List Nat

/-- Bytes of an ASCII string literal of the source. -/
def ascii (s : String) : Bytes := s.toList.map Char.toNat

/-! ## `unicode/utf8` -/

/-- Constant `utf8.RuneError`, U+FFFD. -/
def RuneError : Nat := 0xFFFD

/-- Continuation-byte test of `utf8.DecodeRune` against an accept range. -/
def inRange (lo hi b : Nat) : Bool := decide (lo ≤ b) && decide (b ≤ hi)

/-- Function `utf8.DecodeRune`: the first rune of `p` and its width in bytes;
`(RuneError, 0)` on empty input and `(RuneError, 1)` on an invalid encoding. -/
def decodeRune : Bytes → Nat × Nat
  | [] => (RuneError, 0)
  | b0 :: rest =>
    if b0 < 0x80 then (b0, 1)
    else if b0 < 0xC2 then (RuneError, 1)
    else if b0 < 0xE0 then
      match rest with
      | b1 :: _ =>
        if inRange 0x80 0xBF b1 then ((b0 - 0xC0) * 64 + (b1 - 0x80), 2)
        else (RuneError, 1)
      | [] => (RuneError, 1)
    else if b0 < 0xF0 then
      match rest with
      | b1 :: b2 :: _ =>
        if inRange (if b0 = 0xE0 then 0xA0 else 0x80) (if b0 = 0xED then 0x9F else 0xBF) b1
            && inRange 0x80 0xBF b2 then
          (((b0 - 0xE0) * 64 + (b1 - 0x80)) * 64 + (b2 - 0x80), 3)
        else (RuneError, 1)
      | _ => (RuneError, 1)
    else if b0 < 0xF5 then
      match rest with
      | b1 :: b2 :: b3 :: _ =>
        if inRange (if b0 = 0xF0 then 0x90 else 0x80) (if b0 = 0xF4 then 0x8F else 0xBF) b1
            && inRange 0x80 0xBF b2 && inRange 0x80 0xBF b3 then
          ((((b0 - 0xF0) * 64 + (b1 - 0x80)) * 64 + (b2 - 0x80)) * 64 + (b3 - 0x80), 4)
        else (RuneError, 1)
      | _ => (RuneError, 1)
    else (RuneError, 1)

/-- Function `utf8.EncodeRune`: surrogates and runes above U+10FFFF are
written as U+FFFD. -/
def encodeRune (r : Nat) : Bytes :=
  if r < 0x80 then [r]
  else if r < 0x800 then [0xC0 + r / 64, 0x80 + r % 64]
  else if 0x10FFFF < r || (decide (0xD800 ≤ r) && decide (r ≤ 0xDFFF)) then [0xEF, 0xBF, 0xBD]
  else if r < 0x10000 then [0xE0 + r / 4096, 0x80 + r / 64 % 64, 0x80 + r % 64]
  else [0xF0 + r / 262144, 0x80 + r / 4096 % 64, 0x80 + r / 64 % 64, 0x80 + r % 64]

/-- Loop of `utf8.Valid`. -/
def utf8ValidAux : Nat → Bytes → Bool
  | 0, _ => true
  | _, [] => true
  | fuel + 1, b :: bs =>
    let rs := decodeRune (b :: bs)
    if rs.1 = RuneError && rs.2 = 1 then false
    else utf8ValidAux fuel ((b :: bs).drop rs.2)

/-- Function `utf8.Valid`. -/
def utf8Valid (p : Bytes) : Bool := utf8ValidAux p.length p

/-! ## `float64` and `strconv` -/

/-- IEEE 754 binary64 value by its three fields: sign bit, biased exponent
(0..2047) and fraction (below 2^52). -/
structure Float64 where
  sign : Bool
  expo : Nat
  frac : Nat
deriving DecidableEq, Repr

namespace Float64

/-- Function `math.IsInf(f, 0)`. -/
def isInf (f : Float64) : Bool := f.expo = 2047 && f.frac = 0

/-- Function `math.IsNaN`. -/
def isNaN (f : Float64) : Bool := f.expo = 2047 && f.frac != 0

/-- Significand of a finite value, as an integer. -/
def mant (f : Float64) : Nat := if f.expo = 0 then f.frac else 2 ^ 52 + f.frac

/-- Binary exponent of the last place of a finite value: the magnitude is
`mant * 2 ^ exp2`. -/
def exp2 (f : Float64) : Int := (max f.expo 1 : Nat) - 1075

/-- Magnitude comparison `|a| < |b|` of finite values, which is the
lexicographic comparison of the exponent and fraction fields. -/
def absLt (a b : Float64) : Bool :=
  decide (a.expo < b.expo) || (decide (a.expo = b.expo) && decide (a.frac < b.frac))

end Float64

/-- Number of binary digits of `n`, with fuel. -/
def bitLenAux : Nat → Nat → Nat
  | 0, _ => 0
  | fuel + 1, n => if n = 0 then 0 else bitLenAux fuel (n / 2) + 1

/-- Number of binary digits of `n`. -/
def bitLen (n : Nat) : Nat := bitLenAux n n

/-- Nearest integer to `num / den`, a tie going to the even one. -/
def roundHalfEven (num den : Nat) : Nat :=
  let q := num / den
  let r := num % den
  if 2 * r < den then q
  else if den < 2 * r then q + 1
  else if q % 2 = 0 then q else q + 1

/-- Test `2 ^ e ≤ num / den`. -/
def ratioGePow2 (num den : Nat) (e : Int) : Bool :=
  decide (den * 2 ^ e.toNat ≤ num * 2 ^ (-e).toNat)

/-- Integer `e` with `2 ^ e ≤ num / den < 2 ^ (e + 1)`, for positive `num`, `den`. -/
def floorLog2 (num den : Nat) : Int :=
  let l : Int := (bitLen num : Int) - (bitLen den : Int)
  if ratioGePow2 num den l then l else l - 1

/-- Exponent and fraction fields of the binary64 value nearest to the positive
rational `num / den` (round half to even); `none` when the rounded value
exceeds the largest finite binary64 value. -/
def roundToFields (num den : Nat) : Option (Nat × Nat) :=
  let q : Int := max (floorLog2 num den - 52) (-1074)
  let n := roundHalfEven (num * 2 ^ (-q).toNat) (den * 2 ^ q.toNat)
  let q' : Int := if n = 2 ^ 53 then q + 1 else q
  let n' : Nat := if n = 2 ^ 53 then 2 ^ 52 else n
  if 971 < q' then none
  else if n' < 2 ^ 52 then some (0, n')
  else some ((q' + 1075).toNat, n' - 2 ^ 52)

/-- Removal of the trailing decimal zeros of a positive decimal `m * 10 ^ e`. -/
def stripZerosAux : Nat → Nat → Int → Nat × Int
  | 0, m, e => (m, e)
  | fuel + 1, m, e =>
    if m ≠ 0 ∧ m % 10 = 0 then stripZerosAux fuel (m / 10) (e + 1) else (m, e)

/-- Decimal `m * 10 ^ e` without trailing zeros in `m`. -/
def stripZeros (m : Nat) (e : Int) : Nat × Int := stripZerosAux m m e

/-- Fields of the binary64 value nearest to the decimal `m * 10 ^ e`, `m > 0`. -/
def decToFields (m : Nat) (e : Int) : Option (Nat × Nat) :=
  let d := stripZeros m e
  roundToFields (d.1 * 10 ^ d.2.toNat) (10 ^ (-d.2).toNat)

/-- Value of a run of ASCII decimal digits. -/
def digitsVal (ds : Bytes) : Nat := ds.foldl (fun acc d => acc * 10 + (d - 48)) 0

/-- ASCII decimal digit test. -/
def isDigit (c : Nat) : Bool := decide (48 ≤ c) && decide (c ≤ 57)

/-- Longest prefix of ASCII digits, and the rest. -/
def spanDigits : Bytes → Bytes × Bytes
  | [] => ([], [])
  | c :: cs =>
    if isDigit c then
      let r := spanDigits cs
      (c :: r.1, r.2)
    else ([], c :: cs)

/-- Exponent of `readFloat` after the letter `e` or `E`: an optional sign
and at least one digit, up to the end of the input. -/
def readExponent (r : Bytes) : Option Int :=
  let eneg := r.head? = some 45
  let r1 := if r.head? = some 45 ∨ r.head? = some 43 then r.tail else r
  let ep := spanDigits r1
  if ep.1 = [] ∨ ep.2 ≠ [] then none
  else
    let ev : Int := digitsVal ep.1
    some (if eneg then -ev else ev)

/-- Digits of `readFloat` after the sign: digits, optional fraction, optional
exponent. The result is the integer `m` of all the digits and the decimal
exponent `e`, the number being `m * 10 ^ e`. -/
def readMantissa (s1 : Bytes) : Option (Nat × Int) :=
  let ip := spanDigits s1
  let fp : Bytes × Bytes :=
    match ip.2 with
    | 46 :: r => spanDigits r
    | r => ([], r)
  if ip.1 = [] ∧ fp.1 = [] then none
  else
    let m := digitsVal (ip.1 ++ fp.1)
    match fp.2 with
    | [] => some (m, -(fp.1.length : Int))
    | c :: r =>
      if c = 101 ∨ c = 69 then
        match readExponent r with
        | none => none
        | some ev => some (m, ev - (fp.1.length : Int))
      else none

/-- Decimal floating-point syntax of `strconv.ParseFloat`: sign, digits,
optional fraction, optional exponent. The result is the sign, the integer `m`
of all the digits and the decimal exponent `e`, the number being `m * 10 ^ e`. -/
def readDecimal (s : Bytes) : Option (Bool × Nat × Int) :=
  let neg := s.head? = some 45
  let s1 := if s.head? = some 45 ∨ s.head? = some 43 then s.tail else s
  match readMantissa s1 with
  | none => none
  | some (m, e) => some (neg, m, e)

/-- Errors of `strconv.ParseFloat`. -/
inductive NumError where
  | errSyntax : NumError
  | errRange : NumError
deriving DecidableEq, Repr

/-- Function `strconv.ParseFloat(s, 64)` on decimal input, by its documented
contract: the nearest binary64 value under IEEE 754 round-half-to-even, and
`ErrRange` when the input is more than half a unit in the last place beyond
the largest finite value. Underflow gives a zero and no error. -/
def parseFloat (s : Bytes) : Except NumError Float64 :=
  match readDecimal s with
  | none => .error .errSyntax
  | some (neg, m, e) =>
    if m = 0 then .ok ⟨neg, 0, 0⟩
    else
      match decToFields m e with
      | none => .error .errRange
      | some (ex, fr) => .ok ⟨neg, ex, fr⟩

/-- Decimal digits of `n`, most significant first, with fuel. -/
def natDigitsAux : Nat → Nat → Bytes → Bytes
  | 0, _, acc => acc
  | fuel + 1, n, acc =>
    if n < 10 then (48 + n) :: acc
    else natDigitsAux fuel (n / 10) ((48 + n % 10) :: acc)

/-- Decimal digits of `n` in ASCII, most significant first. -/
def natDigits (n : Nat) : Bytes := natDigitsAux (n + 1) n []

/-- Decimal `d * 10 ^ t` chosen on the grid of the multiples of `10 ^ t` for
the finite value with significand `mant`, binary exponent `exp2` and fields
`fields`: of the two multiples next to the value, one that parses back to the
value, the nearer when both do (a tie going to the even one). -/
def shortestAt (mant : Nat) (exp2 : Int) (fields : Nat × Nat) (t : Int) : Option Nat :=
  let num := mant * 2 ^ exp2.toNat * 10 ^ (-t).toNat
  let den := 2 ^ (-exp2).toNat * 10 ^ t.toNat
  let lo := num / den
  let r := num % den
  let hi := if r = 0 then lo else lo + 1
  let okLo : Bool := decide (lo ≠ 0) && decide (decToFields lo t = some fields)
  let okHi : Bool := decide (hi ≠ 0) && decide (decToFields hi t = some fields)
  if okLo && okHi then
    some (if 2 * r < den then lo else if den < 2 * r then hi else if lo % 2 = 0 then lo else hi)
  else if okLo then some lo
  else if okHi then some hi
  else none

/-- Search of the coarsest decimal grid, from `10 ^ t` downwards, on which
`shortestAt` finds a decimal. -/
def shortestSearch (mant : Nat) (exp2 : Int) (fields : Nat × Nat) : Nat → Int → Option (Nat × Int)
  | 0, _ => none
  | fuel + 1, t =>
    match shortestAt mant exp2 fields t with
    | some d => some (d, t)
    | none => shortestSearch mant exp2 fields fuel (t - 1)

/-- Exact decimal expansion `d * 10 ^ t` of `mant * 2 ^ exp2`. -/
def exactDecimal (mant : Nat) (exp2 : Int) : Nat × Int :=
  if 0 ≤ exp2 then (mant * 2 ^ exp2.toNat, 0) else (mant * 5 ^ (-exp2).toNat, exp2)

/-- Shortest decimal `d * 10 ^ t` that `parseFloat` maps back to the finite
non-zero value `f`, the one nearest to `f` among those: the digits that
`strconv.FormatFloat` produces with precision -1 ("the smallest number of
digits necessary such that ParseFloat will return f exactly"). Every binary64
value has such a decimal of at most 17 digits, which the search from
`10 ^ 309` down to `10 ^ (-324)` reaches; the exact expansion closes the
definition. -/
def shortestDecimal (f : Float64) : Nat × Int :=
  match shortestSearch f.mant f.exp2 (f.expo, f.frac) 634 309 with
  | some r => r
  | none => exactDecimal f.mant f.exp2

/-- Digit string and decimal point position of `strconv`'s shortest
formatting: the value is `0.d1d2...dn * 10 ^ dp`; zero has no digit. -/
def shortestDigits (f : Float64) : Bytes × Int :=
  if f.expo = 0 ∧ f.frac = 0 then ([], 0)
  else
    let r := shortestDecimal f
    let ds := natDigits r.1
    (ds, (ds.length : Int) + r.2)

/-- Function `fmtF` of `strconv` at the shortest precision
`max (nd - dp) 0`. -/
def fmtF (ds : Bytes) (dp : Int) : Bytes :=
  let nd := ds.length
  let ip : Bytes :=
    if 0 < dp then ds.take (min nd dp.toNat) ++ List.replicate (dp.toNat - min nd dp.toNat) 48
    else [48]
  let prec := ((nd : Int) - dp).toNat
  let fp : Bytes :=
    if 0 < prec then
      46 :: (List.range prec).map (fun (i : Nat) =>
        let j : Int := dp + (i : Int)
        if 0 ≤ j ∧ j < (nd : Int) then ds.getD j.toNat 48 else 48)
    else []
  ip ++ fp

/-- Function `fmtE` of `strconv` at the shortest precision `max (nd - 1) 0`:
`d.ddde±dd`, the exponent on at least two digits. -/
def fmtE (ds : Bytes) (dp : Int) : Bytes :=
  let nd := ds.length
  let prec := nd - 1
  let first : Bytes := [ds.headD 48]
  let more : Bytes :=
    if 0 < prec then
      46 :: ((ds.take (min nd (prec + 1))).drop 1
        ++ List.replicate (prec + 1 - max 1 (min nd (prec + 1))) 48)
    else []
  let ex : Int := if nd = 0 then 0 else dp - 1
  let sg : Nat := if ex < 0 then 45 else 43
  let e := ex.natAbs
  let ed : Bytes :=
    if e < 10 then [48, 48 + e]
    else if e < 100 then [48 + e / 10, 48 + e % 10]
    else [48 + e / 100, 48 + e / 10 % 10, 48 + e % 10]
  first ++ more ++ [101, sg] ++ ed

/-- Function `strconv.AppendFloat(b, f, fmt, -1, 64)` for a finite `f` and
`fmt` one of `'f'` (`useE` false) and `'e'`. -/
def formatFloat (f : Float64) (useE : Bool) : Bytes :=
  let d := shortestDigits f
  (if f.sign then [45] else []) ++ (if useE then fmtE d.1 d.2 else fmtF d.1 d.2)

/-- Constant `1e-6` as a float64. -/
def f1eMinus6 : Float64 := ⟨false, 1003, 218766855499149⟩

/-- Constant `1e21` as a float64. -/
def f1e21 : Float64 := ⟨false, 1092, 3125794903879504⟩

/-- Exponent clean-up of `floatEncoder.encode`: `e-09` becomes `e-9`. -/
def cleanExp (b : Bytes) : Bytes :=
  match b.reverse with
  | d :: 48 :: s :: 101 :: rest =>
    if s = 45 ∨ s = 43 then (d :: s :: 101 :: rest).reverse else b
  | _ => b

/-! ## `encoding/json`: scanning -/

/-- JSON text as the scanner of `encoding/json` reads it: literals, number
and string tokens by their source text (a string without its quotes), arrays
and objects with their members in source order. -/
inductive Syn where
  | null : Syn
  | bool (b : Bool) : Syn
  | number (lit : Bytes) : Syn
  | string (raw : Bytes) : Syn
  | array (xs : List Syn) : Syn
  | object (ms : List (Bytes × Syn)) : Syn

/-- Function `isSpace` of `scanner.go`. -/
def isSpace (c : Nat) : Bool := c = 0x20 || c = 0x09 || c = 0x0D || c = 0x0A

/-- Whitespace skipped between tokens. -/
def skipSpace : Bytes → Bytes
  | [] => []
  | c :: cs => if isSpace c then skipSpace cs else c :: cs

/-- Hexadecimal digit test of `stateInStringEscU`. -/
def isHex (c : Nat) : Bool :=
  (decide (48 ≤ c) && decide (c ≤ 57)) || (decide (97 ≤ c) && decide (c ≤ 102))
    || (decide (65 ≤ c) && decide (c ≤ 70))

/-- Escape letters accepted by `stateInStringEsc` other than `u`:
`b f n r t \ / "`. -/
def isEscapeLetter (c : Nat) : Bool :=
  c = 98 || c = 102 || c = 110 || c = 114 || c = 116 || c = 92 || c = 47 || c = 34

/-- String token after its opening quote (`stateInString` and its escape
states): the text up to the closing quote, and the input after it. A byte
below 0x20 is rejected; bytes from 0x80 are not examined. -/
def scanString : Bytes → Option (Bytes × Bytes)
  | [] => none
  | 34 :: cs => some ([], cs)
  | 92 :: [] => none
  | 92 :: 117 :: h1 :: h2 :: h3 :: h4 :: cs =>
    if isHex h1 && isHex h2 && isHex h3 && isHex h4 then
      match scanString cs with
      | some (r, rest) => some (92 :: 117 :: h1 :: h2 :: h3 :: h4 :: r, rest)
      | none => none
    else none
  | 92 :: e :: cs =>
    if isEscapeLetter e then
      match scanString cs with
      | some (r, rest) => some (92 :: e :: r, rest)
      | none => none
    else none
  | c :: cs =>
    if c < 0x20 then none
    else
      match scanString cs with
      | some (r, rest) => some (c :: r, rest)
      | none => none

/-- Integer part of a number token (`state0`, `state1`): a single `0`, or a
non-zero digit followed by digits. -/
def scanInt : Bytes → Option (Bytes × Bytes)
  | [] => none
  | c :: cs =>
    if c = 48 then some ([48], cs)
    else if isDigit c then
      let d := spanDigits cs
      some (c :: d.1, d.2)
    else none

/-- Optional fraction of a number token (`stateDot`, `stateDot0`). -/
def scanFrac : Bytes → Option (Bytes × Bytes)
  | 46 :: cs =>
    let d := spanDigits cs
    if d.1 = [] then none else some (46 :: d.1, d.2)
  | s => some ([], s)

/-- Optional minus sign at the head of a number token. -/
def takeMinus : Bytes → Bytes × Bytes
  | 45 :: r => ([45], r)
  | r => ([], r)

/-- Optional sign of an exponent (`stateE`). -/
def takeSign : Bytes → Bytes × Bytes
  | 43 :: r => ([43], r)
  | 45 :: r => ([45], r)
  | r => ([], r)

/-- Optional exponent of a number token (`stateE`, `stateESign`, `stateE0`). -/
def scanExp : Bytes → Option (Bytes × Bytes)
  | [] => some ([], [])
  | c :: cs =>
    if c = 101 ∨ c = 69 then
      let sg := takeSign cs
      let d := spanDigits sg.2
      if d.1 = [] then none else some (c :: (sg.1 ++ d.1), d.2)
    else some ([], c :: cs)

/-- Number token: its text and the input after it. -/
def scanNumber (s : Bytes) : Option (Bytes × Bytes) :=
  let sg := takeMinus s
  match scanInt sg.2 with
  | none => none
  | some (ip, s2) =>
    match scanFrac s2 with
    | none => none
    | some (fp, s3) =>
      match scanExp s3 with
      | none => none
      | some (ep, s4) => some (sg.1 ++ ip ++ fp ++ ep, s4)

mutual
/-- Value at the head of the input (`stateBeginValue`), after whitespace. -/
def parseValue : Nat → Bytes → Option (Syn × Bytes)
  | 0, _ => none
  | _ + 1, [] => none
  | fuel + 1, c :: cs =>
    if c = 123 then
      match skipSpace cs with
      | 125 :: rest => some (.object [], rest)
      | s => match parseMembers fuel s with
        | some (ms, rest) => some (.object ms, rest)
        | none => none
    else if c = 91 then
      match skipSpace cs with
      | 93 :: rest => some (.array [], rest)
      | s => match parseElems fuel s with
        | some (xs, rest) => some (.array xs, rest)
        | none => none
    else if c = 34 then
      match scanString cs with
      | some (raw, rest) => some (.string raw, rest)
      | none => none
    else if c = 45 ∨ isDigit c then
      match scanNumber (c :: cs) with
      | some (lit, rest) => some (.number lit, rest)
      | none => none
    else if c = 116 then
      match cs with
      | 114 :: 117 :: 101 :: rest => some (.bool true, rest)
      | _ => none
    else if c = 102 then
      match cs with
      | 97 :: 108 :: 115 :: 101 :: rest => some (.bool false, rest)
      | _ => none
    else if c = 110 then
      match cs with
      | 117 :: 108 :: 108 :: rest => some (.null, rest)
      | _ => none
    else none
/-- Elements of a non-empty array up to its closing bracket. -/
def parseElems : Nat → Bytes → Option (List Syn × Bytes)
  | 0, _ => none
  | fuel + 1, s =>
    match parseValue fuel s with
    | none => none
    | some (v, rest) =>
      match skipSpace rest with
      | 44 :: r =>
        match parseElems fuel (skipSpace r) with
        | some (vs, rest2) => some (v :: vs, rest2)
        | none => none
      | 93 :: r => some ([v], r)
      | _ => none
/-- Members of a non-empty object up to its closing brace. -/
def parseMembers : Nat → Bytes → Option (List (Bytes × Syn) × Bytes)
  | 0, _ => none
  | fuel + 1, s =>
    match s with
    | 34 :: cs =>
      match scanString cs with
      | none => none
      | some (key, rest) =>
        match skipSpace rest with
        | 58 :: r =>
          match parseValue fuel (skipSpace r) with
          | none => none
          | some (v, rest2) =>
            match skipSpace rest2 with
            | 44 :: r2 =>
              match parseMembers fuel (skipSpace r2) with
              | some (ms, rest3) => some ((key, v) :: ms, rest3)
              | none => none
            | 125 :: r2 => some ([(key, v)], r2)
            | _ => none
        | _ => none
    | _ => none
end

/-- Whole input as one JSON value between optional whitespace. -/
def parseJSON (data : Bytes) : Option Syn :=
  match parseValue (data.length + 1) (skipSpace data) with
  | some (v, rest) => if skipSpace rest = [] then some v else none
  | none => none

mutual
/-- Nesting depth of arrays and objects: the height of the scanner's
`parseState` stack. -/
def Syn.depth : Syn → Nat
  | .array xs => depthList xs + 1
  | .object ms => depthMembers ms + 1
  | _ => 0
/-- Largest depth among array elements. -/
def depthList : List Syn → Nat
  | [] => 0
  | x :: xs => max x.depth (depthList xs)
/-- Largest depth among object members. -/
def depthMembers : List (Bytes × Syn) → Nat
  | [] => 0
  | (_, v) :: ms => max v.depth (depthMembers ms)
end

/-- Constant `maxNestingDepth` of `scanner.go`. -/
def maxNestingDepth : Nat := 10000

/-- Function `checkValid`: the input is one JSON value, nested no deeper
than `maxNestingDepth`. -/
def checkValid (data : Bytes) : Option Syn :=
  match parseJSON data with
  | some v => if v.depth ≤ maxNestingDepth then some v else none
  | none => none

/-! ## `encoding/json`: decoding into `interface{}` -/

/-- Value that `json.Unmarshal` stores in an `interface{}`: `nil`, `bool`,
`float64`, `string`, `[]interface{}` and `map[string]interface{}`. A map is
held as its entries in increasing key order, one entry per key, so that equal
maps are equal lists and the sorted traversal of `json.Marshal` is the order
of the list. -/
inductive Value where
  | null : Value
  | bool (b : Bool) : Value
  | number (f : Float64) : Value
  | string (s : Bytes) : Value
  | array (xs : List Value) : Value
  | object (ms : List (Bytes × Value)) : Value

/-- Errors of `json.Unmarshal` and `json.Marshal`: `*SyntaxError`,
`*UnmarshalTypeError` (with the number text of its `Value` field) and
`*UnsupportedValueError`. -/
inductive JsonError where
  | syntaxError : JsonError
  | unmarshalTypeError (value : Bytes) : JsonError
  | unsupportedValueError : JsonError
deriving DecidableEq, Repr

/-- Value of a hexadecimal digit. -/
def hexVal (c : Nat) : Nat :=
  if c ≤ 57 then c - 48 else if c ≤ 70 then c - 55 else c - 87

/-- Function `getu4` on the four digits after `\u`. -/
def getu4 (h1 h2 h3 h4 : Nat) : Nat :=
  ((hexVal h1 * 16 + hexVal h2) * 16 + hexVal h3) * 16 + hexVal h4

/-- Function `utf16.IsSurrogate`. -/
def isSurrogate (r : Nat) : Bool := decide (0xD800 ≤ r) && decide (r < 0xE000)

/-- Function `utf16.DecodeRune`: the rune of a surrogate pair, or U+FFFD. -/
def utf16DecodeRune (r1 r2 : Nat) : Nat :=
  if 0xD800 ≤ r1 ∧ r1 < 0xDC00 ∧ 0xDC00 ≤ r2 ∧ r2 < 0xE000 then
    (r1 - 0xD800) * 1024 + (r2 - 0xDC00) + 0x10000
  else RuneError

/-- Second half of a surrogate pair: the value `getu4` reads at the head of
the input, when the input starts with `\u` and four hexadecimal digits. -/
def getu4At : Bytes → Option Nat
  | 92 :: 117 :: h1 :: h2 :: h3 :: h4 :: _ =>
    if isHex h1 && isHex h2 && isHex h3 && isHex h4 then some (getu4 h1 h2 h3 h4) else none
  | _ => none

/-- Loop of `unquoteBytes` over the text between the quotes: escapes are
replaced by the bytes they denote, a surrogate escape without its pair and
every byte that does not start a valid UTF-8 encoding by U+FFFD. -/
def unquoteAux : Nat → Bytes → Option Bytes
  | _, [] => some []
  | 0, _ :: _ => none
  | fuel + 1, 92 :: cs =>
    match cs with
    | [] => none
    | 117 :: h1 :: h2 :: h3 :: h4 :: rest =>
      if isHex h1 && isHex h2 && isHex h3 && isHex h4 then
        let rr := getu4 h1 h2 h3 h4
        if isSurrogate rr then
          match getu4At rest with
          | some rr1 =>
            if utf16DecodeRune rr rr1 ≠ RuneError then
              (unquoteAux fuel (rest.drop 6)).map (fun t => encodeRune (utf16DecodeRune rr rr1) ++ t)
            else (unquoteAux fuel rest).map (fun t => encodeRune RuneError ++ t)
          | none => (unquoteAux fuel rest).map (fun t => encodeRune RuneError ++ t)
        else (unquoteAux fuel rest).map (fun t => encodeRune rr ++ t)
      else none
    | e :: rest =>
      if e = 34 ∨ e = 92 ∨ e = 47 ∨ e = 39 then (unquoteAux fuel rest).map (fun t => e :: t)
      else if e = 98 then (unquoteAux fuel rest).map (fun t => 8 :: t)
      else if e = 102 then (unquoteAux fuel rest).map (fun t => 12 :: t)
      else if e = 110 then (unquoteAux fuel rest).map (fun t => 10 :: t)
      else if e = 114 then (unquoteAux fuel rest).map (fun t => 13 :: t)
      else if e = 116 then (unquoteAux fuel rest).map (fun t => 9 :: t)
      else none
  | fuel + 1, c :: cs =>
    if c = 34 ∨ c < 0x20 then none
    else if c < 0x80 then (unquoteAux fuel cs).map (fun t => c :: t)
    else
      let rs := decodeRune (c :: cs)
      (unquoteAux fuel ((c :: cs).drop rs.2)).map (fun t => encodeRune rs.1 ++ t)

/-- Function `unquote` on the text of a string token without its quotes. -/
def unquote (raw : Bytes) : Option Bytes := unquoteAux raw.length raw

/-- Go string comparison `a < b`: lexicographic on bytes. -/
def bytesLt : Bytes → Bytes → Bool
  | [], [] => false
  | [], _ :: _ => true
  | _ :: _, [] => false
  | a :: as, b :: bs => decide (a < b) || (decide (a = b) && bytesLt as bs)

/-- Map assignment `m[key] = v`. -/
def mapSet (key : Bytes) (v : Value) : List (Bytes × Value) → List (Bytes × Value)
  | [] => [(key, v)]
  | (k, w) :: ms =>
    if key = k then (key, v) :: ms
    else if bytesLt key k then (key, v) :: (k, w) :: ms
    else (k, w) :: mapSet key v ms

/-- Function `convertNumber`: a number token as a `float64`; every error of
`strconv.ParseFloat` becomes an `UnmarshalTypeError`. -/
def convertNumber (lit : Bytes) : Except JsonError Float64 :=
  match parseFloat lit with
  | .ok f => .ok f
  | .error _ => .error (.unmarshalTypeError lit)

mutual
/-- Function `valueInterface`: the Go value of scanned JSON text. The error
is the first one met in source order, which is the one `Unmarshal` saves and
returns. -/
def decodeValue : Syn → Except JsonError Value
  | .null => .ok .null
  | .bool b => .ok (.bool b)
  | .number lit =>
    match convertNumber lit with
    | .ok f => .ok (.number f)
    | .error e => .error e
  | .string raw =>
    match unquote raw with
    | some s => .ok (.string s)
    | none => .error .syntaxError
  | .array xs =>
    match decodeArray xs with
    | .ok vs => .ok (.array vs)
    | .error e => .error e
  | .object ms =>
    match decodeObject ms [] with
    | .ok m => .ok (.object m)
    | .error e => .error e
/-- Function `arrayInterface`. -/
def decodeArray : List Syn → Except JsonError (List Value)
  | [] => .ok []
  | x :: xs =>
    match decodeValue x with
    | .error e => .error e
    | .ok v =>
      match decodeArray xs with
      | .ok vs => .ok (v :: vs)
      | .error e => .error e
/-- Function `objectInterface`: members are assigned to the map in source
order, so that of two members with the same key the later one stays. -/
def decodeObject : List (Bytes × Syn) → List (Bytes × Value) → Except JsonError (List (Bytes × Value))
  | [], m => .ok m
  | (k, x) :: ms, m =>
    match unquote k with
    | none => .error .syntaxError
    | some key =>
      match decodeValue x with
      | .error e => .error e
      | .ok v => decodeObject ms (mapSet key v m)
end

/-- Function `json.Unmarshal(data, &parsed)` with `parsed` of type
`interface{}`. -/
def jsonUnmarshal (data : Bytes) : Except JsonError Value :=
  match checkValid data with
  | none => .error .syntaxError
  | some syn => decodeValue syn

/-! ## `encoding/json`: encoding -/

/-- Table `htmlSafeSet` on ASCII: every byte from 0x20 except the quote, the
backslash and `& < >`. -/
def htmlSafe (b : Nat) : Bool :=
  decide (0x20 ≤ b) && !(b = 34 || b = 38 || b = 60 || b = 62 || b = 92)

/-- Digit of the table `hex = "0123456789abcdef"`. -/
def hexDigit (n : Nat) : Nat := if n < 10 then 48 + n else 87 + n

/-- Escape that `appendString` writes for an ASCII byte outside
`htmlSafeSet`. -/
def escapeByte (b : Nat) : Bytes :=
  if b = 92 ∨ b = 34 then [92, b]
  else if b = 8 then [92, 98]
  else if b = 12 then [92, 102]
  else if b = 10 then [92, 110]
  else if b = 13 then [92, 114]
  else if b = 9 then [92, 116]
  else [92, 117, 48, 48, hexDigit (b / 16), hexDigit (b % 16)]

/-- Loop of `appendString` with `escapeHTML` set: the text between the
quotes. -/
def appendStringAux : Nat → Bytes → Bytes
  | _, [] => []
  | 0, _ :: _ => []
  | fuel + 1, b :: bs =>
    if b < 0x80 then
      if htmlSafe b then b :: appendStringAux fuel bs
      else escapeByte b ++ appendStringAux fuel bs
    else
      let rs := decodeRune (b :: bs)
      if rs.1 = RuneError ∧ rs.2 = 1 then
        [92, 117, 102, 102, 102, 100] ++ appendStringAux fuel bs
      else if rs.1 = 0x2028 ∨ rs.1 = 0x2029 then
        [92, 117, 50, 48, 50, hexDigit (rs.1 % 16)] ++ appendStringAux fuel ((b :: bs).drop rs.2)
      else (b :: bs).take rs.2 ++ appendStringAux fuel ((b :: bs).drop rs.2)

/-- Function `appendString(dst, src, true)`: a quoted JSON string. -/
def encodeString (s : Bytes) : Bytes := 34 :: (appendStringAux s.length s ++ [34])

/-- Method `floatEncoder.encode` for 64 bits: an error for infinities and
NaN; format `'e'` below `1e-6` and from `1e21`, with the exponent cleaned,
format `'f'` otherwise. -/
def encodeFloat (f : Float64) : Except JsonError Bytes :=
  if f.isInf || f.isNaN then .error .unsupportedValueError
  else
    let isZero : Bool := f.expo = 0 && f.frac = 0
    if !isZero && (f.absLt f1eMinus6 || !f.absLt f1e21) then .ok (cleanExp (formatFloat f true))
    else .ok (formatFloat f false)

mutual
/-- Encoder of `json.Marshal` for the values of `interface{}`. -/
def encodeValue : Value → Except JsonError Bytes
  | .null => .ok [110, 117, 108, 108]
  | .bool true => .ok [116, 114, 117, 101]
  | .bool false => .ok [102, 97, 108, 115, 101]
  | .number f => encodeFloat f
  | .string s => .ok (encodeString s)
  | .array xs =>
    match encodeElems xs with
    | .ok b => .ok (91 :: (b ++ [93]))
    | .error e => .error e
  | .object ms =>
    match encodeMembers ms with
    | .ok b => .ok (123 :: (b ++ [125]))
    | .error e => .error e
/-- Elements of an array, separated by commas. -/
def encodeElems : List Value → Except JsonError Bytes
  | [] => .ok []
  | x :: xs =>
    match encodeValue x with
    | .error e => .error e
    | .ok a =>
      match encodeElems xs with
      | .error e => .error e
      | .ok b => .ok (if xs.isEmpty then a else a ++ 44 :: b)
/-- Members of a map in increasing key order, separated by commas. -/
def encodeMembers : List (Bytes × Value) → Except JsonError Bytes
  | [] => .ok []
  | (k, x) :: ms =>
    match encodeValue x with
    | .error e => .error e
    | .ok a =>
      match encodeMembers ms with
      | .error e => .error e
      | .ok b => .ok (if ms.isEmpty then encodeString k ++ 58 :: a else encodeString k ++ 58 :: a ++ 44 :: b)
end

/-- Function `json.Marshal(parsed)`. -/
def jsonMarshal (v : Value) : Except JsonError Bytes := encodeValue v

/-! ## `normalizeJSON` -/

/-- Function `normalizeJSON` of `bosk_client.go`: the returned bytes and the
returned error (`none` for `nil`). -/
def normalizeJSON (input : Bytes) : Bytes × Option JsonError :=
  match jsonUnmarshal input with
  | .error err => (input, some err)
  | .ok parsed =>
    match jsonMarshal parsed with
    | .error err => (input, some err)
    | .ok result => (result, none)

/-! ## Diagnostics and `net/http` -/

/-- Go `error` value met by the client: an error of `net/http`, `net/url` or
`io` by its text, or an error of `encoding/json`. -/
inductive GoError where
  | text (msg : String) : GoError
  | json (e : JsonError) : GoError
deriving DecidableEq, Repr

/-- Argument of a `fmt.Sprintf` call. -/
inductive FmtArg where
  | str (s : String) : FmtArg
  | err (e : GoError) : FmtArg
deriving DecidableEq, Repr

/-- Severity of a diagnostic. -/
inductive Severity where
  | error : Severity
  | warning : Severity
deriving DecidableEq, Repr

/-- One record of the diagnostics sink: severity, summary, and the detail as
the format string and arguments handed to `fmt.Sprintf`. -/
structure Diagnostic where
  severity : Severity
  summary : String
  format : String
  args : List FmtArg
deriving DecidableEq, Repr

/-- Modelled from the spec: the diagnostics sink `diag.Diagnostics`, whose
package is not part of the repository, is "an accumulator of error/warning
records" in append order. -/
abbrev Diagnostics := List Diagnostic

/-- Modelled from the spec: `append-error(summary, detail)` of the sink. -/
def Diagnostics.AddError (d : Diagnostics) (summary format : String) (args : List FmtArg) :
    Diagnostics :=
  d ++ [⟨.error, summary, format, args⟩]

/-- Modelled from the spec: `append-warning(summary, detail)` of the sink. -/
def Diagnostics.AddWarning (d : Diagnostics) (summary format : String) (args : List FmtArg) :
    Diagnostics :=
  d ++ [⟨.warning, summary, format, args⟩]

/-- Number of error records in the sink. -/
def Diagnostics.errorCount (d : Diagnostics) : Nat :=
  (d.filter (fun x => x.severity = .error)).length

/-- Number of warning records in the sink. -/
def Diagnostics.warningCount (d : Diagnostics) : Nat :=
  (d.filter (fun x => x.severity = .warning)).length

/-- Sink `d2` is sink `d1` with exactly one more record, an error. -/
def Diagnostics.addsOneError (d1 d2 : Diagnostics) : Prop :=
  ∃ e, d2 = d1 ++ [e] ∧ e.severity = .error

/-- Sink `d2` is sink `d1` with some more records, warnings all. -/
def Diagnostics.addsOnlyWarnings (d1 d2 : Diagnostics) : Prop :=
  ∃ ws, d2 = d1 ++ ws ∧ ∀ w ∈ ws, w.severity = .warning

/-- Type `http.Request` as far as the client uses it: method, URL, body, and
the credentials of the `Authorization` header installed by `SetBasicAuth`
(`none` without that header). -/
structure Request where
  Method : String
  url : String
  body : Option Bytes
  basicAuth : Option (String × String)
deriving DecidableEq, Repr

/-- Type `http.Response` as far as the client uses it: `StatusCode`, `Status`
and what `io.ReadAll(Body)` returns. -/
structure Response where
  StatusCode : Int
  Status : String
  Body : Except String Bytes

/-- Type `http.Client`: the transport, by what `Do` returns for a request. -/
structure HttpClient where
  Do : Request → Except String Response

/-- Function `url.Parse` of the standard library, by the error it returns for
a URL, if any. -/
structure Net where
  urlParse : String → Option String

/-- Function `http.NewRequest` for the methods `GET`, `PUT` and `DELETE`: it
fails exactly when `url.Parse` does, and then returns a nil request. -/
def NewRequest (net : Net) (method url : String) (body : Option Bytes) : Except String Request :=
  match net.urlParse url with
  | some err => .error err
  | none => .ok ⟨method, url, body, none⟩

/-- Method `Request.SetBasicAuth`. -/
def Request.SetBasicAuth (r : Request) (username password : String) : Request :=
  { r with basicAuth := some (username, password) }

/-! ## `BoskClient` -/

/-- Type `BasicAuth`. -/
structure BasicAuth where
  username : String
  password : String
deriving DecidableEq, Repr

/-- Type `BoskClient`; the nilable `auth` pointer is an option. -/
structure BoskClient where
  httpClient : HttpClient
  urlPrefix : String
  auth : Option BasicAuth

/-- Function `NewBoskClientWithoutAuth`. -/
def NewBoskClientWithoutAuth (httpClient : HttpClient) (urlPrefix : String) : BoskClient :=
  { httpClient := httpClient, urlPrefix := urlPrefix, auth := none }

/-- Function `NewBoskClient`. -/
def NewBoskClient (httpClient : HttpClient) (urlPrefix : String) (username password : String) :
    BoskClient :=
  { httpClient := httpClient, urlPrefix := urlPrefix,
    auth := some { username := username, password := password } }

/-- Lines `if client.auth != nil { req.SetBasicAuth(...) }` on a non-nil
request. -/
def BoskClient.applyAuth (client : BoskClient) (req : Request) : Request :=
  match client.auth with
  | some a => req.SetBasicAuth a.username a.password
  | none => req

/-- Integer division of Go, truncated toward zero, in the test
`httpResp.StatusCode/100 != 2`. -/
def statusClass (code : Int) : Int := code.tdiv 100

/-- Outcome of a call of `GetJSONAsString`: the returned string, the sink
afterwards, and the requests handed to `client.httpClient.Do`. -/
structure GetResult where
  ret : Bytes
  diag : Diagnostics
  sent : List Request

/-- Outcome of a call of `PutJSONAsString` or `Delete` that returns: the sink
afterwards and the requests handed to `client.httpClient.Do`. -/
structure Effects where
  diag : Diagnostics
  sent : List Request

/-- Run-time panic of the Go program. -/
inductive Panic where
  | nilPointerDereference : Panic
deriving DecidableEq, Repr

/-- Method `BoskClient.GetJSONAsString`. -/
def GetJSONAsString (net : Net) (client : BoskClient) (url : String) (diag : Diagnostics) :
    GetResult :=
  match NewRequest net "GET" url none with
  | .error err =>
    ⟨ascii "ERROR",
      diag.AddError "Client Error" "Unable to create HTTP request: %s" [.err (.text err)], []⟩
  | .ok req0 =>
    let req := client.applyAuth req0
    match client.httpClient.Do req with
    | .error err =>
      ⟨ascii "ERROR",
        diag.AddError "Client Error" "Unable to %v %v: %s"
          [.str req.Method, .str url, .err (.text err)], [req]⟩
    | .ok httpResp =>
      if statusClass httpResp.StatusCode ≠ 2 then
        ⟨ascii "ERROR",
          diag.AddError "Client Error" "%v %v returned unexpected status %s"
            [.str req.Method, .str url, .str httpResp.Status], [req]⟩
      else
        match httpResp.Body with
        | .error err =>
          ⟨ascii "ERROR",
            diag.AddError "Error reading response body" "Error reading response body: %s"
              [.err (.text err)], [req]⟩
        | .ok bytes =>
          let diag1 :=
            if !utf8Valid bytes then
              diag.AddWarning "Response body is not recognized as UTF-8"
                "Terraform may not properly handle the response_body if the contents are binary."
                []
            else diag
          match normalizeJSON bytes with
          | (_, some err) =>
            ⟨bytes,
              diag1.AddWarning "Error normalizing JSON response"
                "Error reading response body: %s" [.err (.json err)], [req]⟩
          | (normalized, none) => ⟨normalized, diag1, [req]⟩

/-- Method `BoskClient.PutJSONAsString`. -/
def PutJSONAsString (net : Net) (client : BoskClient) (url : String) (value : Bytes)
    (diag : Diagnostics) : Effects :=
  match NewRequest net "PUT" url (some value) with
  | .error err =>
    ⟨diag.AddError "Client Error" "Unable to create HTTP PUT request: %s" [.err (.text err)], []⟩
  | .ok req0 =>
    let req := client.applyAuth req0
    match client.httpClient.Do req with
    | .error err =>
      ⟨diag.AddError "Client Error" "Unable to PUT node: %s" [.err (.text err)], [req]⟩
    | .ok httpResp =>
      if statusClass httpResp.StatusCode ≠ 2 then
        ⟨diag.AddError "Client Error" "PUT returned unexpected status: %s"
          [.str httpResp.Status], [req]⟩
      else ⟨diag, [req]⟩

/-- Method `BoskClient.Delete`. The credentials are set on the request before
the error of `http.NewRequest` is examined: when the request is nil and the
client has credentials, `req.SetBasicAuth` dereferences nil and the call
panics. -/
def Delete (net : Net) (client : BoskClient) (url : String) (diag : Diagnostics) :
    Except Panic Effects :=
  match NewRequest net "DELETE" url none with
  | .error err =>
    match client.auth with
    | some _ => .error .nilPointerDereference
    | none =>
      .ok ⟨diag.AddError "Client Error" "Unable to create HTTP DELETE request: %s"
        [.err (.text err)], []⟩
  | .ok req0 =>
    let req := client.applyAuth req0
    match client.httpClient.Do req with
    | .error err =>
      .ok ⟨diag.AddError "Client Error" "Unable to DELETE node: %s" [.err (.text err)], [req]⟩
    | .ok httpResp =>
      if statusClass httpResp.StatusCode ≠ 2 then
        .ok ⟨diag.AddError "Client Error" "DELETE returned unexpected status: %s"
          [.str httpResp.Status], [req]⟩
      else .ok ⟨diag, [req]⟩

/-! ## The JSON grammar of RFC 8259 on bytes

The reading of "syntactically valid JSON" in the specification: the grammar
of RFC 8259, independent of the scanner above, on a text encoded in UTF-8
(`ValidJSON`). The productions are first read on bytes, a byte from 0x80
inside a string being a character byte (`ScannedJSON`, what the scanner of
`encoding/json` accepts up to its nesting limit); `ValidJSON` adds that the
text is well-formed UTF-8. -/

/-- Production `ws`: spaces, tabs, line feeds and carriage returns. -/
def IsWS (w : Bytes) : Prop := ∀ c ∈ w, c = 0x20 ∨ c = 0x09 ∨ c = 0x0A ∨ c = 0x0D

/-- Run of DIGITs. -/
def IsDigits (ds : Bytes) : Prop := ∀ c ∈ ds, 48 ≤ c ∧ c ≤ 57

/-- Production `int = zero / ( digit1-9 *DIGIT )`. -/
def IsInt (t : Bytes) : Prop :=
  t = [48] ∨ ∃ d ds, t = d :: ds ∧ 49 ≤ d ∧ d ≤ 57 ∧ IsDigits ds

/-- Production `frac = decimal-point 1*DIGIT`. -/
def IsFrac (t : Bytes) : Prop := ∃ d ds, t = 46 :: d :: ds ∧ IsDigits (d :: ds)

/-- Production `exp = e [ minus / plus ] 1*DIGIT`. -/
def IsExp (t : Bytes) : Prop :=
  ∃ e sg d ds, t = e :: (sg ++ d :: ds) ∧ (e = 101 ∨ e = 69) ∧
    (sg = [] ∨ sg = [43] ∨ sg = [45]) ∧ IsDigits (d :: ds)

/-- Production `number = [ minus ] int [ frac ] [ exp ]`. -/
def IsNumber (t : Bytes) : Prop :=
  ∃ sg ip fp ep, t = sg ++ ip ++ fp ++ ep ∧ (sg = [] ∨ sg = [45]) ∧ IsInt ip ∧
    (fp = [] ∨ IsFrac fp) ∧ (ep = [] ∨ IsExp ep)

/-- Production `HEXDIG`, in either case. -/
def IsHexDigit (c : Nat) : Prop :=
  (48 ≤ c ∧ c ≤ 57) ∨ (97 ≤ c ∧ c ≤ 102) ∨ (65 ≤ c ∧ c ≤ 70)

/-- Production `*char` between the quotes of a string: unescaped bytes from
0x20 other than the quote and the backslash, the two-character escapes
`\" \\ \/ \b \f \n \r \t`, and `\u` with four hexadecimal digits. -/
inductive IsChars : Bytes → Prop where
  | nil : IsChars []
  | unescaped (c : Nat) (t : Bytes) : 0x20 ≤ c → c ≠ 34 → c ≠ 92 → IsChars t → IsChars (c :: t)
  | escape (e : Nat) (t : Bytes) :
      (e = 34 ∨ e = 92 ∨ e = 47 ∨ e = 98 ∨ e = 102 ∨ e = 110 ∨ e = 114 ∨ e = 116) →
      IsChars t → IsChars (92 :: e :: t)
  | escapeU (h1 h2 h3 h4 : Nat) (t : Bytes) :
      IsHexDigit h1 → IsHexDigit h2 → IsHexDigit h3 → IsHexDigit h4 →
      IsChars t → IsChars (92 :: 117 :: h1 :: h2 :: h3 :: h4 :: t)

mutual
/-- Production `value`: `t` is a text of the value `s`, without whitespace
around it. -/
def Syn.Text : Syn → Bytes → Prop
  | .null, t => t = [110, 117, 108, 108]
  | .bool true, t => t = [116, 114, 117, 101]
  | .bool false, t => t = [102, 97, 108, 115, 101]
  | .number lit, t => t = lit ∧ IsNumber lit
  | .string raw, t => t = 34 :: (raw ++ [34]) ∧ IsChars raw
  | .array [], t => ∃ w, IsWS w ∧ t = 91 :: (w ++ [93])
  | .array (x :: xs), t =>
    ∃ w1 u w2 r, IsWS w1 ∧ Syn.Text x u ∧ IsWS w2 ∧ ElemsTail xs r ∧
      t = 91 :: (w1 ++ u ++ w2 ++ r ++ [93])
  | .object [], t => ∃ w, IsWS w ∧ t = 123 :: (w ++ [125])
  | .object ((k, x) :: ms), t =>
    ∃ w1 w2 w3 u w4 r, IsWS w1 ∧ IsChars k ∧ IsWS w2 ∧ IsWS w3 ∧ Syn.Text x u ∧ IsWS w4 ∧
      MembersTail ms r ∧
      t = 123 :: (w1 ++ 34 :: (k ++ 34 :: (w2 ++ 58 :: (w3 ++ u ++ w4 ++ r ++ [125]))))
/-- Further elements of an array: `*( value-separator value )`. -/
def ElemsTail : List Syn → Bytes → Prop
  | [], r => r = []
  | x :: xs, r =>
    ∃ w1 u w2 r2, IsWS w1 ∧ Syn.Text x u ∧ IsWS w2 ∧ ElemsTail xs r2 ∧
      r = 44 :: (w1 ++ u ++ w2 ++ r2)
/-- Further members of an object: `*( value-separator member )`. -/
def MembersTail : List (Bytes × Syn) → Bytes → Prop
  | [], r => r = []
  | (k, x) :: ms, r =>
    ∃ w1 w2 w3 u w4 r2, IsWS w1 ∧ IsChars k ∧ IsWS w2 ∧ IsWS w3 ∧ Syn.Text x u ∧ IsWS w4 ∧
      MembersTail ms r2 ∧
      r = 44 :: (w1 ++ 34 :: (k ++ 34 :: (w2 ++ 58 :: (w3 ++ u ++ w4 ++ r2))))
end

/-- Production `JSON-text = ws value ws`: `b` is a text of the value `s`. -/
def JSONText (s : Syn) (b : Bytes) : Prop :=
  ∃ w1 t w2, IsWS w1 ∧ s.Text t ∧ IsWS w2 ∧ b = w1 ++ t ++ w2

/-- Text of the grammar read on bytes, the way the scanner of
`encoding/json` reads its input: inside a string every byte from 0x80 counts
as a character, whether or not the bytes form UTF-8. -/
def ScannedJSON (b : Bytes) : Prop := ∃ s, JSONText s b

/-- Unicode scalar value: a code point up to U+10FFFF outside the surrogate
range. -/
def ValidRune (r : Nat) : Prop := r < 0xD800 ∨ (0xE000 ≤ r ∧ r ≤ 0x10FFFF)

/-- Well-formed UTF-8: a concatenation of encodings of Unicode scalar
values. -/
inductive Utf8 : Bytes → Prop where
  | nil : Utf8 []
  | cons (r : Nat) (t : Bytes) : ValidRune r → Utf8 t → Utf8 (encodeRune r ++ t)

/-- Byte sequence that is syntactically valid JSON in the sense of RFC 8259:
a text of the grammar (section 2) encoded in UTF-8 (section 8.1). The
grammar is over code points; outside strings it has ASCII only, so the text
is well-formed UTF-8 exactly when the content of every string is, and a
string then holds unescaped code points from U+0020 other than the quote and
the backslash, and escapes. -/
def ValidJSON (b : Bytes) : Prop := ScannedJSON b ∧ Utf8 b

/-! ## Concrete transports used to instantiate the theorems -/

/-- URL parser that rejects the URL `:` and accepts every other one. -/
def exampleNet : Net :=
  ⟨fun u => if u = ":" then some "missing protocol scheme" else none⟩

/-- Transport that answers every request with the given status code and
body. -/
def constTransport (code : Int) (status : String) (body : Bytes) : HttpClient :=
  ⟨fun _ => .ok ⟨code, status, .ok body⟩⟩

/-- Transport that fails on every request. -/
def failingTransport : HttpClient :=
  ⟨fun _ => .error "connection refused"⟩
/-! ## Measures and side conditions used in the proofs -/

/-- Input after a number token does not continue the token: it is empty or
starts with a byte other than a digit, `.`, `e` and `E`. -/
def NumberEnd (rest : Bytes) : Prop :=
  ∀ c, rest.head? = some c → isDigit c = false ∧ c ≠ 46 ∧ c ≠ 101 ∧ c ≠ 69

mutual
/-- Fuel that `parseValue` needs for a value. -/
def Syn.fuel : Syn → Nat
  | .array xs => fuelList xs + 1
  | .object ms => fuelMembers ms + 1
  | _ => 1
/-- Fuel that `parseElems` needs for the elements of an array. -/
def fuelList : List Syn → Nat
  | [] => 0
  | x :: xs => max x.fuel (fuelList xs) + 1
/-- Fuel that `parseMembers` needs for the members of an object. -/
def fuelMembers : List (Bytes × Syn) → Nat
  | [] => 0
  | (_, x) :: ms => max x.fuel (fuelMembers ms) + 1
end

/-- Input after a value inside a JSON text: it is empty or starts with
whitespace, a comma or a closing bracket or brace. -/
def ValueEnd (rest : Bytes) : Prop :=
  ∀ c, rest.head? = some c → isSpace c = true ∨ c = 44 ∨ c = 93 ∨ c = 125

/-- First byte of a value: `n t f " [ {`, the minus sign or a digit. -/
def StartByte (c : Nat) : Prop :=
  c = 110 ∨ c = 116 ∨ c = 102 ∨ c = 34 ∨ c = 91 ∨ c = 123 ∨ c = 45 ∨ (48 ≤ c ∧ c ≤ 57)

/-- Text that `appendString` writes for one scalar value. -/
def runeText (r : Nat) : Bytes :=
  if r < 0x80 then (if htmlSafe r then [r] else escapeByte r)
  else if r = 0x2028 ∨ r = 0x2029 then [92, 117, 50, 48, 50, hexDigit (r % 16)]
  else encodeRune r

/-- Finite `float64`: the exponent field is not all ones, and the fraction
fits its 52 bits. -/
def FiniteFloat (f : Float64) : Prop := f.expo ≤ 2046 ∧ f.frac < 2 ^ 52

/-- Magnitude of a finite `float64`, as a rational number. -/
def Float64.absVal (f : Float64) : ℚ := (f.mant : ℚ) * (2 : ℚ) ^ f.exp2


mutual
/-- Nesting depth of a decoded value. -/
def Value.depth : Value → Nat
  | .array xs => Value.depthList xs + 1
  | .object ms => Value.depthMembers ms + 1
  | _ => 0
/-- Largest depth among the elements of a slice. -/
def Value.depthList : List Value → Nat
  | [] => 0
  | x :: xs => max x.depth (Value.depthList xs)
/-- Largest depth among the entries of a map. -/
def Value.depthMembers : List (Bytes × Value) → Nat
  | [] => 0
  | (_, x) :: ms => max x.depth (Value.depthMembers ms)
end

/-- Keys in strictly increasing order of Go string comparison. -/
def KeysSorted (ms : List (Bytes × Value)) : Prop :=
  (ms.map Prod.fst).Pairwise (fun a b => bytesLt a b = true)

mutual
/-- Values that `json.Unmarshal` produces: every number is finite, every
string and key is well-formed UTF-8, and the entries of every map stand in
strictly increasing key order. -/
def Value.Canon : Value → Prop
  | .null => True
  | .bool _ => True
  | .number f => FiniteFloat f
  | .string s => Utf8 s
  | .array xs => Value.CanonList xs
  | .object ms => Value.CanonMembers ms ∧ KeysSorted ms
/-- Every element of a slice is such a value. -/
def Value.CanonList : List Value → Prop
  | [] => True
  | x :: xs => x.Canon ∧ Value.CanonList xs
/-- Every key of a map is UTF-8 and every entry is such a value. -/
def Value.CanonMembers : List (Bytes × Value) → Prop
  | [] => True
  | (k, x) :: ms => Utf8 k ∧ x.Canon ∧ Value.CanonMembers ms
end

/-! ## The status test and the sink -/

theorem statusClass_eq_two_iff (c : Int) : statusClass c = 2 ↔ 200 ≤ c ∧ c ≤ 299 := by
  unfold statusClass
  rcases le_or_lt 0 c with h | h
  · rw [Int.tdiv_eq_ediv h (by decide)]; omega
  · have h1 : c = -(-c) := by omega
    have h2 : (0:Int) ≤ -c := by omega
    rw [h1, Int.neg_tdiv, Int.tdiv_eq_ediv h2 (by decide)]
    omega

theorem statusClass_ne_two_iff (c : Int) : statusClass c ≠ 2 ↔ c < 200 ∨ 299 < c := by
  rw [Ne, statusClass_eq_two_iff]; omega

theorem NewRequest_ok (net : Net) (method url : String) (body : Option Bytes)
    (h : net.urlParse url = none) :
    NewRequest net method url body = .ok ⟨method, url, body, none⟩ := by
  simp [NewRequest, h]

theorem NewRequest_error (net : Net) (method url : String) (body : Option Bytes) (err : String)
    (h : net.urlParse url = some err) :
    NewRequest net method url body = .error err := by
  simp [NewRequest, h]

theorem addsOneError_AddError (d : Diagnostics) (summary format : String) (args : List FmtArg) :
    d.addsOneError (d.AddError summary format args) :=
  ⟨_, rfl, rfl⟩

theorem addsOnlyWarnings_refl (d : Diagnostics) : d.addsOnlyWarnings d :=
  ⟨[], by simp, by simp⟩

theorem addsOnlyWarnings_AddWarning (d d1 : Diagnostics) (summary format : String)
    (args : List FmtArg) (h : d.addsOnlyWarnings d1) :
    d.addsOnlyWarnings (d1.AddWarning summary format args) := by
  obtain ⟨ws, rfl, hws⟩ := h
  refine ⟨ws ++ [⟨.warning, summary, format, args⟩], by simp [Diagnostics.AddWarning], ?_⟩
  intro w hw
  rcases List.mem_append.1 hw with h1 | h1
  · exact hws w h1
  · simp at h1; subst h1; rfl

theorem warningCount_AddWarning_pos (d1 : Diagnostics) (summary format : String)
    (args : List FmtArg) :
    0 < (d1.AddWarning summary format args).warningCount := by
  simp [Diagnostics.AddWarning, Diagnostics.warningCount, List.filter_append]

/-- Sink of `GetJSONAsString` after the UTF-8 test of the body. -/
theorem addsOnlyWarnings_utf8 (d : Diagnostics) (body : Bytes) (summary format : String)
    (args : List FmtArg) :
    d.addsOnlyWarnings (if (!utf8Valid body) = true then d.AddWarning summary format args else d) := by
  split
  · exact addsOnlyWarnings_AddWarning d d _ _ _ (addsOnlyWarnings_refl d)
  · exact addsOnlyWarnings_refl d

/-! ## `GetJSONAsString`: status codes -/

/-- C1: when the transport answers the GET request with a status code outside
200-299, `GetJSONAsString` returns `"ERROR"` and appends exactly one record,
an error, to the sink; when the status code lies in 200-299 and the body is
read, every record it appends is a warning. -/
theorem GetJSONAsString_status_contract (net : Net) (client : BoskClient) (url : String)
    (diag : Diagnostics) (resp : Response)
    (hreq : net.urlParse url = none)
    (hdo : client.httpClient.Do (client.applyAuth ⟨"GET", url, none, none⟩) = .ok resp) :
    ((resp.StatusCode < 200 ∨ 299 < resp.StatusCode) →
      (GetJSONAsString net client url diag).ret = ascii "ERROR" ∧
      diag.addsOneError (GetJSONAsString net client url diag).diag) ∧
    (∀ body, 200 ≤ resp.StatusCode ∧ resp.StatusCode ≤ 299 → resp.Body = .ok body →
      diag.addsOnlyWarnings (GetJSONAsString net client url diag).diag) := by
  constructor
  · intro hout
    have hne : statusClass resp.StatusCode ≠ 2 := (statusClass_ne_two_iff _).2 hout
    simp only [GetJSONAsString, NewRequest_ok net "GET" url none hreq, hdo]
    rw [if_pos hne]
    exact ⟨rfl, addsOneError_AddError _ _ _ _⟩
  · intro body hin hbody
    have heq : ¬ statusClass resp.StatusCode ≠ 2 := by
      rw [not_not]; exact (statusClass_eq_two_iff _).2 hin
    simp only [GetJSONAsString, NewRequest_ok net "GET" url none hreq, hdo]
    rw [if_neg heq]
    simp only [hbody]
    split
    · exact addsOnlyWarnings_AddWarning _ _ _ _ _ (addsOnlyWarnings_utf8 _ _ _ _ _)
    · exact addsOnlyWarnings_utf8 _ _ _ _ _

/-- Witness of C1 at a 404 answer and at a 200 answer with body `[]`. -/
theorem GetJSONAsString_status_contract_witness :
    ((GetJSONAsString exampleNet
        (NewBoskClientWithoutAuth (constTransport 404 "404 Not Found" []) "http://bosk/")
        "http://bosk/a" []).ret = ascii "ERROR" ∧
      Diagnostics.addsOneError [] (GetJSONAsString exampleNet
        (NewBoskClientWithoutAuth (constTransport 404 "404 Not Found" []) "http://bosk/")
        "http://bosk/a" []).diag) ∧
    Diagnostics.addsOnlyWarnings [] (GetJSONAsString exampleNet
        (NewBoskClientWithoutAuth (constTransport 200 "200 OK" (ascii "[]")) "http://bosk/")
        "http://bosk/a" []).diag :=
  ⟨(GetJSONAsString_status_contract exampleNet
      (NewBoskClientWithoutAuth (constTransport 404 "404 Not Found" []) "http://bosk/")
      "http://bosk/a" [] ⟨404, "404 Not Found", .ok []⟩ (by decide) rfl).1 (Or.inr (by decide)),
   (GetJSONAsString_status_contract exampleNet
      (NewBoskClientWithoutAuth (constTransport 200 "200 OK" (ascii "[]")) "http://bosk/")
      "http://bosk/a" [] ⟨200, "200 OK", .ok (ascii "[]")⟩ (by decide) rfl).2 (ascii "[]")
      ⟨by decide, by decide⟩ rfl⟩

/-! ## Credentials on the requests -/

theorem applyAuth_NewBoskClient (hc : HttpClient) (pfx u p : String) (req : Request) :
    (NewBoskClient hc pfx u p).applyAuth req = { req with basicAuth := some (u, p) } := rfl

theorem applyAuth_NewBoskClientWithoutAuth (hc : HttpClient) (pfx : String) (req : Request) :
    (NewBoskClientWithoutAuth hc pfx).applyAuth req = req := rfl

theorem GetJSONAsString_sent (net : Net) (client : BoskClient) (url : String)
    (diag : Diagnostics) :
    (GetJSONAsString net client url diag).sent =
      if net.urlParse url = none then [client.applyAuth ⟨"GET", url, none, none⟩] else [] := by
  unfold GetJSONAsString NewRequest
  cases hp : net.urlParse url with
  | some err => simp
  | none =>
    simp only [if_true]
    cases hd : client.httpClient.Do (client.applyAuth ⟨"GET", url, none, none⟩) with
    | error e => rfl
    | ok resp =>
      simp only
      split
      · rfl
      · cases hb : resp.Body with
        | error e => rfl
        | ok b =>
          simp only
          split <;> rfl

theorem PutJSONAsString_sent (net : Net) (client : BoskClient) (url : String) (value : Bytes)
    (diag : Diagnostics) :
    (PutJSONAsString net client url value diag).sent =
      if net.urlParse url = none then [client.applyAuth ⟨"PUT", url, some value, none⟩]
      else [] := by
  unfold PutJSONAsString NewRequest
  cases hp : net.urlParse url with
  | some err => simp
  | none =>
    simp only [if_true]
    cases hd : client.httpClient.Do (client.applyAuth ⟨"PUT", url, some value, none⟩) with
    | error e => rfl
    | ok resp =>
      simp only
      split <;> rfl

theorem Delete_sent (net : Net) (client : BoskClient) (url : String) (diag : Diagnostics)
    (eff : Effects) (h : Delete net client url diag = .ok eff) :
    eff.sent =
      if net.urlParse url = none then [client.applyAuth ⟨"DELETE", url, none, none⟩]
      else [] := by
  cases hp : net.urlParse url with
  | some err =>
    simp only [Delete, NewRequest_error net "DELETE" url none err hp] at h
    cases ha : client.auth with
    | some a => rw [ha] at h; simp at h
    | none => rw [ha] at h; simp at h; subst h; simp
  | none =>
    simp only [Delete, NewRequest_ok net "DELETE" url none hp] at h
    simp only [if_true]
    cases hd : client.httpClient.Do (client.applyAuth ⟨"DELETE", url, none, none⟩) with
    | error e => simp [hd] at h; subst h; rfl
    | ok resp =>
      simp only [hd] at h
      split at h <;> (simp at h; subst h; rfl)

theorem Delete_ok_of_urlParse_none (net : Net) (client : BoskClient) (url : String)
    (diag : Diagnostics) (h : net.urlParse url = none) :
    ∃ eff, Delete net client url diag = .ok eff := by
  simp only [Delete, NewRequest_ok net "DELETE" url none h]
  cases hd : client.httpClient.Do (client.applyAuth ⟨"DELETE", url, none, none⟩) with
  | error e => exact ⟨_, rfl⟩
  | ok resp =>
    simp only
    split <;> exact ⟨_, rfl⟩

/-- C7: whenever a request can be built for the URL, each of
`GetJSONAsString`, `PutJSONAsString` and `Delete` hands exactly one request to
the transport; for a client built by `NewBoskClient` that request carries the
Basic-auth credentials `(username, password)`, and for a client built by
`NewBoskClientWithoutAuth` it carries no Basic-auth header. -/
theorem requests_carry_basic_auth (net : Net) (hc : HttpClient)
    (urlPrefix username password url : String) (value : Bytes) (diag : Diagnostics)
    (hurl : net.urlParse url = none) :
    ((GetJSONAsString net (NewBoskClient hc urlPrefix username password) url diag).sent =
        [⟨"GET", url, none, some (username, password)⟩] ∧
      (PutJSONAsString net (NewBoskClient hc urlPrefix username password) url value diag).sent =
        [⟨"PUT", url, some value, some (username, password)⟩] ∧
      ∃ eff, Delete net (NewBoskClient hc urlPrefix username password) url diag = .ok eff ∧
        eff.sent = [⟨"DELETE", url, none, some (username, password)⟩]) ∧
    ((GetJSONAsString net (NewBoskClientWithoutAuth hc urlPrefix) url diag).sent =
        [⟨"GET", url, none, none⟩] ∧
      (PutJSONAsString net (NewBoskClientWithoutAuth hc urlPrefix) url value diag).sent =
        [⟨"PUT", url, some value, none⟩] ∧
      ∃ eff, Delete net (NewBoskClientWithoutAuth hc urlPrefix) url diag = .ok eff ∧
        eff.sent = [⟨"DELETE", url, none, none⟩]) := by
  refine ⟨⟨?_, ?_, ?_⟩, ⟨?_, ?_, ?_⟩⟩
  · rw [GetJSONAsString_sent, if_pos hurl]; rfl
  · rw [PutJSONAsString_sent, if_pos hurl]; rfl
  · obtain ⟨eff, he⟩ := Delete_ok_of_urlParse_none net
      (NewBoskClient hc urlPrefix username password) url diag hurl
    exact ⟨eff, he, by rw [Delete_sent _ _ _ _ _ he, if_pos hurl]; rfl⟩
  · rw [GetJSONAsString_sent, if_pos hurl]; rfl
  · rw [PutJSONAsString_sent, if_pos hurl]; rfl
  · obtain ⟨eff, he⟩ := Delete_ok_of_urlParse_none net
      (NewBoskClientWithoutAuth hc urlPrefix) url diag hurl
    exact ⟨eff, he, by rw [Delete_sent _ _ _ _ _ he, if_pos hurl]; rfl⟩

/-- Witness of C7 on a transport answering 200 to the URL `http://bosk/a`. -/
theorem requests_carry_basic_auth_witness :
    ((GetJSONAsString exampleNet
        (NewBoskClient (constTransport 200 "200 OK" []) "http://bosk/" "user" "secret")
        "http://bosk/a" []).sent = [⟨"GET", "http://bosk/a", none, some ("user", "secret")⟩] ∧
      (PutJSONAsString exampleNet
        (NewBoskClient (constTransport 200 "200 OK" []) "http://bosk/" "user" "secret")
        "http://bosk/a" (ascii "1") []).sent =
          [⟨"PUT", "http://bosk/a", some (ascii "1"), some ("user", "secret")⟩] ∧
      ∃ eff, Delete exampleNet
        (NewBoskClient (constTransport 200 "200 OK" []) "http://bosk/" "user" "secret")
        "http://bosk/a" [] = .ok eff ∧
        eff.sent = [⟨"DELETE", "http://bosk/a", none, some ("user", "secret")⟩]) ∧
    ((GetJSONAsString exampleNet
        (NewBoskClientWithoutAuth (constTransport 200 "200 OK" []) "http://bosk/")
        "http://bosk/a" []).sent = [⟨"GET", "http://bosk/a", none, none⟩] ∧
      (PutJSONAsString exampleNet
        (NewBoskClientWithoutAuth (constTransport 200 "200 OK" []) "http://bosk/")
        "http://bosk/a" (ascii "1") []).sent =
          [⟨"PUT", "http://bosk/a", some (ascii "1"), none⟩] ∧
      ∃ eff, Delete exampleNet
        (NewBoskClientWithoutAuth (constTransport 200 "200 OK" []) "http://bosk/")
        "http://bosk/a" [] = .ok eff ∧
        eff.sent = [⟨"DELETE", "http://bosk/a", none, none⟩]) :=
  requests_carry_basic_auth exampleNet (constTransport 200 "200 OK" []) "http://bosk/"
    "user" "secret" "http://bosk/a" (ascii "1") [] (by decide)

/-! ## `PutJSONAsString` -/

/-- C8: `PutJSONAsString` appends exactly one record, an error, to the sink
when the request cannot be built, when the transport fails, and when the
status code of the answer lies outside 200-299; it leaves the sink unchanged
when the status code lies in 200-299; when the request cannot be built,
nothing is handed to the transport. -/
theorem PutJSONAsString_contract (net : Net) (client : BoskClient) (url : String)
    (value : Bytes) (diag : Diagnostics) :
    (∀ err, net.urlParse url = some err →
      diag.addsOneError (PutJSONAsString net client url value diag).diag ∧
      (PutJSONAsString net client url value diag).sent = []) ∧
    (net.urlParse url = none →
      (∀ err, client.httpClient.Do (client.applyAuth ⟨"PUT", url, some value, none⟩) = .error err →
        diag.addsOneError (PutJSONAsString net client url value diag).diag) ∧
      (∀ resp, client.httpClient.Do (client.applyAuth ⟨"PUT", url, some value, none⟩) = .ok resp →
        ((resp.StatusCode < 200 ∨ 299 < resp.StatusCode) →
          diag.addsOneError (PutJSONAsString net client url value diag).diag) ∧
        (200 ≤ resp.StatusCode ∧ resp.StatusCode ≤ 299 →
          (PutJSONAsString net client url value diag).diag = diag))) := by
  refine ⟨?_, ?_⟩
  · intro err herr
    simp only [PutJSONAsString, NewRequest_error net "PUT" url (some value) err herr]
    exact ⟨addsOneError_AddError _ _ _ _, trivial⟩
  · intro hurl
    refine ⟨?_, ?_⟩
    · intro err hdo
      simp only [PutJSONAsString, NewRequest_ok net "PUT" url (some value) hurl, hdo]
      exact addsOneError_AddError _ _ _ _
    · intro resp hdo
      refine ⟨?_, ?_⟩
      · intro hout
        have hne : statusClass resp.StatusCode ≠ 2 := (statusClass_ne_two_iff _).2 hout
        simp only [PutJSONAsString, NewRequest_ok net "PUT" url (some value) hurl, hdo]
        rw [if_pos hne]
        exact addsOneError_AddError _ _ _ _
      · intro hin
        have heq : ¬ statusClass resp.StatusCode ≠ 2 := by
          rw [not_not]; exact (statusClass_eq_two_iff _).2 hin
        simp only [PutJSONAsString, NewRequest_ok net "PUT" url (some value) hurl, hdo]
        rw [if_neg heq]

/-- Witness of C8: a URL that cannot be parsed, a failing transport, a 500
answer and a 204 answer. -/
theorem PutJSONAsString_contract_witness :
    (Diagnostics.addsOneError []
        (PutJSONAsString exampleNet (NewBoskClientWithoutAuth failingTransport "http://bosk/")
          ":" (ascii "1") []).diag ∧
      (PutJSONAsString exampleNet (NewBoskClientWithoutAuth failingTransport "http://bosk/")
          ":" (ascii "1") []).sent = []) ∧
    Diagnostics.addsOneError []
        (PutJSONAsString exampleNet (NewBoskClientWithoutAuth failingTransport "http://bosk/")
          "http://bosk/a" (ascii "1") []).diag ∧
    Diagnostics.addsOneError []
        (PutJSONAsString exampleNet
          (NewBoskClientWithoutAuth (constTransport 500 "500 Internal Server Error" [])
            "http://bosk/")
          "http://bosk/a" (ascii "1") []).diag ∧
    (PutJSONAsString exampleNet
          (NewBoskClientWithoutAuth (constTransport 204 "204 No Content" []) "http://bosk/")
          "http://bosk/a" (ascii "1") []).diag = [] :=
  ⟨(PutJSONAsString_contract exampleNet (NewBoskClientWithoutAuth failingTransport "http://bosk/")
      ":" (ascii "1") []).1 "missing protocol scheme" (by decide),
   ((PutJSONAsString_contract exampleNet (NewBoskClientWithoutAuth failingTransport "http://bosk/")
      "http://bosk/a" (ascii "1") []).2 (by decide)).1 "connection refused" rfl,
   (((PutJSONAsString_contract exampleNet
      (NewBoskClientWithoutAuth (constTransport 500 "500 Internal Server Error" [])
        "http://bosk/")
      "http://bosk/a" (ascii "1") []).2 (by decide)).2
      ⟨500, "500 Internal Server Error", .ok []⟩ rfl).1 (Or.inr (by decide)),
   (((PutJSONAsString_contract exampleNet
      (NewBoskClientWithoutAuth (constTransport 204 "204 No Content" []) "http://bosk/")
      "http://bosk/a" (ascii "1") []).2 (by decide)).2
      ⟨204, "204 No Content", .ok []⟩ rfl).2 ⟨by decide, by decide⟩⟩

/-! ## `Delete` -/

/-- Without credentials, `Delete` on a URL for which no request can be built
appends exactly one error and hands nothing to the transport. -/
theorem Delete_request_error_without_auth (net : Net) (hc : HttpClient)
    (urlPrefix url err : String) (diag : Diagnostics) (herr : net.urlParse url = some err) :
    ∃ eff, Delete net (NewBoskClientWithoutAuth hc urlPrefix) url diag = .ok eff ∧
      diag.addsOneError eff.diag ∧ eff.sent = [] := by
  refine ⟨⟨diag.AddError "Client Error" "Unable to create HTTP DELETE request: %s"
    [.err (.text err)], []⟩, ?_, addsOneError_AddError diag _ _ _, rfl⟩
  simp [Delete, NewRequest_error net "DELETE" url none err herr, NewBoskClientWithoutAuth]

/-- With credentials, `Delete` on a URL for which no request can be built
panics: it neither returns nor appends anything to the sink. -/
theorem Delete_request_error_with_auth (net : Net) (hc : HttpClient)
    (urlPrefix username password url err : String) (diag : Diagnostics)
    (herr : net.urlParse url = some err) :
    Delete net (NewBoskClient hc urlPrefix username password) url diag =
      .error .nilPointerDereference := by
  simp [Delete, NewRequest_error net "DELETE" url none err herr, NewBoskClient]

/-- C9 (code at the failing input): on the URL `:`, which `url.Parse`
rejects, `Delete` of a client built with credentials panics on the nil
request instead of appending an error and returning. -/
theorem Delete_panics_with_credentials :
    Delete exampleNet (NewBoskClient failingTransport "http://bosk/" "user" "secret") ":" [] =
      .error .nilPointerDereference :=
  Delete_request_error_with_auth exampleNet failingTransport "http://bosk/" "user" "secret" ":"
    "missing protocol scheme" [] (by decide)

/-! ## The scanner accepts only texts of the grammar -/

theorem isSpace_iff (c : Nat) : isSpace c = true ↔ (c = 0x20 ∨ c = 0x09 ∨ c = 0x0A ∨ c = 0x0D) := by
  simp [isSpace]; tauto

theorem isDigit_iff (c : Nat) : isDigit c = true ↔ (48 ≤ c ∧ c ≤ 57) := by
  simp [isDigit]

theorem isHex_iff (c : Nat) : isHex c = true ↔ IsHexDigit c := by
  simp [isHex, IsHexDigit, or_assoc]

theorem isEscapeLetter_iff (e : Nat) : isEscapeLetter e = true ↔
    (e = 34 ∨ e = 92 ∨ e = 47 ∨ e = 98 ∨ e = 102 ∨ e = 110 ∨ e = 114 ∨ e = 116) := by
  simp [isEscapeLetter]; tauto

theorem IsWS_nil : IsWS [] := by intro c hc; simp at hc

theorem IsWS_cons {c : Nat} {w : Bytes} (hc : isSpace c = true) (hw : IsWS w) : IsWS (c :: w) := by
  intro d hd
  rcases List.mem_cons.1 hd with h | h
  · subst h; exact (isSpace_iff _).1 hc
  · exact hw d h

theorem IsWS_append {w1 w2 : Bytes} (h1 : IsWS w1) (h2 : IsWS w2) : IsWS (w1 ++ w2) := by
  intro d hd
  rcases List.mem_append.1 hd with h | h
  · exact h1 d h
  · exact h2 d h

theorem skipSpace_spec (s : Bytes) : ∃ w, IsWS w ∧ s = w ++ skipSpace s := by
  induction s with
  | nil => exact ⟨[], IsWS_nil, rfl⟩
  | cons c cs ih =>
    unfold skipSpace
    by_cases hc : isSpace c = true
    · obtain ⟨w, hw, he⟩ := ih
      refine ⟨c :: w, IsWS_cons hc hw, ?_⟩
      simp only [hc, if_true, List.cons_append]
      rw [← he]
    · exact ⟨[], IsWS_nil, by simp [hc]⟩

theorem spanDigits_spec (s : Bytes) :
    s = (spanDigits s).1 ++ (spanDigits s).2 ∧ IsDigits (spanDigits s).1 := by
  induction s with
  | nil => exact ⟨rfl, by intro c hc; simp [spanDigits] at hc⟩
  | cons c cs ih =>
    unfold spanDigits
    by_cases hc : isDigit c = true
    · simp only [hc, if_true, List.cons_append]
      refine ⟨by rw [← ih.1], ?_⟩
      intro d hd
      rcases List.mem_cons.1 hd with h | h
      · subst h; exact (isDigit_iff _).1 hc
      · exact ih.2 d h
    · simp only [hc]
      exact ⟨rfl, by intro d hd; simp at hd⟩

theorem scanString_sound (cs raw rest : Bytes) (h : scanString cs = some (raw, rest)) :
    cs = raw ++ 34 :: rest ∧ IsChars raw := by
  induction cs using scanString.induct generalizing raw with
  | case1 => simp [scanString] at h
  | case2 cs =>
    simp [scanString] at h
    obtain ⟨rfl, rfl⟩ := h
    exact ⟨rfl, IsChars.nil⟩
  | case3 => simp [scanString] at h
  | case4 h1 h2 h3 h4 cs hx r rest2 hs ih =>
    rw [scanString, if_pos hx, hs] at h
    simp at h
    obtain ⟨rfl, rfl⟩ := h
    obtain ⟨he, hc⟩ := ih r hs
    simp only [Bool.and_eq_true, isHex_iff] at hx
    exact ⟨by simp [he], IsChars.escapeU _ _ _ _ _ hx.1.1.1 hx.1.1.2 hx.1.2 hx.2 hc⟩
  | case5 h1 h2 h3 h4 cs hx hs ih =>
    rw [scanString, if_pos hx, hs] at h
    simp at h
  | case6 h1 h2 h3 h4 cs hx =>
    rw [scanString, if_neg hx] at h
    simp at h
  | case7 e cs hne he r rest2 hs ih =>
    rw [scanString.eq_5 _ _ hne, if_pos he, hs] at h
    simp at h
    obtain ⟨rfl, rfl⟩ := h
    obtain ⟨heq, hc⟩ := ih r hs
    exact ⟨by simp [heq], IsChars.escape _ _ ((isEscapeLetter_iff _).1 he) hc⟩
  | case8 e cs hne he hs ih =>
    rw [scanString.eq_5 _ _ hne, if_pos he, hs] at h
    simp at h
  | case9 e cs hne he =>
    rw [scanString.eq_5 _ _ hne, if_neg he] at h
    simp at h
  | case10 c cs n1 n2 n3 n4 hlt =>
    rw [scanString.eq_6 _ _ n1 n2 n3 n4, if_pos hlt] at h
    simp at h
  | case11 c cs n1 n2 n3 n4 hlt r rest2 hs ih =>
    rw [scanString.eq_6 _ _ n1 n2 n3 n4, if_neg hlt, hs] at h
    simp at h
    obtain ⟨rfl, rfl⟩ := h
    obtain ⟨heq, hc⟩ := ih r hs
    have h92 : c ≠ 92 := by
      intro h92
      cases cs with
      | nil => exact n2 h92 rfl
      | cons e cs1 => exact n4 e cs1 h92 rfl
    exact ⟨by simp [heq], IsChars.unescaped _ _ (by omega) (fun hc34 => n1 hc34) h92 hc⟩
  | case12 c cs n1 n2 n3 n4 hlt hs ih =>
    rw [scanString.eq_6 _ _ n1 n2 n3 n4, if_neg hlt, hs] at h
    simp at h

theorem scanInt_sound (s ip r : Bytes) (h : scanInt s = some (ip, r)) :
    s = ip ++ r ∧ IsInt ip := by
  cases s with
  | nil => simp [scanInt] at h
  | cons c cs =>
    simp only [scanInt] at h
    by_cases h0 : c = 48
    · simp [h0] at h
      obtain ⟨rfl, rfl⟩ := h
      exact ⟨by simp [h0], Or.inl rfl⟩
    · by_cases hd : isDigit c = true
      · simp [h0, hd] at h
        obtain ⟨rfl, rfl⟩ := h
        have hs := spanDigits_spec cs
        have hc := (isDigit_iff c).1 hd
        refine ⟨by simp; exact hs.1, Or.inr ⟨c, _, rfl, by omega, hc.2, hs.2⟩⟩
      · simp [h0, hd] at h

theorem scanFrac_sound (s fp r : Bytes) (h : scanFrac s = some (fp, r)) :
    s = fp ++ r ∧ (fp = [] ∨ IsFrac fp) := by
  unfold scanFrac at h
  split at h
  · rename_i cs
    have hs := spanDigits_spec cs
    by_cases he : (spanDigits cs).1 = []
    · simp [he] at h
    · simp [he] at h
      obtain ⟨rfl, rfl⟩ := h
      refine ⟨by simp; exact hs.1, Or.inr ?_⟩
      cases hd : (spanDigits cs).1 with
      | nil => exact absurd hd he
      | cons d ds => exact ⟨d, ds, rfl, by rw [← hd]; exact hs.2⟩
  · simp at h
    obtain ⟨rfl, rfl⟩ := h
    exact ⟨rfl, Or.inl rfl⟩

theorem takeMinus_spec (s : Bytes) :
    s = (takeMinus s).1 ++ (takeMinus s).2 ∧ ((takeMinus s).1 = [] ∨ (takeMinus s).1 = [45]) := by
  unfold takeMinus
  split <;> simp

theorem takeSign_spec (s : Bytes) :
    s = (takeSign s).1 ++ (takeSign s).2 ∧
      ((takeSign s).1 = [] ∨ (takeSign s).1 = [43] ∨ (takeSign s).1 = [45]) := by
  unfold takeSign
  split <;> simp

theorem scanExp_sound (s ep r : Bytes) (h : scanExp s = some (ep, r)) :
    s = ep ++ r ∧ (ep = [] ∨ IsExp ep) := by
  cases s with
  | nil =>
    simp [scanExp] at h
    obtain ⟨rfl, rfl⟩ := h
    exact ⟨rfl, Or.inl rfl⟩
  | cons c cs =>
    simp only [scanExp] at h
    by_cases hc : c = 101 ∨ c = 69
    · rw [if_pos hc] at h
      have hs := spanDigits_spec (takeSign cs).2
      have ht := takeSign_spec cs
      by_cases he : (spanDigits (takeSign cs).2).1 = []
      · simp [he] at h
      · simp [he] at h
        obtain ⟨rfl, rfl⟩ := h
        refine ⟨?_, Or.inr ?_⟩
        · simp only [List.cons_append, List.append_assoc, List.cons.injEq, true_and]
          rw [← hs.1]; exact ht.1
        · cases hd : (spanDigits (takeSign cs).2).1 with
          | nil => exact absurd hd he
          | cons d ds => exact ⟨c, _, d, ds, rfl, hc, ht.2, by rw [← hd]; exact hs.2⟩
    · rw [if_neg hc] at h
      simp at h
      obtain ⟨rfl, rfl⟩ := h
      exact ⟨rfl, Or.inl rfl⟩

theorem scanNumber_sound (s lit rest : Bytes) (h : scanNumber s = some (lit, rest)) :
    s = lit ++ rest ∧ IsNumber lit := by
  unfold scanNumber at h
  have hm := takeMinus_spec s
  simp only at h
  cases hi : scanInt (takeMinus s).2 with
  | none => simp [hi] at h
  | some p1 =>
    obtain ⟨ip, s2⟩ := p1
    cases hf : scanFrac s2 with
    | none => simp [hi, hf] at h
    | some p2 =>
      obtain ⟨fp, s3⟩ := p2
      cases he : scanExp s3 with
      | none => simp [hi, hf, he] at h
      | some p3 =>
        obtain ⟨ep, s4⟩ := p3
        simp [hi, hf, he] at h
        obtain ⟨rfl, rfl⟩ := h
        obtain ⟨e1, i1⟩ := scanInt_sound _ _ _ hi
        obtain ⟨e2, i2⟩ := scanFrac_sound _ _ _ hf
        obtain ⟨e3, i3⟩ := scanExp_sound _ _ _ he
        refine ⟨?_, (takeMinus s).1, ip, fp, ep, by simp, hm.2, i1, i2, i3⟩
        conv_lhs => rw [hm.1, e1, e2, e3]
        simp

/-! ## The parser accepts only texts of the grammar -/

theorem parse_sound (fuel : Nat) :
    (∀ s v rest, parseValue fuel s = some (v, rest) → ∃ t, s = t ++ rest ∧ v.Text t) ∧
    (∀ s xs rest, parseElems fuel s = some (xs, rest) →
      ∃ x xs1 u w2 r, xs = x :: xs1 ∧ x.Text u ∧ IsWS w2 ∧ ElemsTail xs1 r ∧
        s = u ++ w2 ++ r ++ 93 :: rest) ∧
    (∀ s ms rest, parseMembers fuel s = some (ms, rest) →
      ∃ k x ms1 w2 w3 u w4 r, ms = (k, x) :: ms1 ∧ IsChars k ∧ IsWS w2 ∧ IsWS w3 ∧ x.Text u ∧
        IsWS w4 ∧ MembersTail ms1 r ∧
        s = 34 :: (k ++ 34 :: (w2 ++ 58 :: (w3 ++ u ++ w4 ++ r ++ 125 :: rest)))) := by
  induction fuel with
  | zero =>
    refine ⟨?_, ?_, ?_⟩
    · intro s v rest h; simp [parseValue] at h
    · intro s xs rest h; simp [parseElems] at h
    · intro s ms rest h; simp [parseMembers] at h
  | succ fuel ih =>
    obtain ⟨ihV, ihE, ihM⟩ := ih
    refine ⟨?_, ?_, ?_⟩
    · intro s v rest h
      cases s with
      | nil => simp [parseValue] at h
      | cons c cs =>
        simp only [parseValue] at h
        split at h
        · -- object
          rename_i hc
          subst hc
          obtain ⟨w, hw, hcs⟩ := skipSpace_spec cs
          split at h
          · rename_i rest2 hsk
            simp at h
            obtain ⟨rfl, rfl⟩ := h
            refine ⟨123 :: (w ++ [125]), ?_, ?_⟩
            · rw [hcs, hsk]; simp
            · simp only [Syn.Text]; exact ⟨w, hw, rfl⟩
          · cases hm : parseMembers fuel (skipSpace cs) with
            | none => simp [hm] at h
            | some p =>
              obtain ⟨ms, rest2⟩ := p
              simp [hm] at h
              obtain ⟨rfl, rfl⟩ := h
              obtain ⟨k, x, ms1, w2, w3, u, w4, r, rfl, hk, hw2, hw3, hx, hw4, hr, hs⟩ :=
                ihM _ _ _ hm
              refine ⟨123 :: (w ++ 34 :: (k ++ 34 :: (w2 ++ 58 :: (w3 ++ u ++ w4 ++ r ++ [125])))),
                ?_, ?_⟩
              · rw [hcs, hs]; simp
              · simp only [Syn.Text]
                exact ⟨w, w2, w3, u, w4, r, hw, hk, hw2, hw3, hx, hw4, hr, rfl⟩
        · split at h
          · -- array
            rename_i hc
            subst hc
            obtain ⟨w, hw, hcs⟩ := skipSpace_spec cs
            split at h
            · rename_i rest2 hsk
              simp at h
              obtain ⟨rfl, rfl⟩ := h
              refine ⟨91 :: (w ++ [93]), ?_, ?_⟩
              · rw [hcs, hsk]; simp
              · simp only [Syn.Text]; exact ⟨w, hw, rfl⟩
            · cases hm : parseElems fuel (skipSpace cs) with
              | none => simp [hm] at h
              | some p =>
                obtain ⟨xs, rest2⟩ := p
                simp [hm] at h
                obtain ⟨rfl, rfl⟩ := h
                obtain ⟨x, xs1, u, w2, r, rfl, hx, hw2, hr, hs⟩ := ihE _ _ _ hm
                refine ⟨91 :: (w ++ u ++ w2 ++ r ++ [93]), ?_, ?_⟩
                · rw [hcs, hs]; simp
                · simp only [Syn.Text]
                  exact ⟨w, u, w2, r, hw, hx, hw2, hr, rfl⟩
          · split at h
            · -- string
              rename_i hc
              subst hc
              cases hm : scanString cs with
              | none => simp [hm] at h
              | some p =>
                obtain ⟨raw, rest2⟩ := p
                simp [hm] at h
                obtain ⟨rfl, rfl⟩ := h
                obtain ⟨he, hch⟩ := scanString_sound _ _ _ hm
                refine ⟨34 :: (raw ++ [34]), by rw [he]; simp, ?_⟩
                simp only [Syn.Text]; exact ⟨trivial, hch⟩
            · split at h
              · -- number
                cases hm : scanNumber (c :: cs) with
                | none => simp [hm] at h
                | some p =>
                  obtain ⟨lit, rest2⟩ := p
                  simp [hm] at h
                  obtain ⟨rfl, rfl⟩ := h
                  obtain ⟨he, hn⟩ := scanNumber_sound _ _ _ hm
                  refine ⟨lit, he, ?_⟩
                  simp only [Syn.Text]; exact ⟨trivial, hn⟩
              · split at h
                · rename_i hc
                  subst hc
                  split at h
                  · simp at h
                    obtain ⟨rfl, rfl⟩ := h
                    exact ⟨[116, 114, 117, 101], rfl, by simp only [Syn.Text]⟩
                  · simp at h
                · split at h
                  · rename_i hc
                    subst hc
                    split at h
                    · simp at h
                      obtain ⟨rfl, rfl⟩ := h
                      exact ⟨[102, 97, 108, 115, 101], rfl, by simp only [Syn.Text]⟩
                    · simp at h
                  · split at h
                    · rename_i hc
                      subst hc
                      split at h
                      · simp at h
                        obtain ⟨rfl, rfl⟩ := h
                        exact ⟨[110, 117, 108, 108], rfl, by simp only [Syn.Text]⟩
                      · simp at h
                    · simp at h
    · intro s xs rest h
      simp only [parseElems] at h
      cases hv : parseValue fuel s with
      | none => simp [hv] at h
      | some p =>
        obtain ⟨v, rest1⟩ := p
        simp only [hv] at h
        obtain ⟨t, hs, ht⟩ := ihV _ _ _ hv
        obtain ⟨w, hw, hr1⟩ := skipSpace_spec rest1
        split at h
        · rename_i r hsk
          obtain ⟨w', hw', hr⟩ := skipSpace_spec r
          cases he : parseElems fuel (skipSpace r) with
          | none => simp [he] at h
          | some p2 =>
            obtain ⟨vs, rest2⟩ := p2
            simp [he] at h
            obtain ⟨rfl, rfl⟩ := h
            obtain ⟨x, xs1, u, w2, r2, rfl, hx, hw2, hr2, hs2⟩ := ihE _ _ _ he
            refine ⟨v, x :: xs1, t, w, 44 :: (w' ++ u ++ w2 ++ r2), rfl, ht, hw, ?_, ?_⟩
            · simp only [ElemsTail]
              exact ⟨w', u, w2, r2, hw', hx, hw2, hr2, rfl⟩
            · rw [hs, hr1, hsk, hr, hs2]; simp
        · rename_i r hsk
          simp at h
          obtain ⟨rfl, rfl⟩ := h
          refine ⟨v, [], t, w, [], rfl, ht, hw, by simp only [ElemsTail], ?_⟩
          rw [hs, hr1, hsk]; simp
        · simp at h
    · intro s ms rest h
      simp only [parseMembers] at h
      split at h
      · rename_i cs
        cases hk : scanString cs with
        | none => simp [hk] at h
        | some p =>
          obtain ⟨key, rest1⟩ := p
          simp only [hk] at h
          obtain ⟨hcs, hkey⟩ := scanString_sound _ _ _ hk
          obtain ⟨w2, hw2, hr1⟩ := skipSpace_spec rest1
          split at h
          · rename_i r hsk
            obtain ⟨w3, hw3, hr⟩ := skipSpace_spec r
            cases hv : parseValue fuel (skipSpace r) with
            | none => simp [hv] at h
            | some p2 =>
              obtain ⟨v, rest2⟩ := p2
              simp only [hv] at h
              obtain ⟨u, hsu, hu⟩ := ihV _ _ _ hv
              obtain ⟨w4, hw4, hr2⟩ := skipSpace_spec rest2
              split at h
              · rename_i r2 hsk2
                obtain ⟨w5, hw5, hr3⟩ := skipSpace_spec r2
                cases hm : parseMembers fuel (skipSpace r2) with
                | none => simp [hm] at h
                | some p3 =>
                  obtain ⟨ms2, rest3⟩ := p3
                  simp [hm] at h
                  obtain ⟨rfl, rfl⟩ := h
                  obtain ⟨k', x', ms1, v2, v3, u', v4, r', rfl, hk', hv2, hv3, hx', hv4, hr',
                    hs'⟩ := ihM _ _ _ hm
                  refine ⟨key, v, (k', x') :: ms1, w2, w3, u, w4,
                    44 :: (w5 ++ 34 :: (k' ++ 34 :: (v2 ++ 58 :: (v3 ++ u' ++ v4 ++ r')))),
                    rfl, hkey, hw2, hw3, hu, hw4, ?_, ?_⟩
                  · simp only [MembersTail]
                    exact ⟨w5, v2, v3, u', v4, r', hw5, hk', hv2, hv3, hx', hv4, hr', rfl⟩
                  · rw [hcs, hr1, hsk, hr, hsu, hr2, hsk2, hr3, hs']; simp
              · rename_i r2 hsk2
                simp at h
                obtain ⟨rfl, rfl⟩ := h
                refine ⟨key, v, [], w2, w3, u, w4, [], rfl, hkey, hw2, hw3, hu, hw4,
                  by simp only [MembersTail], ?_⟩
                rw [hcs, hr1, hsk, hr, hsu, hr2, hsk2]; simp
              · simp at h
          · simp at h
      · simp at h

/-- Text accepted by `checkValid` is a JSON text of the grammar. -/
theorem checkValid_sound (data : Bytes) (v : Syn) (h : checkValid data = some v) :
    JSONText v data := by
  unfold checkValid parseJSON at h
  cases hp : parseValue (data.length + 1) (skipSpace data) with
  | none => simp [hp] at h
  | some p =>
    obtain ⟨v1, rest⟩ := p
    simp only [hp] at h
    by_cases hr : skipSpace rest = []
    · simp only [hr, if_true] at h
      split at h
      · simp at h
        subst h
        obtain ⟨t, hs, ht⟩ := (parse_sound _).1 _ _ _ hp
        obtain ⟨w1, hw1, hd⟩ := skipSpace_spec data
        obtain ⟨w2, hw2, hrest⟩ := skipSpace_spec rest
        refine ⟨w1, t, w2, hw1, ht, hw2, ?_⟩
        rw [hr] at hrest
        conv_lhs => rw [hd, hs, hrest]
        simp
      · simp at h
    · simp [hr] at h

theorem jsonUnmarshal_ok_valid (data : Bytes) (v : Value) (h : jsonUnmarshal data = .ok v) :
    ScannedJSON data := by
  unfold jsonUnmarshal at h
  cases hc : checkValid data with
  | none => simp [hc] at h
  | some s => exact ⟨s, checkValid_sound data s hc⟩

/-- Function `normalizeJSON` returns an error on every input that is not
syntactically valid JSON. -/
theorem normalizeJSON_error_of_invalid (b : Bytes) (h : ¬ ScannedJSON b) :
    (normalizeJSON b).2 ≠ none ∧ (normalizeJSON b).1 = b := by
  unfold normalizeJSON
  cases hu : jsonUnmarshal b with
  | error e => simp
  | ok v => exact absurd (jsonUnmarshal_ok_valid b v hu) h

/-! ## The text written by `json.Marshal` is never `ERROR` -/

theorem natDigitsAux_mem (fuel n : Nat) (acc : Bytes) :
    ∀ c ∈ natDigitsAux fuel n acc, c ∈ acc ∨ (48 ≤ c ∧ c ≤ 57) := by
  induction fuel generalizing n acc with
  | zero => intro c hc; exact Or.inl (by simpa [natDigitsAux] using hc)
  | succ fuel ih =>
    intro c hc
    unfold natDigitsAux at hc
    split at hc
    · rcases List.mem_cons.1 hc with h | h
      · exact Or.inr (by omega)
      · exact Or.inl h
    · rcases ih _ _ c hc with h | h
      · rcases List.mem_cons.1 h with h1 | h1
        · exact Or.inr (by omega)
        · exact Or.inl h1
      · exact Or.inr h

theorem natDigits_digits (n : Nat) : ∀ c ∈ natDigits n, 48 ≤ c ∧ c ≤ 57 := by
  intro c hc
  rcases natDigitsAux_mem _ _ _ c hc with h | h
  · simp at h
  · exact h

theorem shortestDigits_digits (f : Float64) : ∀ c ∈ (shortestDigits f).1, 48 ≤ c ∧ c ≤ 57 := by
  intro c hc
  unfold shortestDigits at hc
  split at hc
  · simp at hc
  · exact natDigits_digits _ c hc

theorem headD_mem_or (ds : Bytes) (d : Nat) : ds.headD d = d ∨ ds.headD d ∈ ds := by
  cases ds with
  | nil => exact Or.inl rfl
  | cons a as => exact Or.inr (by simp)

theorem fmtE_head (ds : Bytes) (dp : Int) (h : ∀ c ∈ ds, 48 ≤ c ∧ c ≤ 57) :
    ∃ c rest, fmtE ds dp = c :: rest ∧ 48 ≤ c ∧ c ≤ 57 := by
  refine ⟨ds.headD 48, _, by simp only [fmtE, List.cons_append, List.nil_append]; rfl, ?_⟩
  rcases headD_mem_or ds 48 with h1 | h1
  · rw [h1]; omega
  · exact h _ h1

theorem fmtF_head (ds : Bytes) (dp : Int) (h : ∀ c ∈ ds, 48 ≤ c ∧ c ≤ 57) :
    ∃ c rest, fmtF ds dp = c :: rest ∧ 48 ≤ c ∧ c ≤ 57 := by
  unfold fmtF
  simp only
  by_cases hdp : 0 < dp
  · rw [if_pos hdp]
    cases ds with
    | nil =>
      have hpos : 0 < dp.toNat := by omega
      obtain ⟨k, hk⟩ : ∃ k, dp.toNat = k + 1 := ⟨dp.toNat - 1, by omega⟩
      simp only [List.length_nil, Nat.zero_min, List.take_nil, Nat.sub_zero, List.nil_append, hk,
        List.replicate_succ, List.cons_append]
      exact ⟨48, _, rfl, by omega, by omega⟩
    | cons a as =>
      obtain ⟨k, hk⟩ : ∃ k, min (a :: as).length dp.toNat = k + 1 :=
        ⟨min (a :: as).length dp.toNat - 1, by simp; omega⟩
      rw [hk]
      simp only [List.take_succ_cons, List.cons_append]
      exact ⟨a, _, rfl, h a (by simp)⟩
  · rw [if_neg hdp]
    exact ⟨48, _, rfl, by omega, by omega⟩

theorem formatFloat_head (f : Float64) (useE : Bool) :
    ∃ c rest, formatFloat f useE = c :: rest ∧ (c = 45 ∨ (48 ≤ c ∧ c ≤ 57)) := by
  unfold formatFloat
  simp only
  have hd := shortestDigits_digits f
  by_cases hs : f.sign = true
  · simp only [hs, if_true, List.cons_append, List.nil_append]
    exact ⟨45, _, rfl, Or.inl rfl⟩
  · simp only [hs, List.nil_append]
    cases useE with
    | true =>
      obtain ⟨c, rest, he, hc⟩ := fmtE_head _ (shortestDigits f).2 hd
      exact ⟨c, rest, by simpa using he, Or.inr hc⟩
    | false =>
      obtain ⟨c, rest, he, hc⟩ := fmtF_head _ (shortestDigits f).2 hd
      exact ⟨c, rest, by simpa using he, Or.inr hc⟩

theorem cleanExp_ne_ERROR (b : Bytes) (h : b ≠ ascii "ERROR") : cleanExp b ≠ ascii "ERROR" := by
  unfold cleanExp
  split
  · rename_i d s rest hrev
    split
    · intro hc
      have h2 := congrArg List.reverse hc
      simp [ascii] at h2
    · exact h
  · exact h

theorem encodeFloat_ne_ERROR (f : Float64) (out : Bytes) (h : encodeFloat f = .ok out) :
    out ≠ ascii "ERROR" := by
  have hne : ∀ useE, formatFloat f useE ≠ ascii "ERROR" := by
    intro useE hc
    obtain ⟨c, rest, he, hcd⟩ := formatFloat_head f useE
    rw [he] at hc
    simp [ascii] at hc
    omega
  unfold encodeFloat at h
  split at h
  · simp at h
  · simp only at h
    split at h
    · simp at h; subst h; exact cleanExp_ne_ERROR _ (hne true)
    · simp at h; subst h; exact hne false

theorem encodeValue_ne_ERROR (v : Value) (out : Bytes) (h : encodeValue v = .ok out) :
    out ≠ ascii "ERROR" := by
  cases v with
  | null => simp [encodeValue] at h; subst h; simp [ascii]
  | bool b => cases b <;> (simp [encodeValue] at h; subst h; simp [ascii])
  | number f => simp only [encodeValue] at h; exact encodeFloat_ne_ERROR f out h
  | string s => simp [encodeValue, encodeString] at h; subst h; simp [ascii]
  | array xs =>
    simp only [encodeValue] at h
    split at h
    · simp at h; subst h; simp [ascii]
    · simp at h
  | object ms =>
    simp only [encodeValue] at h
    split at h
    · simp at h; subst h; simp [ascii]
    · simp at h

theorem normalizeJSON_ne_ERROR (b out : Bytes) (h : normalizeJSON b = (out, none)) :
    out ≠ ascii "ERROR" := by
  unfold normalizeJSON at h
  split at h
  · simp at h
  · rename_i parsed hu
    split at h
    · simp at h
    · rename_i result hm
      simp at h
      subst h
      exact encodeValue_ne_ERROR parsed _ hm

theorem ERROR_not_valid : ¬ ScannedJSON (ascii "ERROR") := by
  intro hv
  obtain ⟨s, w1, t, w2, hw1, ht, hw2, hb⟩ := hv
  cases w1 with
  | cons c w =>
    have hc := hw1 c (by simp)
    simp [ascii] at hb
    omega
  | nil =>
    simp [ascii] at hb
    cases s with
    | null => simp [Syn.Text] at ht; subst ht; simp at hb
    | bool b => cases b <;> (simp [Syn.Text] at ht; subst ht; simp at hb)
    | string raw => simp [Syn.Text] at ht; rw [ht.1] at hb; simp at hb
    | number lit =>
      simp only [Syn.Text] at ht
      obtain ⟨rfl, sg, ip, fp, ep, rfl, hsg, hip, -, -⟩ := ht
      rcases hsg with rfl | rfl
      · rcases hip with rfl | ⟨d, ds, rfl, hd1, hd2, -⟩
        · simp at hb
        · simp at hb; omega
      · simp at hb
    | array xs =>
      cases xs with
      | nil => simp only [Syn.Text] at ht; obtain ⟨w, -, rfl⟩ := ht; simp at hb
      | cons x xs => simp only [Syn.Text] at ht; obtain ⟨_, _, _, _, -, -, -, -, rfl⟩ := ht; simp at hb
    | object ms =>
      cases ms with
      | nil => simp only [Syn.Text] at ht; obtain ⟨w, -, rfl⟩ := ht; simp at hb
      | cons m ms =>
        obtain ⟨k, x⟩ := m
        simp only [Syn.Text] at ht
        obtain ⟨_, _, _, _, _, _, -, -, -, -, -, -, -, rfl⟩ := ht
        simp at hb

/-! ## `GetJSONAsString` on an answer in 200-299 -/

/-- Shape of the call on an answer with status in 200-299 whose body is
read. -/
theorem GetJSONAsString_ok (net : Net) (client : BoskClient) (url : String)
    (diag : Diagnostics) (resp : Response) (body : Bytes)
    (hreq : net.urlParse url = none)
    (hdo : client.httpClient.Do (client.applyAuth ⟨"GET", url, none, none⟩) = .ok resp)
    (hin : 200 ≤ resp.StatusCode ∧ resp.StatusCode ≤ 299) (hbody : resp.Body = .ok body) :
    ((normalizeJSON body).2 = none →
      (GetJSONAsString net client url diag).ret = (normalizeJSON body).1) ∧
    ((normalizeJSON body).2 ≠ none →
      (GetJSONAsString net client url diag).ret = body ∧
      ∃ d1 w, diag.addsOnlyWarnings d1 ∧ w.severity = .warning ∧
        w.summary = "Error normalizing JSON response" ∧
        (GetJSONAsString net client url diag).diag = d1 ++ [w]) := by
  have heq : ¬ statusClass resp.StatusCode ≠ 2 := by
    rw [not_not]; exact (statusClass_eq_two_iff _).2 hin
  simp only [GetJSONAsString, NewRequest_ok net "GET" url none hreq, hdo]
  rw [if_neg heq]
  simp only [hbody]
  rcases hn : normalizeJSON body with ⟨out, _ | err⟩
  · simp
  · simp only [ne_eq, reduceCtorEq, not_false_eq_true, true_implies, false_implies, true_and]
    exact ⟨_, _, addsOnlyWarnings_utf8 diag body _ _ _, rfl, rfl, rfl⟩

/-- Text of the grammar starts with whitespace or with the first byte of a
value. -/
theorem ScannedJSON_head (c : Nat) (rest : Bytes) (hv : ScannedJSON (c :: rest)) :
    isSpace c = true ∨ c = 110 ∨ c = 116 ∨ c = 102 ∨ c = 34 ∨ c = 91 ∨ c = 123 ∨ c = 45 ∨
      (48 ≤ c ∧ c ≤ 57) := by
  obtain ⟨s, w1, t, w2, hw1, ht, hw2, hb⟩ := hv
  cases w1 with
  | cons d w =>
    have hd := hw1 d (by simp)
    simp at hb
    rw [hb.1]
    exact Or.inl ((isSpace_iff _).2 hd)
  | nil =>
    simp at hb
    right
    cases s with
    | null => simp [Syn.Text] at ht; subst ht; simp at hb; omega
    | bool b => cases b <;> (simp [Syn.Text] at ht; subst ht; simp at hb; omega)
    | string raw => simp [Syn.Text] at ht; rw [ht.1] at hb; simp at hb; omega
    | number lit =>
      simp only [Syn.Text] at ht
      obtain ⟨rfl, sg, ip, fp, ep, rfl, hsg, hip, -, -⟩ := ht
      rcases hsg with rfl | rfl
      · rcases hip with rfl | ⟨d, ds, rfl, hd1, hd2, -⟩
        · simp at hb; omega
        · simp at hb; omega
      · simp at hb; omega
    | array xs =>
      cases xs with
      | nil => simp only [Syn.Text] at ht; obtain ⟨w, -, rfl⟩ := ht; simp at hb; omega
      | cons x xs =>
        simp only [Syn.Text] at ht; obtain ⟨_, _, _, _, -, -, -, -, rfl⟩ := ht
        simp at hb; omega
    | object ms =>
      cases ms with
      | nil => simp only [Syn.Text] at ht; obtain ⟨w, -, rfl⟩ := ht; simp at hb; omega
      | cons m ms =>
        obtain ⟨k, x⟩ := m
        simp only [Syn.Text] at ht
        obtain ⟨_, _, _, _, _, _, -, -, -, -, -, -, -, rfl⟩ := ht
        simp at hb; omega

theorem html_not_valid : ¬ ScannedJSON (ascii "<html>") := by
  intro hv
  have h := ScannedJSON_head 60 (ascii "html>") hv
  simp [isSpace] at h

/-- C6, amended: on every byte sequence that is not a text of the JSON
grammar read on bytes (`ScannedJSON`, in which a byte from 0x80 inside a
string is a character whether or not the bytes form UTF-8), `normalizeJSON`
returns an error; and when such a sequence is the body of an answer with
status in 200-299, `GetJSONAsString` returns the body itself, unchanged, and
appends only warnings to the sink, the last of them the warning of the failed
normalization. Bodies that fail to be valid JSON only by ill-formed UTF-8 are
left out: `GetJSONAsString_invalid_utf8_body` shows one that is normalized. -/
theorem GetJSONAsString_malformed_body (b : Bytes) (hb : ¬ ScannedJSON b) :
    (normalizeJSON b).2 ≠ none ∧
    ∀ (net : Net) (client : BoskClient) (url : String) (diag : Diagnostics) (resp : Response),
      net.urlParse url = none →
      client.httpClient.Do (client.applyAuth ⟨"GET", url, none, none⟩) = .ok resp →
      200 ≤ resp.StatusCode ∧ resp.StatusCode ≤ 299 → resp.Body = .ok b →
      (GetJSONAsString net client url diag).ret = b ∧
      ∃ d1 w, diag.addsOnlyWarnings d1 ∧ w.severity = .warning ∧
        w.summary = "Error normalizing JSON response" ∧
        (GetJSONAsString net client url diag).diag = d1 ++ [w] := by
  have herr := (normalizeJSON_error_of_invalid b hb).1
  refine ⟨herr, ?_⟩
  intro net client url diag resp hreq hdo hin hbody
  exact (GetJSONAsString_ok net client url diag resp b hreq hdo hin hbody).2 herr

/-- Witness of the amended C6 at the body `<html>` of a 200 answer. -/
theorem GetJSONAsString_malformed_body_witness :
    (normalizeJSON (ascii "<html>")).2 ≠ none ∧
    (GetJSONAsString exampleNet
        (NewBoskClientWithoutAuth (constTransport 200 "200 OK" (ascii "<html>")) "http://bosk/")
        "http://bosk/a" []).ret = ascii "<html>" ∧
      ∃ d1 w, Diagnostics.addsOnlyWarnings [] d1 ∧ w.severity = .warning ∧
        w.summary = "Error normalizing JSON response" ∧
        (GetJSONAsString exampleNet
          (NewBoskClientWithoutAuth (constTransport 200 "200 OK" (ascii "<html>")) "http://bosk/")
          "http://bosk/a" []).diag = d1 ++ [w] :=
  ⟨(GetJSONAsString_malformed_body (ascii "<html>") html_not_valid).1,
   (GetJSONAsString_malformed_body (ascii "<html>") html_not_valid).2 exampleNet
      (NewBoskClientWithoutAuth (constTransport 200 "200 OK" (ascii "<html>")) "http://bosk/")
      "http://bosk/a" [] ⟨200, "200 OK", .ok (ascii "<html>")⟩ (by decide) rfl
      ⟨by decide, by decide⟩ rfl⟩

/-- C10: on an answer with status in 200-299 whose body is read,
`GetJSONAsString` returns `"ERROR"` exactly when the body is the five bytes
`ERROR`; so the returned string differs from `"ERROR"` for every body that is
a text of the grammar read on bytes (`ScannedJSON`), which every valid JSON
body is (`ValidJSON` is `ScannedJSON` with well-formed UTF-8), while for the
body `ERROR` it is the string that a failed call returns. -/
theorem GetJSONAsString_sentinel (net : Net) (client : BoskClient) (url : String)
    (diag : Diagnostics) (resp : Response) (b : Bytes)
    (hreq : net.urlParse url = none)
    (hdo : client.httpClient.Do (client.applyAuth ⟨"GET", url, none, none⟩) = .ok resp)
    (hin : 200 ≤ resp.StatusCode ∧ resp.StatusCode ≤ 299) (hbody : resp.Body = .ok b) :
    ((GetJSONAsString net client url diag).ret = ascii "ERROR" ↔ b = ascii "ERROR") ∧
    (ScannedJSON b → (GetJSONAsString net client url diag).ret ≠ ascii "ERROR") ∧
    (b = ascii "ERROR" → ∀ (url2 : String) (diag2 : Diagnostics), net.urlParse url2 ≠ none →
      (GetJSONAsString net client url2 diag2).ret = (GetJSONAsString net client url diag).ret) := by
  have hshape := GetJSONAsString_ok net client url diag resp b hreq hdo hin hbody
  have hiff : (GetJSONAsString net client url diag).ret = ascii "ERROR" ↔ b = ascii "ERROR" := by
    constructor
    · intro hret
      by_cases hn : (normalizeJSON b).2 = none
      · rw [hshape.1 hn] at hret
        exact absurd hret (normalizeJSON_ne_ERROR b _ (by rw [← hn]))
      · rw [(hshape.2 hn).1] at hret
        exact hret
    · intro hbe
      have hn : (normalizeJSON b).2 ≠ none := by
        rw [hbe]; exact (normalizeJSON_error_of_invalid _ ERROR_not_valid).1
      rw [(hshape.2 hn).1, hbe]
  refine ⟨hiff, ?_, ?_⟩
  · intro hv hret
    rw [hiff.1 hret] at hv
    exact ERROR_not_valid hv
  · intro hbe url2 diag2 hfail
    rw [hiff.2 hbe]
    cases hp : net.urlParse url2 with
    | none => exact absurd hp hfail
    | some err => simp only [GetJSONAsString, NewRequest_error net "GET" url2 none err hp]

/-- Witness of C10 at the body `ERROR` of a 200 answer. -/
theorem GetJSONAsString_sentinel_witness :
    (GetJSONAsString exampleNet
        (NewBoskClientWithoutAuth (constTransport 200 "200 OK" (ascii "ERROR")) "http://bosk/")
        "http://bosk/a" []).ret = ascii "ERROR" :=
  (GetJSONAsString_sentinel exampleNet
      (NewBoskClientWithoutAuth (constTransport 200 "200 OK" (ascii "ERROR")) "http://bosk/")
      "http://bosk/a" [] ⟨200, "200 OK", .ok (ascii "ERROR")⟩ (ascii "ERROR") (by decide) rfl
      ⟨by decide, by decide⟩ rfl).1.2 rfl

/-! ## The scanner accepts every text of the grammar -/

theorem skipSpace_append_ws (w s : Bytes) (hw : IsWS w) : skipSpace (w ++ s) = skipSpace s := by
  induction w with
  | nil => rfl
  | cons c w ih =>
    have hc : isSpace c = true := (isSpace_iff c).2 (hw c (by simp))
    have hw2 : IsWS w := fun d hd => hw d (by simp [hd])
    simp only [List.cons_append, skipSpace, hc, if_true]
    exact ih hw2

theorem skipSpace_cons_of_not_space (c : Nat) (s : Bytes) (hc : isSpace c = false) :
    skipSpace (c :: s) = c :: s := by
  simp [skipSpace, hc]

theorem skipSpace_ws (w : Bytes) (hw : IsWS w) : skipSpace w = [] := by
  have h := skipSpace_append_ws w [] hw
  simpa [skipSpace] using h

theorem spanDigits_append (ds rest : Bytes) (hd : IsDigits ds)
    (hr : ∀ c, rest.head? = some c → isDigit c = false) :
    spanDigits (ds ++ rest) = (ds, rest) := by
  induction ds with
  | nil =>
    cases rest with
    | nil => rfl
    | cons c cs =>
      have hc := hr c rfl
      simp [spanDigits, hc]
  | cons d ds ih =>
    have hd1 : isDigit d = true := (isDigit_iff d).2 (hd d (by simp))
    have hd2 : IsDigits ds := fun c hc => hd c (by simp [hc])
    show spanDigits (d :: (ds ++ rest)) = (d :: ds, rest)
    rw [spanDigits, if_pos hd1, ih hd2]

theorem scanString_complete (raw rest : Bytes) (h : IsChars raw) :
    scanString (raw ++ 34 :: rest) = some (raw, rest) := by
  induction h with
  | nil => simp [scanString]
  | unescaped c t hc h34 h92 ht ih =>
    have e := scanString.eq_6 c (t ++ 34 :: rest) (fun h => h34 h) (fun h _ => h92 h)
      (fun _ _ _ _ _ h _ => h92 h) (fun _ _ h _ => h92 h)
    simp only [List.cons_append]
    rw [e, if_neg (by omega), ih]
  | escape e t he ht ih =>
    have hne : ∀ (h1 h2 h3 h4 : ℕ) (cs_1 : List ℕ), e = 117 →
        t ++ 34 :: rest = h1 :: h2 :: h3 :: h4 :: cs_1 → False := by
      intro _ _ _ _ _ h117 _
      omega
    simp only [List.cons_append]
    rw [scanString.eq_5 e _ hne, if_pos ((isEscapeLetter_iff e).2 he), ih]
  | escapeU h1 h2 h3 h4 t x1 x2 x3 x4 ht ih =>
    have hx : (isHex h1 && isHex h2 && isHex h3 && isHex h4) = true := by
      simp only [Bool.and_eq_true, isHex_iff]
      exact ⟨⟨⟨x1, x2⟩, x3⟩, x4⟩
    simp only [List.cons_append]
    rw [scanString, if_pos hx, ih]

theorem head?_append_of_ne_nil (a b : Bytes) (h : a ≠ []) : (a ++ b).head? = a.head? := by
  cases a with
  | nil => exact absurd rfl h
  | cons x xs => rfl

theorem NumberEnd_digit (rest : Bytes) (h : NumberEnd rest) :
    ∀ c, rest.head? = some c → isDigit c = false :=
  fun c hc => (h c hc).1

theorem scanExp_complete (ep rest : Bytes) (h : ep = [] ∨ IsExp ep) (hr : NumberEnd rest) :
    scanExp (ep ++ rest) = some (ep, rest) := by
  rcases h with rfl | ⟨e, sg, d, ds, rfl, he, hsg, hd⟩
  · cases rest with
    | nil => rfl
    | cons c cs =>
      have hc := hr c rfl
      simp only [List.nil_append, scanExp]
      rw [if_neg (by omega)]
  · have hdd : isDigit d = true := (isDigit_iff d).2 (hd d (by simp))
    have hd48 := (isDigit_iff d).1 hdd
    have hts : takeSign (sg ++ d :: ds ++ rest) = (sg, d :: ds ++ rest) := by
      rcases hsg with rfl | rfl | rfl
      · simp only [List.nil_append, List.cons_append, takeSign]
        split
        · rename_i heq; simp at heq; omega
        · rename_i heq; simp at heq; omega
        · rfl
      · rfl
      · rfl
    have hsp : spanDigits (d :: ds ++ rest) = (d :: ds, rest) :=
      spanDigits_append (d :: ds) rest hd (NumberEnd_digit rest hr)
    simp only [List.cons_append, List.append_assoc, scanExp]
    rw [if_pos he]
    have hts2 : takeSign (sg ++ (d :: (ds ++ rest))) = (sg, d :: (ds ++ rest)) := by
      simpa using hts
    simp only [hts2]
    have hsp2 : spanDigits (d :: (ds ++ rest)) = (d :: ds, rest) := by simpa using hsp
    simp [hsp2]

theorem scanFrac_complete (fp rest : Bytes) (h : fp = [] ∨ IsFrac fp)
    (hr : ∀ c, rest.head? = some c → isDigit c = false ∧ c ≠ 46) :
    scanFrac (fp ++ rest) = some (fp, rest) := by
  rcases h with rfl | ⟨d, ds, rfl, hd⟩
  · cases rest with
    | nil => rfl
    | cons c cs =>
      have hc := hr c rfl
      simp only [List.nil_append]
      unfold scanFrac
      split
      · rename_i heq; simp at heq; omega
      · rfl
  · have hsp : spanDigits (d :: ds ++ rest) = (d :: ds, rest) :=
      spanDigits_append (d :: ds) rest hd (fun c hc => (hr c hc).1)
    simp only [List.cons_append, scanFrac]
    have hsp2 : spanDigits (d :: (ds ++ rest)) = (d :: ds, rest) := by simpa using hsp
    simp [hsp2]

theorem scanInt_complete (ip rest : Bytes) (h : IsInt ip)
    (hr : ∀ c, rest.head? = some c → isDigit c = false) :
    scanInt (ip ++ rest) = some (ip, rest) := by
  rcases h with rfl | ⟨d, ds, rfl, hd1, hd2, hds⟩
  · simp [scanInt]
  · have hdd : isDigit d = true := (isDigit_iff d).2 ⟨by omega, hd2⟩
    simp only [List.cons_append, scanInt]
    rw [if_neg (by omega), if_pos hdd]
    simp [spanDigits_append ds rest hds hr]

theorem IsExp_head (ep : Bytes) (h : IsExp ep) : ∃ c t, ep = c :: t ∧ (c = 101 ∨ c = 69) := by
  obtain ⟨e, sg, d, ds, rfl, he, -, -⟩ := h
  exact ⟨e, _, rfl, he⟩

theorem IsFrac_head (fp : Bytes) (h : IsFrac fp) : ∃ t, fp = 46 :: t := by
  obtain ⟨d, ds, rfl, -⟩ := h
  exact ⟨_, rfl⟩

theorem scanNumber_complete (lit rest : Bytes) (h : IsNumber lit) (hr : NumberEnd rest) :
    scanNumber (lit ++ rest) = some (lit, rest) := by
  obtain ⟨sg, ip, fp, ep, rfl, hsg, hip, hfp, hep⟩ := h
  -- head of what follows the fraction
  have hep_rest : ∀ c, (ep ++ rest).head? = some c → isDigit c = false ∧ c ≠ 46 := by
    intro c hc
    rcases hep with rfl | he
    · simp only [List.nil_append] at hc
      exact ⟨(hr c hc).1, (hr c hc).2.1⟩
    · obtain ⟨e, t, rfl, he2⟩ := IsExp_head ep he
      simp at hc
      subst hc
      constructor
      · simp [isDigit]; omega
      · omega
  have hfp_rest : ∀ c, (fp ++ (ep ++ rest)).head? = some c → isDigit c = false := by
    intro c hc
    rcases hfp with rfl | hf
    · simp only [List.nil_append] at hc
      exact (hep_rest c hc).1
    · obtain ⟨t, rfl⟩ := IsFrac_head fp hf
      simp at hc
      subst hc
      simp [isDigit]
  have hint : ∃ c t, ip = c :: t ∧ 48 ≤ c ∧ c ≤ 57 := by
    rcases hip with rfl | ⟨d, ds, rfl, hd1, hd2, -⟩
    · exact ⟨48, [], rfl, by omega, by omega⟩
    · exact ⟨d, ds, rfl, by omega, hd2⟩
  have htm : takeMinus (sg ++ ip ++ fp ++ ep ++ rest) = (sg, ip ++ (fp ++ (ep ++ rest))) := by
    obtain ⟨c, t, rfl, hc1, hc2⟩ := hint
    rcases hsg with rfl | rfl
    · simp only [List.nil_append, List.cons_append, List.append_assoc, takeMinus]
      split
      · rename_i heq; simp at heq; omega
      · rfl
    · simp [takeMinus]
  unfold scanNumber
  simp only [htm, scanInt_complete ip _ hip hfp_rest, scanFrac_complete fp _ hfp hep_rest,
    scanExp_complete ep rest hep hr]

/-! ## The parser accepts every text of the grammar -/

theorem Text_head (s : Syn) (t : Bytes) (ht : s.Text t) : ∃ c t1, t = c :: t1 ∧ StartByte c := by
  unfold StartByte
  cases s with
  | null => simp [Syn.Text] at ht; subst ht; exact ⟨_, _, rfl, by omega⟩
  | bool b => cases b <;> (simp [Syn.Text] at ht; subst ht; exact ⟨_, _, rfl, by omega⟩)
  | string raw => simp [Syn.Text] at ht; rw [ht.1]; exact ⟨_, _, rfl, by omega⟩
  | number lit =>
    simp only [Syn.Text] at ht
    obtain ⟨rfl, sg, ip, fp, ep, rfl, hsg, hip, -, -⟩ := ht
    rcases hsg with rfl | rfl
    · rcases hip with rfl | ⟨d, ds, rfl, hd1, hd2, -⟩
      · exact ⟨48, fp ++ ep, by simp, by omega⟩
      · exact ⟨d, ds ++ (fp ++ ep), by simp, by omega⟩
    · exact ⟨45, ip ++ (fp ++ ep), by simp, by omega⟩
  | array xs =>
    cases xs with
    | nil => simp only [Syn.Text] at ht; obtain ⟨w, -, rfl⟩ := ht; exact ⟨_, _, rfl, by omega⟩
    | cons x xs =>
      simp only [Syn.Text] at ht; obtain ⟨_, _, _, _, -, -, -, -, rfl⟩ := ht
      exact ⟨_, _, rfl, by omega⟩
  | object ms =>
    cases ms with
    | nil => simp only [Syn.Text] at ht; obtain ⟨w, -, rfl⟩ := ht; exact ⟨_, _, rfl, by omega⟩
    | cons m ms =>
      obtain ⟨k, x⟩ := m
      simp only [Syn.Text] at ht
      obtain ⟨_, _, _, _, _, _, -, -, -, -, -, -, -, rfl⟩ := ht
      exact ⟨_, _, rfl, by omega⟩

theorem StartByte_not_space (c : Nat) (h : StartByte c) : isSpace c = false := by
  unfold StartByte at h
  simp [isSpace]
  omega

theorem ValueEnd_NumberEnd (rest : Bytes) (h : ValueEnd rest) : NumberEnd rest := by
  intro c hc
  have h1 := h c hc
  rw [isSpace_iff] at h1
  refine ⟨?_, by omega, by omega, by omega⟩
  simp [isDigit]
  omega

theorem ValueEnd_cons (c : Nat) (rest : Bytes)
    (h : isSpace c = true ∨ c = 44 ∨ c = 93 ∨ c = 125) : ValueEnd (c :: rest) := by
  intro d hd
  simp at hd
  subst hd
  exact h

theorem ValueEnd_ws_append (w rest : Bytes) (hw : IsWS w) (hr : ValueEnd rest) :
    ValueEnd (w ++ rest) := by
  cases w with
  | nil => exact hr
  | cons c w => exact ValueEnd_cons c _ (Or.inl ((isSpace_iff c).2 (hw c (by simp))))

theorem Syn.fuel_pos (s : Syn) : 1 ≤ s.fuel := by
  cases s <;> simp [Syn.fuel]

theorem skipSpace_text (s : Syn) (t rest : Bytes) (ht : s.Text t) :
    skipSpace (t ++ rest) = t ++ rest := by
  obtain ⟨c, t1, rfl, hc⟩ := Text_head s t ht
  exact skipSpace_cons_of_not_space c _ (StartByte_not_space c hc)

mutual
theorem parseValue_complete : ∀ (s : Syn) (t rest : Bytes) (fuel : Nat),
    s.Text t → ValueEnd rest → s.fuel ≤ fuel → parseValue fuel (t ++ rest) = some (s, rest)
  | .null, t, rest, fuel, ht, _, hf => by
    obtain ⟨f, rfl⟩ : ∃ f, fuel = f + 1 := ⟨fuel - 1, by simp [Syn.fuel] at hf; omega⟩
    simp only [Syn.Text] at ht; subst ht
    simp [parseValue, isDigit]
  | .bool true, t, rest, fuel, ht, _, hf => by
    obtain ⟨f, rfl⟩ : ∃ f, fuel = f + 1 := ⟨fuel - 1, by simp [Syn.fuel] at hf; omega⟩
    simp only [Syn.Text] at ht; subst ht
    simp [parseValue, isDigit]
  | .bool false, t, rest, fuel, ht, _, hf => by
    obtain ⟨f, rfl⟩ : ∃ f, fuel = f + 1 := ⟨fuel - 1, by simp [Syn.fuel] at hf; omega⟩
    simp only [Syn.Text] at ht; subst ht
    simp [parseValue, isDigit]
  | .number lit, t, rest, fuel, ht, hr, hf => by
    obtain ⟨f, rfl⟩ : ∃ f, fuel = f + 1 := ⟨fuel - 1, by simp [Syn.fuel] at hf; omega⟩
    obtain ⟨c, t1, hct, hc⟩ := Text_head _ t ht
    simp only [Syn.Text] at ht
    obtain ⟨rfl, hn⟩ := ht
    have hsn := scanNumber_complete t rest hn (ValueEnd_NumberEnd rest hr)
    subst hct
    have hcd : c = 45 ∨ isDigit c = true := by
      unfold StartByte at hc
      obtain ⟨sg, ip, fp, ep, he, hsg, hip, -, -⟩ := hn
      rcases hsg with rfl | rfl
      · rcases hip with rfl | ⟨d, ds, rfl, hd1, hd2, -⟩
        · simp at he; right; rw [he.1]; decide
        · simp at he; right; rw [he.1, isDigit_iff]; omega
      · simp at he; left; exact he.1
    have h123 : c ≠ 123 := by rcases hcd with h | h; omega; rw [isDigit_iff] at h; omega
    have h91 : c ≠ 91 := by rcases hcd with h | h; omega; rw [isDigit_iff] at h; omega
    have h34 : c ≠ 34 := by rcases hcd with h | h; omega; rw [isDigit_iff] at h; omega
    simp only [List.cons_append, parseValue]
    rw [if_neg h123, if_neg h91, if_neg h34, if_pos hcd]
    simp only [List.cons_append] at hsn
    rw [hsn]
  | .string raw, t, rest, fuel, ht, _, hf => by
    obtain ⟨f, rfl⟩ : ∃ f, fuel = f + 1 := ⟨fuel - 1, by simp [Syn.fuel] at hf; omega⟩
    simp only [Syn.Text] at ht
    obtain ⟨rfl, hch⟩ := ht
    have hs := scanString_complete raw rest hch
    simp only [List.cons_append, List.append_assoc, List.singleton_append, parseValue]
    simp [hs]
  | .array [], t, rest, fuel, ht, _, hf => by
    obtain ⟨f, rfl⟩ : ∃ f, fuel = f + 1 := ⟨fuel - 1, by simp [Syn.fuel] at hf; omega⟩
    simp only [Syn.Text] at ht
    obtain ⟨w, hw, rfl⟩ := ht
    have hsk : skipSpace (w ++ 93 :: rest) = 93 :: rest := by
      rw [skipSpace_append_ws w _ hw]; exact skipSpace_cons_of_not_space _ _ (by decide)
    simp only [List.cons_append, List.append_assoc, List.singleton_append, parseValue]
    simp [hsk]
  | .array (x :: xs), t, rest, fuel, ht, hr, hf => by
    obtain ⟨f, rfl⟩ : ∃ f, fuel = f + 1 := ⟨fuel - 1, by simp [Syn.fuel] at hf; omega⟩
    have hf2 : fuelList (x :: xs) ≤ f := by simp [Syn.fuel] at hf; exact hf
    simp only [Syn.Text] at ht
    obtain ⟨w1, u, w2, r, hw1, hu, hw2, hr2, rfl⟩ := ht
    have htail : ElemsTail (x :: xs) (44 :: (w1 ++ u ++ w2 ++ r)) := by
      simp only [ElemsTail]; exact ⟨w1, u, w2, r, hw1, hu, hw2, hr2, rfl⟩
    have he := parseElems_complete (x :: xs) (w1 ++ u ++ w2 ++ r) rest f htail hf2
    obtain ⟨c, u1, rfl, hc⟩ := Text_head x u hu
    have hsk : skipSpace (w1 ++ (c :: u1) ++ w2 ++ r ++ 93 :: rest)
        = c :: (u1 ++ w2 ++ r ++ 93 :: rest) := by
      simp only [List.append_assoc]
      rw [skipSpace_append_ws w1 _ hw1]
      exact skipSpace_cons_of_not_space c _ (StartByte_not_space c hc)
    have hc93 : c ≠ 93 := by unfold StartByte at hc; omega
    simp only [List.append_assoc, List.cons_append] at hsk he
    rw [hsk] at he
    have hin : 91 :: (w1 ++ c :: u1 ++ w2 ++ r ++ [93]) ++ rest
        = 91 :: (w1 ++ c :: (u1 ++ (w2 ++ (r ++ 93 :: rest)))) := by simp
    rw [hin]
    simp only [parseValue]
    rw [if_neg (by decide), if_pos trivial, hsk]
    split
    · rename_i heq
      simp at heq
      exact absurd heq.1 hc93
    · rw [he]
  | .object [], t, rest, fuel, ht, _, hf => by
    obtain ⟨f, rfl⟩ : ∃ f, fuel = f + 1 := ⟨fuel - 1, by simp [Syn.fuel] at hf; omega⟩
    simp only [Syn.Text] at ht
    obtain ⟨w, hw, rfl⟩ := ht
    have hsk : skipSpace (w ++ 125 :: rest) = 125 :: rest := by
      rw [skipSpace_append_ws w _ hw]; exact skipSpace_cons_of_not_space _ _ (by decide)
    simp only [List.cons_append, List.append_assoc, List.singleton_append, parseValue]
    simp [hsk]
  | .object ((k, x) :: ms), t, rest, fuel, ht, hr, hf => by
    obtain ⟨f, rfl⟩ : ∃ f, fuel = f + 1 := ⟨fuel - 1, by simp [Syn.fuel] at hf; omega⟩
    have hf2 : fuelMembers ((k, x) :: ms) ≤ f := by simp [Syn.fuel] at hf; exact hf
    simp only [Syn.Text] at ht
    obtain ⟨w1, w2, w3, u, w4, r, hw1, hk, hw2, hw3, hu, hw4, hr2, rfl⟩ := ht
    have htail : MembersTail ((k, x) :: ms)
        (44 :: (w1 ++ 34 :: (k ++ 34 :: (w2 ++ 58 :: (w3 ++ u ++ w4 ++ r))))) := by
      simp only [MembersTail]; exact ⟨w1, w2, w3, u, w4, r, hw1, hk, hw2, hw3, hu, hw4, hr2, rfl⟩
    have he := parseMembers_complete ((k, x) :: ms) _ rest f htail hf2
    have hsk : skipSpace (w1 ++ 34 :: (k ++ 34 :: (w2 ++ 58 :: (w3 ++ u ++ w4 ++ r))) ++ 125 :: rest)
        = 34 :: (k ++ 34 :: (w2 ++ 58 :: (w3 ++ u ++ w4 ++ r))) ++ 125 :: rest := by
      simp only [List.append_assoc]
      rw [skipSpace_append_ws w1 _ hw1]
      exact skipSpace_cons_of_not_space 34 _ (by decide)
    rw [hsk] at he
    simp only [List.cons_append, List.append_assoc, List.singleton_append, parseValue]
    simp only [List.append_assoc, List.cons_append] at hsk he
    simp [hsk, he]
theorem parseElems_complete : ∀ (l : List Syn) (s1 rest : Bytes) (fuel : Nat),
    ElemsTail l (44 :: s1) → fuelList l ≤ fuel →
    parseElems fuel (skipSpace (s1 ++ 93 :: rest)) = some (l, rest)
  | [], s1, rest, fuel, ht, _ => by simp [ElemsTail] at ht
  | x :: xs, s1, rest, fuel, ht, hf => by
    obtain ⟨f, rfl⟩ : ∃ f, fuel = f + 1 := ⟨fuel - 1, by simp [fuelList] at hf; omega⟩
    have hfx : x.fuel ≤ f := by simp [fuelList] at hf; omega
    have hfxs : fuelList xs ≤ f := by simp [fuelList] at hf; omega
    simp only [ElemsTail, List.cons.injEq, true_and] at ht
    obtain ⟨w1, u, w2, r, hw1, hu, hw2, hr, rfl⟩ := ht
    have hsk : skipSpace (w1 ++ u ++ w2 ++ r ++ 93 :: rest) = u ++ (w2 ++ (r ++ 93 :: rest)) := by
      simp only [List.append_assoc]
      rw [skipSpace_append_ws w1 _ hw1]
      exact skipSpace_text x u _ hu
    rw [hsk]
    cases xs with
    | nil =>
      simp only [ElemsTail] at hr
      subst hr
      have hend : ValueEnd (w2 ++ ([] ++ 93 :: rest)) :=
        ValueEnd_ws_append w2 _ hw2 (ValueEnd_cons 93 rest (by simp))
      have hv := parseValue_complete x u _ f hu hend hfx
      have hsk2 : skipSpace (w2 ++ ([] ++ 93 :: rest)) = 93 :: rest := by
        rw [skipSpace_append_ws w2 _ hw2]
        exact skipSpace_cons_of_not_space 93 _ (by decide)
      simp only [parseElems, hv, hsk2]
    | cons y ys =>
      have hr0 := hr
      simp only [ElemsTail] at hr
      obtain ⟨v1, u2, v2, r2, hv1, hu2, hv2, hr2, rfl⟩ := hr
      have hend : ValueEnd (w2 ++ (44 :: (v1 ++ u2 ++ v2 ++ r2) ++ 93 :: rest)) :=
        ValueEnd_ws_append w2 _ hw2 (ValueEnd_cons 44 _ (by simp))
      have hv := parseValue_complete x u _ f hu hend hfx
      have hsk2 : skipSpace (w2 ++ (44 :: (v1 ++ u2 ++ v2 ++ r2) ++ 93 :: rest))
          = 44 :: ((v1 ++ u2 ++ v2 ++ r2) ++ 93 :: rest) := by
        rw [skipSpace_append_ws w2 _ hw2]
        exact skipSpace_cons_of_not_space 44 _ (by decide)
      have hrec := parseElems_complete (y :: ys) (v1 ++ u2 ++ v2 ++ r2) rest f hr0 hfxs
      simp only [parseElems, hv, hsk2, hrec]
theorem parseMembers_complete : ∀ (l : List (Bytes × Syn)) (s1 rest : Bytes) (fuel : Nat),
    MembersTail l (44 :: s1) → fuelMembers l ≤ fuel →
    parseMembers fuel (skipSpace (s1 ++ 125 :: rest)) = some (l, rest)
  | [], s1, rest, fuel, ht, _ => by simp [MembersTail] at ht
  | (k, x) :: ms, s1, rest, fuel, ht, hf => by
    obtain ⟨f, rfl⟩ : ∃ f, fuel = f + 1 := ⟨fuel - 1, by simp [fuelMembers] at hf; omega⟩
    have hfx : x.fuel ≤ f := by simp [fuelMembers] at hf; omega
    have hfxs : fuelMembers ms ≤ f := by simp [fuelMembers] at hf; omega
    simp only [MembersTail, List.cons.injEq, true_and] at ht
    obtain ⟨w1, w2, w3, u, w4, r, hw1, hk, hw2, hw3, hu, hw4, hr, rfl⟩ := ht
    have hsk : skipSpace (w1 ++ 34 :: (k ++ 34 :: (w2 ++ 58 :: (w3 ++ u ++ w4 ++ r))) ++ 125 :: rest)
        = 34 :: (k ++ 34 :: (w2 ++ 58 :: (w3 ++ (u ++ (w4 ++ (r ++ 125 :: rest)))))) := by
      simp only [List.append_assoc, List.cons_append]
      rw [skipSpace_append_ws w1 _ hw1]
      exact skipSpace_cons_of_not_space 34 _ (by decide)
    rw [hsk]
    have hks := scanString_complete k (w2 ++ 58 :: (w3 ++ (u ++ (w4 ++ (r ++ 125 :: rest))))) hk
    have hsk2 : skipSpace (w2 ++ 58 :: (w3 ++ (u ++ (w4 ++ (r ++ 125 :: rest)))))
        = 58 :: (w3 ++ (u ++ (w4 ++ (r ++ 125 :: rest)))) := by
      rw [skipSpace_append_ws w2 _ hw2]
      exact skipSpace_cons_of_not_space 58 _ (by decide)
    have hsk3 : skipSpace (w3 ++ (u ++ (w4 ++ (r ++ 125 :: rest))))
        = u ++ (w4 ++ (r ++ 125 :: rest)) := by
      rw [skipSpace_append_ws w3 _ hw3]
      exact skipSpace_text x u _ hu
    cases ms with
    | nil =>
      simp only [MembersTail] at hr
      subst hr
      have hend : ValueEnd (w4 ++ ([] ++ 125 :: rest)) :=
        ValueEnd_ws_append w4 _ hw4 (ValueEnd_cons 125 rest (by simp))
      have hv := parseValue_complete x u _ f hu hend hfx
      have hsk4 : skipSpace (w4 ++ ([] ++ 125 :: rest)) = 125 :: rest := by
        rw [skipSpace_append_ws w4 _ hw4]
        exact skipSpace_cons_of_not_space 125 _ (by decide)
      simp only [parseMembers, hks, hsk2, hsk3, hv, hsk4]
    | cons m2 ms2 =>
      have hr0 := hr
      obtain ⟨k2, x2⟩ := m2
      simp only [MembersTail] at hr
      obtain ⟨v1, v2, v3, u2, v4, r2, hv1, hk2, hv2, hv3, hu2, hv4, hr2, rfl⟩ := hr
      have hend : ValueEnd (w4 ++
          (44 :: (v1 ++ 34 :: (k2 ++ 34 :: (v2 ++ 58 :: (v3 ++ u2 ++ v4 ++ r2)))) ++
            125 :: rest)) :=
        ValueEnd_ws_append w4 _ hw4 (ValueEnd_cons 44 _ (by simp))
      have hv := parseValue_complete x u _ f hu hend hfx
      have hsk4 : skipSpace (w4 ++
          (44 :: (v1 ++ 34 :: (k2 ++ 34 :: (v2 ++ 58 :: (v3 ++ u2 ++ v4 ++ r2)))) ++
            125 :: rest))
          = 44 :: ((v1 ++ 34 :: (k2 ++ 34 :: (v2 ++ 58 :: (v3 ++ u2 ++ v4 ++ r2)))) ++
            125 :: rest) := by
        rw [skipSpace_append_ws w4 _ hw4]
        exact skipSpace_cons_of_not_space 44 _ (by decide)
      have hrec := parseMembers_complete ((k2, x2) :: ms2) _ rest f hr0 hfxs
      simp only [parseMembers, hks, hsk2, hsk3, hv, hsk4, hrec]
end

mutual
theorem Syn.fuel_le_length : ∀ (s : Syn) (t : Bytes), s.Text t → s.fuel ≤ t.length
  | .null, t, ht => by simp only [Syn.Text] at ht; subst ht; simp [Syn.fuel]
  | .bool true, t, ht => by simp only [Syn.Text] at ht; subst ht; simp [Syn.fuel]
  | .bool false, t, ht => by simp only [Syn.Text] at ht; subst ht; simp [Syn.fuel]
  | .number lit, t, ht => by
    obtain ⟨c, t1, rfl, -⟩ := Text_head _ t ht
    simp [Syn.fuel]
  | .string raw, t, ht => by
    obtain ⟨c, t1, rfl, -⟩ := Text_head _ t ht
    simp [Syn.fuel]
  | .array [], t, ht => by
    obtain ⟨c, t1, rfl, -⟩ := Text_head _ t ht
    simp [Syn.fuel, fuelList]
  | .array (x :: xs), t, ht => by
    simp only [Syn.Text] at ht
    obtain ⟨w1, u, w2, r, hw1, hu, hw2, hr2, rfl⟩ := ht
    have h1 := Syn.fuel_le_length x u hu
    have h2 := fuelList_le_length xs r hr2
    simp only [Syn.fuel, fuelList, List.length_cons, List.length_append, List.length_nil]
    omega
  | .object [], t, ht => by
    obtain ⟨c, t1, rfl, -⟩ := Text_head _ t ht
    simp [Syn.fuel, fuelMembers]
  | .object ((k, x) :: ms), t, ht => by
    simp only [Syn.Text] at ht
    obtain ⟨w1, w2, w3, u, w4, r, hw1, hk, hw2, hw3, hu, hw4, hr2, rfl⟩ := ht
    have h1 := Syn.fuel_le_length x u hu
    have h2 := fuelMembers_le_length ms r hr2
    simp only [Syn.fuel, fuelMembers, List.length_cons, List.length_append, List.length_nil]
    omega
theorem fuelList_le_length : ∀ (l : List Syn) (r : Bytes), ElemsTail l r → fuelList l ≤ r.length
  | [], r, _ => by simp [fuelList]
  | x :: xs, r, ht => by
    simp only [ElemsTail] at ht
    obtain ⟨w1, u, w2, r2, hw1, hu, hw2, hr2, rfl⟩ := ht
    have h1 := Syn.fuel_le_length x u hu
    have h2 := fuelList_le_length xs r2 hr2
    simp only [fuelList, List.length_cons, List.length_append]
    omega
theorem fuelMembers_le_length : ∀ (l : List (Bytes × Syn)) (r : Bytes),
    MembersTail l r → fuelMembers l ≤ r.length
  | [], r, _ => by simp [fuelMembers]
  | (k, x) :: ms, r, ht => by
    simp only [MembersTail] at ht
    obtain ⟨w1, w2, w3, u, w4, r2, hw1, hk, hw2, hw3, hu, hw4, hr2, rfl⟩ := ht
    have h1 := Syn.fuel_le_length x u hu
    have h2 := fuelMembers_le_length ms r2 hr2
    simp only [fuelMembers, List.length_cons, List.length_append]
    omega
end

theorem ValueEnd_ws (w : Bytes) (hw : IsWS w) : ValueEnd w := by
  have h := ValueEnd_ws_append w [] hw (by intro c hc; simp at hc)
  simpa using h

/-- The parser reads every text of the grammar as the value it is a text
of. -/
theorem parseJSON_complete (s : Syn) (b : Bytes) (h : JSONText s b) : parseJSON b = some s := by
  obtain ⟨w1, t, w2, hw1, ht, hw2, rfl⟩ := h
  have hfuel : s.fuel ≤ (w1 ++ t ++ w2).length + 1 := by
    have := Syn.fuel_le_length s t ht
    simp only [List.length_append]
    omega
  have hsk : skipSpace (w1 ++ t ++ w2) = t ++ w2 := by
    rw [List.append_assoc, skipSpace_append_ws w1 _ hw1]
    exact skipSpace_text s t w2 ht
  have hv := parseValue_complete s t w2 _ ht (ValueEnd_ws w2 hw2) hfuel
  unfold parseJSON
  rw [hsk, hv]
  simp [skipSpace_ws w2 hw2]

theorem parseJSON_iff (s : Syn) (b : Bytes) : parseJSON b = some s ↔ JSONText s b := by
  constructor
  · intro h
    have hc : checkValid b = some s ∨ checkValid b = none := by
      unfold checkValid; rw [h]; simp only; split
      · exact Or.inl rfl
      · exact Or.inr rfl
    unfold parseJSON at h
    cases hp : parseValue (b.length + 1) (skipSpace b) with
    | none => simp [hp] at h
    | some p =>
      obtain ⟨v1, rest⟩ := p
      simp only [hp] at h
      by_cases hr : skipSpace rest = []
      · simp only [hr, if_true] at h
        simp at h
        subst h
        obtain ⟨t, hs, ht⟩ := (parse_sound _).1 _ _ _ hp
        obtain ⟨w1, hw1, hd⟩ := skipSpace_spec b
        obtain ⟨w2, hw2, hrest⟩ := skipSpace_spec rest
        refine ⟨w1, t, w2, hw1, ht, hw2, ?_⟩
        rw [hr] at hrest
        conv_lhs => rw [hd, hs, hrest]
        simp
      · simp [hr] at h
  · exact parseJSON_complete s b

/-- A JSON text denotes one value. -/
theorem JSONText_unique (s1 s2 : Syn) (b : Bytes) (h1 : JSONText s1 b) (h2 : JSONText s2 b) :
    s1 = s2 := by
  have e1 := parseJSON_complete s1 b h1
  have e2 := parseJSON_complete s2 b h2
  rw [e1] at e2
  exact Option.some.inj e2

/-! ## `unicode/utf8`: encoding and decoding of runes -/

theorem encodeRune_length (r : Nat) : 1 ≤ (encodeRune r).length ∧ (encodeRune r).length ≤ 4 := by
  unfold encodeRune
  split
  · simp
  · split
    · simp
    · split
      · simp
      · split <;> simp

theorem decodeRune_encodeRune (r : Nat) (q : Bytes) (h : ValidRune r) :
    decodeRune (encodeRune r ++ q) = (r, (encodeRune r).length) := by
  unfold ValidRune at h
  unfold encodeRune
  by_cases h1 : r < 0x80
  · simp [h1, decodeRune]
  · by_cases h2 : r < 0x800
    · simp only [h1, h2, if_true, if_false, List.cons_append, List.nil_append, decodeRune,
        List.length_cons, List.length_nil, inRange]
      rw [if_neg (by omega), if_neg (by omega), if_pos (by omega)]
      simp only [Bool.and_eq_true, decide_eq_true_eq]
      rw [if_pos (by omega)]
      simp only [Prod.mk.injEq, and_true]
      omega
    · have hs : (decide (0x10FFFF < r) || (decide (0xD800 ≤ r) && decide (r ≤ 0xDFFF))) = false := by
        simp only [Bool.or_eq_false_iff, Bool.and_eq_false_iff, decide_eq_false_iff_not]
        omega
      by_cases h3 : r < 0x10000
      · simp only [h1, h2, hs, h3, if_true, if_false, List.cons_append, List.nil_append,
          decodeRune, List.length_cons, List.length_nil, inRange, Bool.false_eq_true]
        rw [if_neg (by omega), if_neg (by omega), if_neg (by omega), if_pos (by omega)]
        simp only [Bool.and_eq_true, decide_eq_true_eq]
        rw [if_pos (by split <;> split <;> omega)]
        simp only [Prod.mk.injEq, and_true]
        omega
      · simp only [h1, h2, hs, h3, if_true, if_false, List.cons_append, List.nil_append,
          decodeRune, List.length_cons, List.length_nil, inRange, Bool.false_eq_true]
        rw [if_neg (by omega), if_neg (by omega), if_neg (by omega), if_neg (by omega),
          if_pos (by omega)]
        simp only [Bool.and_eq_true, decide_eq_true_eq]
        rw [if_pos (by split <;> split <;> omega)]
        simp only [Prod.mk.injEq, and_true]
        omega

/-- What `decodeRune` returns on a non-empty input: the error pair, or the
input starts with the encoding of a scalar value. -/
theorem decodeRune_cases (p : Bytes) (hp : p ≠ []) :
    decodeRune p = (RuneError, 1) ∨ ∃ r q, ValidRune r ∧ p = encodeRune r ++ q := by
  cases p with
  | nil => exact absurd rfl hp
  | cons b0 rest =>
    by_cases h1 : b0 < 0x80
    · right
      exact ⟨b0, rest, Or.inl (by omega), by simp [encodeRune, h1]⟩
    · by_cases h2 : b0 < 0xC2
      · left; simp only [decodeRune]; rw [if_neg h1, if_pos h2]
      · by_cases h3 : b0 < 0xE0
        · cases rest with
          | nil => left; simp only [decodeRune]; rw [if_neg h1, if_neg h2, if_pos h3]
          | cons b1 r1 =>
            by_cases hc : 0x80 ≤ b1 ∧ b1 ≤ 0xBF
            · right
              have hr : ¬ ((b0 - 0xC0) * 64 + (b1 - 0x80) < 0x80) := by omega
              have hr2 : (b0 - 0xC0) * 64 + (b1 - 0x80) < 0x800 := by omega
              refine ⟨(b0 - 0xC0) * 64 + (b1 - 0x80), r1, Or.inl (by omega), ?_⟩
              simp only [encodeRune, hr, hr2, if_true, if_false, List.cons_append,
                List.nil_append, List.cons.injEq, and_true]
              omega
            · left
              simp only [decodeRune, inRange, Bool.and_eq_true, decide_eq_true_eq]
              rw [if_neg h1, if_neg h2, if_pos h3, if_neg hc]
        · by_cases h4 : b0 < 0xF0
          · match rest with
            | [] => left; simp only [decodeRune]; rw [if_neg h1, if_neg h2, if_neg h3, if_pos h4]
            | [_] => left; simp only [decodeRune]; rw [if_neg h1, if_neg h2, if_neg h3, if_pos h4]
            | b1 :: b2 :: r2 =>
              by_cases hc : ((if b0 = 0xE0 then 0xA0 else 0x80) ≤ b1 ∧
                  b1 ≤ (if b0 = 0xED then 0x9F else 0xBF)) ∧ 0x80 ≤ b2 ∧ b2 ≤ 0xBF
              · right
                have hb1 : 0x80 ≤ b1 ∧ b1 ≤ 0xBF := by
                  obtain ⟨⟨ha, hb⟩, -⟩ := hc
                  split at ha <;> split at hb <;> omega
                have hlo : b0 = 0xE0 → 0xA0 ≤ b1 := by
                  intro h; obtain ⟨⟨ha, -⟩, -⟩ := hc; rw [if_pos h] at ha; exact ha
                have hhi : b0 = 0xED → b1 ≤ 0x9F := by
                  intro h; obtain ⟨⟨-, hb⟩, -⟩ := hc; rw [if_pos h] at hb; exact hb
                obtain ⟨-, hb2a, hb2b⟩ := hc
                obtain ⟨r, hr⟩ : ∃ r, r = ((b0 - 0xE0) * 64 + (b1 - 0x80)) * 64 + (b2 - 0x80) :=
                  ⟨_, rfl⟩
                have hr1 : ¬ r < 0x80 := by omega
                have hr2 : ¬ r < 0x800 := by omega
                have hr3 : r < 0x10000 := by omega
                have hs : (decide (0x10FFFF < r) || (decide (0xD800 ≤ r) && decide (r ≤ 0xDFFF)))
                    = false := by
                  simp only [Bool.or_eq_false_iff, Bool.and_eq_false_iff,
                    decide_eq_false_iff_not]
                  omega
                refine ⟨r, r2, by unfold ValidRune; omega, ?_⟩
                simp only [encodeRune, hr1, hr2, hr3, hs, if_true, if_false, List.cons_append,
                  List.nil_append, List.cons.injEq, and_true, Bool.false_eq_true]
                omega
              · left
                simp only [decodeRune, inRange, Bool.and_eq_true, decide_eq_true_eq]
                rw [if_neg h1, if_neg h2, if_neg h3, if_pos h4, if_neg hc]
          · by_cases h5 : b0 < 0xF5
            · match rest with
              | [] =>
                left; simp only [decodeRune]
                rw [if_neg h1, if_neg h2, if_neg h3, if_neg h4, if_pos h5]
              | [_] =>
                left; simp only [decodeRune]
                rw [if_neg h1, if_neg h2, if_neg h3, if_neg h4, if_pos h5]
              | [_, _] =>
                left; simp only [decodeRune]
                rw [if_neg h1, if_neg h2, if_neg h3, if_neg h4, if_pos h5]
              | b1 :: b2 :: b3 :: r3 =>
                by_cases hc : (((if b0 = 0xF0 then 0x90 else 0x80) ≤ b1 ∧
                    b1 ≤ (if b0 = 0xF4 then 0x8F else 0xBF)) ∧ 0x80 ≤ b2 ∧ b2 ≤ 0xBF) ∧
                    0x80 ≤ b3 ∧ b3 ≤ 0xBF
                · right
                  have hb1 : 0x80 ≤ b1 ∧ b1 ≤ 0xBF := by
                    obtain ⟨⟨⟨ha, hb⟩, -⟩, -⟩ := hc
                    split at ha <;> split at hb <;> omega
                  have hlo : b0 = 0xF0 → 0x90 ≤ b1 := by
                    intro h; obtain ⟨⟨⟨ha, -⟩, -⟩, -⟩ := hc; rw [if_pos h] at ha; exact ha
                  have hhi : b0 = 0xF4 → b1 ≤ 0x8F := by
                    intro h; obtain ⟨⟨⟨-, hb⟩, -⟩, -⟩ := hc; rw [if_pos h] at hb; exact hb
                  obtain ⟨⟨-, hb2a, hb2b⟩, hb3a, hb3b⟩ := hc
                  obtain ⟨r, hr⟩ : ∃ r, r = (((b0 - 0xF0) * 64 + (b1 - 0x80)) * 64
                      + (b2 - 0x80)) * 64 + (b3 - 0x80) := ⟨_, rfl⟩
                  have hr1 : ¬ r < 0x80 := by omega
                  have hr2 : ¬ r < 0x800 := by omega
                  have hr3 : ¬ r < 0x10000 := by omega
                  have hr4 : r ≤ 0x10FFFF := by omega
                  have hs : (decide (0x10FFFF < r) || (decide (0xD800 ≤ r) && decide (r ≤ 0xDFFF)))
                      = false := by
                    simp only [Bool.or_eq_false_iff, Bool.and_eq_false_iff,
                      decide_eq_false_iff_not]
                    omega
                  refine ⟨r, r3, by unfold ValidRune; omega, ?_⟩
                  simp only [encodeRune, hr1, hr2, hr3, hs, if_true, if_false, List.cons_append,
                    List.nil_append, List.cons.injEq, and_true, Bool.false_eq_true]
                  omega
                · left
                  simp only [decodeRune, inRange, Bool.and_eq_true, decide_eq_true_eq]
                  rw [if_neg h1, if_neg h2, if_neg h3, if_neg h4, if_pos h5, if_neg hc]
            · left
              simp only [decodeRune]
              rw [if_neg h1, if_neg h2, if_neg h3, if_neg h4, if_neg h5]

/-- Model of `utf8.Valid` accepts every well-formed UTF-8 sequence. -/
theorem utf8ValidAux_of_Utf8 (p : Bytes) (h : Utf8 p) :
    ∀ fuel, p.length ≤ fuel → utf8ValidAux fuel p = true := by
  induction h with
  | nil => intro fuel _; cases fuel <;> rfl
  | cons r t hr _ ih =>
    intro fuel hf
    have hl := encodeRune_length r
    have hdec := decodeRune_encodeRune r t hr
    rw [List.length_append] at hf
    obtain ⟨f, rfl⟩ : ∃ f, fuel = f + 1 := ⟨fuel - 1, by omega⟩
    cases hp : encodeRune r ++ t with
    | nil =>
      have := congrArg List.length hp
      simp only [List.length_append, List.length_nil] at this
      omega
    | cons b bs =>
      rw [hp] at hdec
      simp only [utf8ValidAux, hdec]
      have hne : ¬ (r = RuneError ∧ (encodeRune r).length = 1) := by
        rintro ⟨h1, h2⟩
        rw [h1] at h2
        simp [encodeRune, RuneError] at h2
      have hcond : (decide (r = RuneError) && decide ((encodeRune r).length = 1)) = false := by
        simpa using hne
      rw [← hp, List.drop_left]
      simp only [hcond, Bool.false_eq_true, if_false]
      exact ih f (by omega)

theorem utf8Valid_of_Utf8 (p : Bytes) (h : Utf8 p) : utf8Valid p = true :=
  utf8ValidAux_of_Utf8 p h p.length (le_refl _)

theorem hexDigit_isHex (n : Nat) (h : n < 16) : isHex (hexDigit n) = true := by
  unfold hexDigit isHex
  split <;> simp <;> omega

theorem hexVal_hexDigit (n : Nat) (h : n < 16) : hexVal (hexDigit n) = n := by
  unfold hexDigit hexVal
  split
  · rw [if_pos (by omega)]; omega
  · rw [if_neg (by omega), if_neg (by omega)]; omega

theorem hexVal_lt (c : Nat) (h : isHex c = true) : hexVal c < 16 := by
  rw [isHex_iff] at h
  unfold IsHexDigit at h
  unfold hexVal
  split
  · omega
  · split <;> omega

theorem getu4_lt (h1 h2 h3 h4 : Nat)
    (hx : (isHex h1 && isHex h2 && isHex h3 && isHex h4) = true) : getu4 h1 h2 h3 h4 < 0x10000 := by
  simp only [Bool.and_eq_true] at hx
  have a1 := hexVal_lt h1 hx.1.1.1
  have a2 := hexVal_lt h2 hx.1.1.2
  have a3 := hexVal_lt h3 hx.1.2
  have a4 := hexVal_lt h4 hx.2
  unfold getu4
  omega

theorem Utf8_cons_ascii (c : Nat) (t : Bytes) (hc : c < 0x80) (ht : Utf8 t) : Utf8 (c :: t) := by
  have h := Utf8.cons c t (Or.inl (by omega)) ht
  simpa [encodeRune, hc] using h

theorem Utf8_RuneError (t : Bytes) (ht : Utf8 t) : Utf8 (encodeRune RuneError ++ t) :=
  Utf8.cons RuneError t (Or.inr (by unfold RuneError; omega)) ht

/-- Inversion of `IsChars` on a byte other than the backslash. -/
theorem IsChars_cons_inv (c : Nat) (t : Bytes) (h : IsChars (c :: t)) (hc : c ≠ 92) :
    0x20 ≤ c ∧ c ≠ 34 ∧ IsChars t := by
  cases h with
  | unescaped _ _ h1 h2 h3 h4 => exact ⟨h1, h2, h4⟩
  | escape => exact absurd rfl hc
  | escapeU => exact absurd rfl hc

/-- Inversion of `IsChars` on a two-character escape. -/
theorem IsChars_escape_inv (e : Nat) (t : Bytes) (h : IsChars (92 :: e :: t)) (he : e ≠ 117) :
    (e = 34 ∨ e = 92 ∨ e = 47 ∨ e = 98 ∨ e = 102 ∨ e = 110 ∨ e = 114 ∨ e = 116) ∧ IsChars t := by
  cases h with
  | unescaped _ _ h1 h2 h3 h4 => exact absurd rfl h3
  | escape _ _ h1 h2 => exact ⟨h1, h2⟩
  | escapeU => exact absurd rfl he

/-- Inversion of `IsChars` on a `\u` escape. -/
theorem IsChars_escapeU_inv (t : Bytes) (h : IsChars (92 :: 117 :: t)) :
    ∃ h1 h2 h3 h4 t2, t = h1 :: h2 :: h3 :: h4 :: t2 ∧
      (isHex h1 && isHex h2 && isHex h3 && isHex h4) = true ∧ IsChars t2 := by
  cases h with
  | unescaped _ _ h1 h2 h3 h4 => exact absurd rfl h3
  | escape _ _ h1 h2 => omega
  | escapeU h1 h2 h3 h4 t2 x1 x2 x3 x4 ht =>
    refine ⟨h1, h2, h3, h4, t2, rfl, ?_, ht⟩
    simp only [Bool.and_eq_true, isHex_iff]
    exact ⟨⟨⟨x1, x2⟩, x3⟩, x4⟩

theorem IsChars_of_append_high (a q : Bytes) (ha : ∀ b ∈ a, 0x80 ≤ b) (h : IsChars (a ++ q)) :
    IsChars q := by
  induction a with
  | nil => exact h
  | cons b a ih =>
    have hb := ha b (by simp)
    exact ih (fun c hc => ha c (by simp [hc])) (IsChars_cons_inv b _ h (by omega)).2.2

theorem encodeRune_high (r : Nat) (hr : 0x80 ≤ r) : ∀ b ∈ encodeRune r, 0x80 ≤ b := by
  intro b hb
  unfold encodeRune at hb
  split at hb
  · omega
  · split at hb
    · simp at hb; omega
    · split at hb
      · simp at hb; omega
      · split at hb <;> (simp at hb; omega)

theorem encodeRune_head_lt (r : Nat) (q : Bytes) (c : Nat) (t : Bytes)
    (h : c :: t = encodeRune r ++ q) (hc : 0x80 ≤ c) : 0x80 ≤ r := by
  by_contra hr
  have : encodeRune r = [r] := by simp [encodeRune]; omega
  rw [this] at h
  simp at h
  omega

theorem getu4At_some (t : Bytes) (rr1 : Nat) (h : getu4At t = some rr1) :
    ∃ g1 g2 g3 g4 t2, t = 92 :: 117 :: g1 :: g2 :: g3 :: g4 :: t2 := by
  unfold getu4At at h
  split at h
  · exact ⟨_, _, _, _, _, rfl⟩
  · simp at h

theorem utf16DecodeRune_valid (r1 r2 : Nat) (h : utf16DecodeRune r1 r2 ≠ RuneError) :
    ValidRune (utf16DecodeRune r1 r2) := by
  unfold utf16DecodeRune at h ⊢
  split
  · right; omega
  · rename_i hn; rw [if_neg hn] at h; exact absurd rfl h

/-- On the text of a string token `unquote` succeeds, and what it returns is
valid UTF-8. -/
theorem unquoteAux_total (fuel : Nat) :
    ∀ raw : Bytes, raw.length ≤ fuel → IsChars raw → ∃ s, unquoteAux fuel raw = some s ∧ Utf8 s := by
  induction fuel with
  | zero =>
    intro raw hl _
    cases raw with
    | nil => exact ⟨[], rfl, Utf8.nil⟩
    | cons c t => simp at hl
  | succ fuel ih =>
    intro raw hl hch
    cases raw with
    | nil => exact ⟨[], by simp [unquoteAux], Utf8.nil⟩
    | cons c t =>
      simp only [List.length_cons] at hl
      by_cases h92 : c = 92
      · subst h92
        cases t with
        | nil => cases hch with
          | unescaped _ _ h1 h2 h3 h4 => exact absurd rfl h3
        | cons e t1 =>
          simp only [List.length_cons] at hl
          by_cases h117 : e = 117
          · subst h117
            obtain ⟨h1, h2, h3, h4, t2, rfl, hx, ht2⟩ := IsChars_escapeU_inv t1 hch
            simp only [List.length_cons] at hl
            rw [unquoteAux.eq_4, if_pos hx]
            simp only
            have hlt := getu4_lt h1 h2 h3 h4 hx
            obtain ⟨s2, hs2, hu2⟩ := ih t2 (by omega) ht2
            by_cases hsur : isSurrogate (getu4 h1 h2 h3 h4) = true
            · rw [if_pos hsur]
              cases hg : getu4At t2 with
              | none =>
                simp only [hs2, Option.map_some']
                exact ⟨_, rfl, Utf8_RuneError s2 hu2⟩
              | some rr1 =>
                simp only
                by_cases hd : utf16DecodeRune (getu4 h1 h2 h3 h4) rr1 ≠ RuneError
                · rw [if_pos hd]
                  obtain ⟨g1, g2, g3, g4, t3, rfl⟩ := getu4At_some t2 rr1 hg
                  obtain ⟨k1, k2, k3, k4, t4, hk, -, ht4⟩ := IsChars_escapeU_inv _ ht2
                  simp only [List.cons.injEq] at hk
                  obtain ⟨rfl, rfl, rfl, rfl, rfl⟩ := hk
                  simp only [List.length_cons] at hl
                  obtain ⟨s3, hs3, hu3⟩ := ih t3 (by omega) ht4
                  simp only [List.drop_succ_cons, List.drop_zero, hs3, Option.map_some']
                  exact ⟨_, rfl, Utf8.cons _ _ (utf16DecodeRune_valid _ _ hd) hu3⟩
                · rw [if_neg hd]
                  simp only [hs2, Option.map_some']
                  exact ⟨_, rfl, Utf8_RuneError s2 hu2⟩
            · rw [if_neg hsur]
              simp only [hs2, Option.map_some']
              refine ⟨_, rfl, Utf8.cons _ _ ?_ hu2⟩
              simp only [isSurrogate, Bool.and_eq_true, decide_eq_true_eq] at hsur
              unfold ValidRune
              omega
          · obtain ⟨he, ht1⟩ := IsChars_escape_inv e t1 hch h117
            obtain ⟨s1, hs1, hu1⟩ := ih t1 (by omega) ht1
            rw [unquoteAux.eq_5 _ _ _ (fun _ _ _ _ _ h _ => h117 h), hs1]
            by_cases c1 : e = 34 ∨ e = 92 ∨ e = 47 ∨ e = 39
            · rw [if_pos c1]
              exact ⟨_, rfl, Utf8_cons_ascii e s1 (by omega) hu1⟩
            · rw [if_neg c1]
              by_cases c2 : e = 98
              · rw [if_pos c2]; exact ⟨_, rfl, Utf8_cons_ascii 8 s1 (by omega) hu1⟩
              · rw [if_neg c2]
                by_cases c3 : e = 102
                · rw [if_pos c3]; exact ⟨_, rfl, Utf8_cons_ascii 12 s1 (by omega) hu1⟩
                · rw [if_neg c3]
                  by_cases c4 : e = 110
                  · rw [if_pos c4]; exact ⟨_, rfl, Utf8_cons_ascii 10 s1 (by omega) hu1⟩
                  · rw [if_neg c4]
                    by_cases c5 : e = 114
                    · rw [if_pos c5]; exact ⟨_, rfl, Utf8_cons_ascii 13 s1 (by omega) hu1⟩
                    · rw [if_neg c5]
                      have c6 : e = 116 := by omega
                      rw [if_pos c6]; exact ⟨_, rfl, Utf8_cons_ascii 9 s1 (by omega) hu1⟩
      · obtain ⟨hc20, hc34, ht⟩ := IsChars_cons_inv c t hch h92
        rw [unquoteAux.eq_6 _ _ _ (fun h => h92 h), if_neg (by omega)]
        by_cases h80 : c < 0x80
        · rw [if_pos h80]
          obtain ⟨s1, hs1, hu1⟩ := ih t (by omega) ht
          rw [hs1]
          exact ⟨_, rfl, Utf8_cons_ascii c s1 h80 hu1⟩
        · rw [if_neg h80]
          simp only
          rcases decodeRune_cases (c :: t) (by simp) with hd | ⟨r, q, hr, hq⟩
          · rw [hd]
            obtain ⟨s1, hs1, hu1⟩ := ih t (by omega) ht
            simp only [List.drop_succ_cons, List.drop_zero, hs1, Option.map_some']
            exact ⟨_, rfl, Utf8_RuneError s1 hu1⟩
          · have hdec := decodeRune_encodeRune r q hr
            rw [hq, hdec]
            simp only [List.drop_left]
            have hr80 := encodeRune_head_lt r q c t hq (by omega)
            have hqc : IsChars q :=
              IsChars_of_append_high _ q (encodeRune_high r hr80) (by rw [← hq]; exact hch)
            have hlen : q.length ≤ fuel := by
              have := congrArg List.length hq
              simp only [List.length_cons, List.length_append] at this
              have := (encodeRune_length r).1
              omega
            obtain ⟨s1, hs1, hu1⟩ := ih q hlen hqc
            rw [hs1]
            exact ⟨_, rfl, Utf8.cons r s1 hr hu1⟩

theorem unquote_total (raw : Bytes) (h : IsChars raw) : ∃ s, unquote raw = some s ∧ Utf8 s :=
  unquoteAux_total raw.length raw (le_refl _) h

theorem encodeRune_ascii (r : Nat) (h : r < 0x80) : encodeRune r = [r] := by
  simp [encodeRune, h]

theorem encodeRune_cons_high (r : Nat) (h : 0x80 ≤ r) :
    ∃ b bs, encodeRune r = b :: bs ∧ 0x80 ≤ b ∧ 2 ≤ (encodeRune r).length := by
  unfold encodeRune
  rw [if_neg (by omega)]
  split
  · exact ⟨_, _, rfl, by omega, by simp⟩
  · split
    · exact ⟨_, _, rfl, by omega, by simp⟩
    · split
      · exact ⟨_, _, rfl, by omega, by simp⟩
      · exact ⟨_, _, rfl, by omega, by simp⟩

theorem appendStringAux_step (fuel r : Nat) (t : Bytes) (hr : ValidRune r) :
    appendStringAux (fuel + 1) (encodeRune r ++ t) = runeText r ++ appendStringAux fuel t := by
  unfold runeText
  by_cases h80 : r < 0x80
  · rw [encodeRune_ascii r h80, if_pos h80]
    simp only [List.cons_append, List.nil_append]
    rw [appendStringAux.eq_3, if_pos h80]
    split <;> rfl
  · obtain ⟨b, bs, hb, hb80, hlen⟩ := encodeRune_cons_high r (by omega)
    have hdec := decodeRune_encodeRune r t hr
    rw [if_neg h80]
    have hcons : encodeRune r ++ t = b :: (bs ++ t) := by rw [hb]; rfl
    rw [hcons, appendStringAux.eq_3, if_neg (by omega)]
    simp only
    rw [← hcons, hdec]
    simp only
    rw [if_neg (by omega)]
    simp only [List.take_left, List.drop_left]
    split <;> rfl

theorem IsChars_append_high (a q : Bytes) (ha : ∀ b ∈ a, 0x80 ≤ b) (h : IsChars q) :
    IsChars (a ++ q) := by
  induction a with
  | nil => exact h
  | cons b a ih =>
    have hb := ha b (by simp)
    exact IsChars.unescaped b _ (by omega) (by omega) (by omega)
      (ih (fun c hc => ha c (by simp [hc])))

theorem IsHexDigit_hexDigit (n : Nat) (h : n < 16) : IsHexDigit (hexDigit n) :=
  (isHex_iff _).1 (hexDigit_isHex n h)

theorem runeText_IsChars (r : Nat) (rest : Bytes) (h : IsChars rest) : IsChars (runeText r ++ rest) := by
  unfold runeText
  by_cases h80 : r < 0x80
  · rw [if_pos h80]
    by_cases hs : htmlSafe r = true
    · rw [if_pos hs]
      simp only [htmlSafe, Bool.and_eq_true, decide_eq_true_eq, Bool.not_eq_true',
        Bool.or_eq_false_iff, decide_eq_false_iff_not] at hs
      exact IsChars.unescaped r rest hs.1 (by omega) (by omega) h
    · rw [if_neg hs]
      unfold escapeByte
      split
      · rename_i hb
        exact IsChars.escape r rest (by omega) h
      · split
        · exact IsChars.escape 98 rest (by omega) h
        · split
          · exact IsChars.escape 102 rest (by omega) h
          · split
            · exact IsChars.escape 110 rest (by omega) h
            · split
              · exact IsChars.escape 114 rest (by omega) h
              · split
                · exact IsChars.escape 116 rest (by omega) h
                · exact IsChars.escapeU 48 48 _ _ rest (by unfold IsHexDigit; omega)
                    (by unfold IsHexDigit; omega) (IsHexDigit_hexDigit _ (by omega))
                    (IsHexDigit_hexDigit _ (by omega)) h
  · rw [if_neg h80]
    split
    · exact IsChars.escapeU 50 48 50 _ rest (by unfold IsHexDigit; omega)
        (by unfold IsHexDigit; omega) (by unfold IsHexDigit; omega)
        (IsHexDigit_hexDigit _ (by omega)) h
    · exact IsChars_append_high _ rest (encodeRune_high r (by omega)) h

theorem runeText_length_pos (r : Nat) : 1 ≤ (runeText r).length := by
  unfold runeText
  split
  · split
    · simp
    · unfold escapeByte
      repeat' split
      all_goals simp
  · split
    · simp
    · exact (encodeRune_length r).1

theorem unquoteAux_step (fuel r : Nat) (rest : Bytes) (hr : ValidRune r) :
    unquoteAux (fuel + 1) (runeText r ++ rest)
      = (unquoteAux fuel rest).map (fun t => encodeRune r ++ t) := by
  unfold runeText
  by_cases h80 : r < 0x80
  · rw [if_pos h80, encodeRune_ascii r h80]
    by_cases hs : htmlSafe r = true
    · rw [if_pos hs]
      simp only [htmlSafe, Bool.and_eq_true, decide_eq_true_eq, Bool.not_eq_true',
        Bool.or_eq_false_iff, decide_eq_false_iff_not] at hs
      simp only [List.cons_append, List.nil_append]
      rw [unquoteAux.eq_6 _ _ _ (by omega), if_neg (by omega), if_pos h80]
    · rw [if_neg hs]
      unfold escapeByte
      split
      · rename_i hb
        simp only [List.cons_append, List.nil_append]
        rw [unquoteAux.eq_5 _ _ _ (fun _ _ _ _ _ h _ => by omega), if_pos (by omega)]
      · split
        · rename_i hb
          subst hb
          simp only [List.cons_append, List.nil_append]
          rw [unquoteAux.eq_5 _ _ _ (fun _ _ _ _ _ h _ => by omega)]
          simp
        · split
          · rename_i hb
            subst hb
            simp only [List.cons_append, List.nil_append]
            rw [unquoteAux.eq_5 _ _ _ (fun _ _ _ _ _ h _ => by omega)]
            simp
          · split
            · rename_i hb
              subst hb
              simp only [List.cons_append, List.nil_append]
              rw [unquoteAux.eq_5 _ _ _ (fun _ _ _ _ _ h _ => by omega)]
              simp
            · split
              · rename_i hb
                subst hb
                simp only [List.cons_append, List.nil_append]
                rw [unquoteAux.eq_5 _ _ _ (fun _ _ _ _ _ h _ => by omega)]
                simp
              · split
                · rename_i hb
                  subst hb
                  simp only [List.cons_append, List.nil_append]
                  rw [unquoteAux.eq_5 _ _ _ (fun _ _ _ _ _ h _ => by omega)]
                  simp
                · simp only [List.cons_append, List.nil_append]
                  have hx : (isHex 48 && isHex 48 && isHex (hexDigit (r / 16))
                      && isHex (hexDigit (r % 16))) = true := by
                    simp only [Bool.and_eq_true]
                    exact ⟨⟨⟨by decide, by decide⟩, hexDigit_isHex _ (by omega)⟩,
                      hexDigit_isHex _ (by omega)⟩
                  have hg : getu4 48 48 (hexDigit (r / 16)) (hexDigit (r % 16)) = r := by
                    unfold getu4
                    rw [hexVal_hexDigit _ (by omega), hexVal_hexDigit _ (by omega)]
                    simp [hexVal]
                    omega
                  rw [unquoteAux.eq_4, if_pos hx]
                  simp only [hg]
                  rw [if_neg (by simp [isSurrogate]; omega), encodeRune_ascii r h80]
                  rfl
  · rw [if_neg h80]
    split
    · rename_i h2028
      simp only [List.cons_append, List.nil_append]
      have hx : (isHex 50 && isHex 48 && isHex 50 && isHex (hexDigit (r % 16))) = true := by
        simp only [Bool.and_eq_true]
        exact ⟨⟨⟨by decide, by decide⟩, by decide⟩, hexDigit_isHex _ (by omega)⟩
      have hg : getu4 50 48 50 (hexDigit (r % 16)) = r := by
        unfold getu4
        rw [hexVal_hexDigit _ (by omega)]
        simp [hexVal]
        omega
      rw [unquoteAux.eq_4, if_pos hx]
      simp only [hg]
      rw [if_neg (by simp [isSurrogate]; omega)]
    · obtain ⟨b, bs, hb, hb80, hlen⟩ := encodeRune_cons_high r (by omega)
      have hdec := decodeRune_encodeRune r rest hr
      have hcons : encodeRune r ++ rest = b :: (bs ++ rest) := by rw [hb]; rfl
      rw [hcons, unquoteAux.eq_6 _ _ _ (by omega), if_neg (by omega), if_neg (by omega)]
      simp only
      rw [← hcons, hdec]
      simp only [List.drop_left]

/-- Round trip of a valid UTF-8 string through `appendString` and
`unquote`, and the text written is a string body of the grammar. -/
theorem appendString_roundtrip (s : Bytes) (hs : Utf8 s) :
    ∀ fuel, s.length ≤ fuel →
      IsChars (appendStringAux fuel s) ∧
      ∀ fuel2, (appendStringAux fuel s).length ≤ fuel2 →
        unquoteAux fuel2 (appendStringAux fuel s) = some s := by
  induction hs with
  | nil =>
    intro fuel _
    simp only [appendStringAux]
    exact ⟨IsChars.nil, fun fuel2 _ => by simp [unquoteAux]⟩
  | cons r t hr ht ih =>
    intro fuel hl
    have hlen := (encodeRune_length r).1
    simp only [List.length_append] at hl
    obtain ⟨f, rfl⟩ : ∃ f, fuel = f + 1 := ⟨fuel - 1, by omega⟩
    obtain ⟨ihc, ihu⟩ := ih f (by omega)
    rw [appendStringAux_step f r t hr]
    refine ⟨runeText_IsChars r _ ihc, ?_⟩
    intro fuel2 hl2
    have hpos := runeText_length_pos r
    simp only [List.length_append] at hl2
    obtain ⟨f2, rfl⟩ : ∃ f2, fuel2 = f2 + 1 := ⟨fuel2 - 1, by omega⟩
    rw [unquoteAux_step f2 r _ hr, ihu f2 (by omega)]
    rfl

theorem encodeString_roundtrip (s : Bytes) (hs : Utf8 s) :
    ∃ raw, encodeString s = 34 :: (raw ++ [34]) ∧ IsChars raw ∧ unquote raw = some s := by
  obtain ⟨hc, hu⟩ := appendString_roundtrip s hs s.length (le_refl _)
  exact ⟨appendStringAux s.length s, rfl, hc, hu _ (le_refl _)⟩

theorem map_some_inv {g : Bytes → Bytes} {x : Option Bytes} {s : Bytes}
    (h : x.map g = some s) : ∃ t, x = some t ∧ s = g t := by
  cases x with
  | none => simp at h
  | some t => exact ⟨t, rfl, by simpa using h.symm⟩

/-- Whatever `unquote` returns is well-formed UTF-8. -/
theorem unquoteAux_utf8 (n : Nat) :
    ∀ fuel, fuel ≤ n → ∀ (raw s : Bytes), unquoteAux fuel raw = some s → Utf8 s := by
  induction n with
  | zero =>
    intro fuel hle raw s h
    obtain rfl : fuel = 0 := by omega
    cases raw with
    | nil => simp [unquoteAux] at h; subst h; exact Utf8.nil
    | cons c t => simp [unquoteAux] at h
  | succ n ih =>
    intro fuel hle raw s h
    unfold unquoteAux at h
    split at h
    · simp at h; subst h; exact Utf8.nil
    · simp at h
    · -- escape
      split at h
      · simp at h
      · rename_i h1 h2 h3 h4 rest
        split at h
        · rename_i hx
          have hlt := getu4_lt h1 h2 h3 h4 hx
          simp only at h
          split at h
          · split at h
            · rename_i rr1 hg
              split at h
              · rename_i hd
                obtain ⟨t, ht, rfl⟩ := map_some_inv h
                exact Utf8.cons _ _ (utf16DecodeRune_valid _ _ hd) (ih _ (by omega) _ _ ht)
              · obtain ⟨t, ht, rfl⟩ := map_some_inv h
                exact Utf8_RuneError t (ih _ (by omega) _ _ ht)
            · obtain ⟨t, ht, rfl⟩ := map_some_inv h
              exact Utf8_RuneError t (ih _ (by omega) _ _ ht)
          · rename_i hsur
            obtain ⟨t, ht, rfl⟩ := map_some_inv h
            refine Utf8.cons _ _ ?_ (ih _ (by omega) _ _ ht)
            simp only [isSurrogate, Bool.and_eq_true, decide_eq_true_eq] at hsur
            unfold ValidRune
            omega
        · simp at h
      · rename_i e rest _
        split at h
        · rename_i c1
          obtain ⟨t, ht, rfl⟩ := map_some_inv h
          exact Utf8_cons_ascii e t (by omega) (ih _ (by omega) _ _ ht)
        · split at h
          · obtain ⟨t, ht, rfl⟩ := map_some_inv h
            exact Utf8_cons_ascii 8 t (by omega) (ih _ (by omega) _ _ ht)
          · split at h
            · obtain ⟨t, ht, rfl⟩ := map_some_inv h
              exact Utf8_cons_ascii 12 t (by omega) (ih _ (by omega) _ _ ht)
            · split at h
              · obtain ⟨t, ht, rfl⟩ := map_some_inv h
                exact Utf8_cons_ascii 10 t (by omega) (ih _ (by omega) _ _ ht)
              · split at h
                · obtain ⟨t, ht, rfl⟩ := map_some_inv h
                  exact Utf8_cons_ascii 13 t (by omega) (ih _ (by omega) _ _ ht)
                · split at h
                  · obtain ⟨t, ht, rfl⟩ := map_some_inv h
                    exact Utf8_cons_ascii 9 t (by omega) (ih _ (by omega) _ _ ht)
                  · simp at h
    · rename_i c cs _
      split at h
      · simp at h
      · split at h
        · rename_i h80
          obtain ⟨t, ht, rfl⟩ := map_some_inv h
          exact Utf8_cons_ascii c t h80 (ih _ (by omega) _ _ ht)
        · simp only at h
          obtain ⟨t, ht, rfl⟩ := map_some_inv h
          rcases decodeRune_cases (c :: cs) (by simp) with hd | ⟨r, q, hr, hq⟩
          · rw [hd]
            exact Utf8_RuneError t (ih _ (by omega) _ _ ht)
          · rw [hq, decodeRune_encodeRune r q hr]
            exact Utf8.cons r t hr (ih _ (by omega) _ _ ht)

theorem unquote_utf8 (raw s : Bytes) (h : unquote raw = some s) : Utf8 s :=
  unquoteAux_utf8 raw.length raw.length (le_refl _) raw s h

/-! ## Arithmetic of the conversion to `float64` -/

theorem bitLenAux_spec (fuel : Nat) : ∀ n : Nat, n ≤ fuel → 1 ≤ n →
    2 ^ (bitLenAux fuel n - 1) ≤ n ∧ n < 2 ^ bitLenAux fuel n ∧ 1 ≤ bitLenAux fuel n := by
  induction fuel with
  | zero => intro n h0 h1; omega
  | succ fuel ih =>
    intro n hn h1
    unfold bitLenAux
    rw [if_neg (by omega)]
    by_cases h2 : n / 2 = 0
    · have hn1 : n = 1 := by omega
      subst hn1
      cases fuel with
      | zero => simp [bitLenAux]
      | succ f => simp [bitLenAux]
    · obtain ⟨a, b, c⟩ := ih (n / 2) (by omega) (by omega)
      refine ⟨?_, ?_, by omega⟩
      · simp only [Nat.add_sub_cancel]
        obtain ⟨k, hk⟩ : ∃ k, bitLenAux fuel (n / 2) = k + 1 := ⟨_, (Nat.sub_add_cancel c).symm⟩
        rw [hk] at a ⊢
        simp only [Nat.add_sub_cancel] at a
        rw [pow_succ]
        omega
      · rw [pow_succ]
        omega

theorem bitLen_spec (n : Nat) (h : 1 ≤ n) :
    2 ^ (bitLen n - 1) ≤ n ∧ n < 2 ^ bitLen n ∧ 1 ≤ bitLen n :=
  bitLenAux_spec n n (le_refl _) h

theorem bitLen_spec_rat (n : Nat) (h : 1 ≤ n) :
    (2 : ℚ) ^ ((bitLen n : ℤ) - 1) ≤ (n : ℚ) ∧ (n : ℚ) < (2 : ℚ) ^ (bitLen n : ℤ) := by
  obtain ⟨a, b, c⟩ := bitLen_spec n h
  obtain ⟨k, hk⟩ : ∃ k, bitLen n = k + 1 := ⟨_, (Nat.sub_add_cancel c).symm⟩
  rw [hk] at a b ⊢
  simp only [Nat.add_sub_cancel] at a
  constructor
  · have : ((k + 1 : ℕ) : ℤ) - 1 = (k : ℤ) := by push_cast; ring
    rw [this, zpow_natCast]
    exact_mod_cast a
  · rw [zpow_natCast]
    exact_mod_cast b

theorem ratioGePow2_iff (num den : Nat) (e : Int) (hden : 0 < den) :
    ratioGePow2 num den e = true ↔ (2 : ℚ) ^ e ≤ (num : ℚ) / den := by
  have hd : (0 : ℚ) < den := by exact_mod_cast hden
  unfold ratioGePow2
  rw [decide_eq_true_iff, le_div_iff₀ hd]
  rcases le_or_lt 0 e with he | he
  · obtain ⟨k, rfl⟩ := Int.eq_ofNat_of_zero_le he
    simp only [Int.toNat_ofNat, zpow_natCast]
    have : (-(k : ℤ)).toNat = 0 := by omega
    rw [this, pow_zero, mul_one]
    constructor
    · intro h
      have : ((den * 2 ^ k : ℕ) : ℚ) ≤ (num : ℚ) := by exact_mod_cast h
      push_cast at this
      linarith
    · intro h
      have : ((2 : ℚ) ^ k * den) = ((den * 2 ^ k : ℕ) : ℚ) := by push_cast; ring
      rw [this] at h
      exact_mod_cast h
  · obtain ⟨k, hk⟩ : ∃ k : ℕ, e = -(k : ℤ) := ⟨(-e).toNat, by omega⟩
    subst hk
    have h1 : (-(k : ℤ)).toNat = 0 := by omega
    have h2 : (- -(k : ℤ)).toNat = k := by omega
    rw [h1, h2, pow_zero, mul_one, zpow_neg, zpow_natCast]
    have hp : (0 : ℚ) < 2 ^ k := by positivity
    rw [inv_mul_le_iff₀ hp]
    constructor
    · intro h
      have : ((den : ℕ) : ℚ) ≤ ((num * 2 ^ k : ℕ) : ℚ) := by exact_mod_cast h
      push_cast at this
      linarith
    · intro h
      have : (2 : ℚ) ^ k * num = ((num * 2 ^ k : ℕ) : ℚ) := by push_cast; ring
      rw [this] at h
      exact_mod_cast h

theorem zpow_two_pos (e : ℤ) : (0 : ℚ) < (2 : ℚ) ^ e := zpow_pos (by norm_num) e

theorem zpow_two_succ (e : ℤ) : (2 : ℚ) ^ (e + 1) = 2 * (2 : ℚ) ^ e := by
  rw [zpow_add₀ (by norm_num : (2 : ℚ) ≠ 0), zpow_one]; ring

theorem zpow_two_pred (e : ℤ) : (2 : ℚ) ^ (e - 1) = (2 : ℚ) ^ e / 2 := by
  have := zpow_two_succ (e - 1)
  simp only [sub_add_cancel] at this
  rw [this]; ring

/-- Result of `floorLog2` brackets the ratio between consecutive powers of
two. -/
theorem floorLog2_spec (num den : Nat) (hn : 1 ≤ num) (hd : 1 ≤ den) :
    (2 : ℚ) ^ (floorLog2 num den) ≤ (num : ℚ) / den ∧
    (num : ℚ) / den < (2 : ℚ) ^ (floorLog2 num den + 1) := by
  have hdq : (0 : ℚ) < den := by exact_mod_cast hd
  obtain ⟨a1, a2⟩ := bitLen_spec_rat num hn
  obtain ⟨b1, b2⟩ := bitLen_spec_rat den hd
  have key_hi : (num : ℚ) / den < (2 : ℚ) ^ ((bitLen num : ℤ) - (bitLen den : ℤ) + 1) := by
    rw [div_lt_iff₀ hdq]
    have e : (2 : ℚ) ^ ((bitLen num : ℤ) - (bitLen den : ℤ) + 1)
        = (2 : ℚ) ^ (bitLen num : ℤ) * ((2 : ℚ) ^ ((bitLen den : ℤ) - 1))⁻¹ := by
      rw [← zpow_neg, ← zpow_add₀ (by norm_num : (2 : ℚ) ≠ 0)]
      congr 1; ring
    rw [e]
    have hp := zpow_two_pos ((bitLen den : ℤ) - 1)
    have hq := zpow_two_pos (bitLen num : ℤ)
    calc (num : ℚ) < (2 : ℚ) ^ (bitLen num : ℤ) := a2
      _ = (2 : ℚ) ^ (bitLen num : ℤ) * ((2 : ℚ) ^ ((bitLen den : ℤ) - 1))⁻¹
            * (2 : ℚ) ^ ((bitLen den : ℤ) - 1) := by field_simp
      _ ≤ (2 : ℚ) ^ (bitLen num : ℤ) * ((2 : ℚ) ^ ((bitLen den : ℤ) - 1))⁻¹ * den := by
          apply mul_le_mul_of_nonneg_left b1
          positivity
  have key_lo : (2 : ℚ) ^ ((bitLen num : ℤ) - (bitLen den : ℤ) - 1) ≤ (num : ℚ) / den := by
    rw [le_div_iff₀ hdq]
    have e : (2 : ℚ) ^ ((bitLen num : ℤ) - (bitLen den : ℤ) - 1)
        = (2 : ℚ) ^ ((bitLen num : ℤ) - 1) * ((2 : ℚ) ^ (bitLen den : ℤ))⁻¹ := by
      rw [← zpow_neg, ← zpow_add₀ (by norm_num : (2 : ℚ) ≠ 0)]
      congr 1; ring
    rw [e]
    have hp := zpow_two_pos (bitLen den : ℤ)
    calc (2 : ℚ) ^ ((bitLen num : ℤ) - 1) * ((2 : ℚ) ^ (bitLen den : ℤ))⁻¹ * den
        ≤ (2 : ℚ) ^ ((bitLen num : ℤ) - 1) * ((2 : ℚ) ^ (bitLen den : ℤ))⁻¹
            * (2 : ℚ) ^ (bitLen den : ℤ) := by
          apply mul_le_mul_of_nonneg_left (le_of_lt b2)
          have := zpow_two_pos ((bitLen num : ℤ) - 1)
          positivity
      _ = (2 : ℚ) ^ ((bitLen num : ℤ) - 1) := by field_simp
      _ ≤ num := a1
  unfold floorLog2
  simp only
  by_cases hge : ratioGePow2 num den ((bitLen num : ℤ) - (bitLen den : ℤ)) = true
  · rw [if_pos hge]
    exact ⟨(ratioGePow2_iff num den _ hd).1 hge, key_hi⟩
  · rw [if_neg hge]
    refine ⟨key_lo, ?_⟩
    rw [ratioGePow2_iff num den _ hd, not_le] at hge
    simpa using hge

theorem zpow_bracket_unique (x : ℚ) (a b : ℤ) (ha1 : (2 : ℚ) ^ a ≤ x) (ha2 : x < (2 : ℚ) ^ (a + 1))
    (hb1 : (2 : ℚ) ^ b ≤ x) (hb2 : x < (2 : ℚ) ^ (b + 1)) : a = b := by
  have h1 : (2 : ℚ) ^ a < (2 : ℚ) ^ (b + 1) := lt_of_le_of_lt ha1 hb2
  have h2 : (2 : ℚ) ^ b < (2 : ℚ) ^ (a + 1) := lt_of_le_of_lt hb1 ha2
  rw [zpow_lt_zpow_iff_right₀ (by norm_num : (1 : ℚ) < 2)] at h1 h2
  omega

theorem roundHalfEven_spec (a b : Nat) (hb : 0 < b) :
    |((roundHalfEven a b : ℕ) : ℚ) - (a : ℚ) / b| ≤ 1 / 2 := by
  have hbq : (0 : ℚ) < b := by exact_mod_cast hb
  have hdm : (b : ℚ) * ((a / b : ℕ) : ℚ) + ((a % b : ℕ) : ℚ) = a := by
    exact_mod_cast Nat.div_add_mod a b
  have hmod : a % b < b := Nat.mod_lt a hb
  have hmq : ((a % b : ℕ) : ℚ) < b := by exact_mod_cast hmod
  have hm0 : (0 : ℚ) ≤ ((a % b : ℕ) : ℚ) := by positivity
  have hx : (a : ℚ) / b = ((a / b : ℕ) : ℚ) + ((a % b : ℕ) : ℚ) / b := by
    field_simp
    linarith
  unfold roundHalfEven
  simp only
  rw [abs_le]
  by_cases h1 : 2 * (a % b) < b
  · rw [if_pos h1]
    have h1q : (2 : ℚ) * ((a % b : ℕ) : ℚ) < b := by exact_mod_cast h1
    have : ((a % b : ℕ) : ℚ) / b < 1 / 2 := by rw [div_lt_iff₀ hbq]; linarith
    have : 0 ≤ ((a % b : ℕ) : ℚ) / b := by positivity
    constructor <;> linarith
  · rw [if_neg h1]
    by_cases h2 : b < 2 * (a % b)
    · rw [if_pos h2]
      have h2q : (b : ℚ) < 2 * ((a % b : ℕ) : ℚ) := by exact_mod_cast h2
      have : 1 / 2 < ((a % b : ℕ) : ℚ) / b := by rw [lt_div_iff₀ hbq]; linarith
      have : ((a % b : ℕ) : ℚ) / b < 1 := by rw [div_lt_iff₀ hbq]; linarith
      push_cast
      constructor <;> linarith
    · rw [if_neg h2]
      have heq : 2 * (a % b) = b := by omega
      have heqq : (2 : ℚ) * ((a % b : ℕ) : ℚ) = b := by exact_mod_cast heq
      have : ((a % b : ℕ) : ℚ) / b = 1 / 2 := by
        rw [div_eq_iff (ne_of_gt hbq)]; linarith
      split
      · constructor <;> linarith
      · push_cast
        constructor <;> linarith

theorem roundHalfEven_exact (k b : Nat) (hb : 0 < b) : roundHalfEven (k * b) b = k := by
  unfold roundHalfEven
  simp only [Nat.mul_mod_left, Nat.mul_div_cancel _ hb, mul_zero]
  rw [if_pos hb]

theorem scaled_ratio (num den : Nat) (q : Int) (hden : 0 < den) :
    ((num * 2 ^ (-q).toNat : ℕ) : ℚ) / ((den * 2 ^ q.toNat : ℕ) : ℚ)
      = (num : ℚ) / den * (2 : ℚ) ^ (-q) := by
  have hd : (den : ℚ) ≠ 0 := by exact_mod_cast (ne_of_gt hden)
  rcases le_or_lt 0 q with hq | hq
  · obtain ⟨k, rfl⟩ := Int.eq_ofNat_of_zero_le hq
    have h1 : (-(k : ℤ)).toNat = 0 := by omega
    simp only [Int.toNat_ofNat, h1, pow_zero, mul_one, zpow_neg, zpow_natCast]
    push_cast
    field_simp
  · obtain ⟨k, hk⟩ : ∃ k : ℕ, q = -(k : ℤ) := ⟨(-q).toNat, by omega⟩
    subst hk
    have h1 : (-(k : ℤ)).toNat = 0 := by omega
    have h2 : (- -(k : ℤ)).toNat = k := by omega
    simp only [h1, h2, pow_zero, mul_one, neg_neg, zpow_natCast]
    push_cast
    field_simp

theorem scaled_den_pos (den : Nat) (q : Int) (hden : 0 < den) : 0 < den * 2 ^ q.toNat :=
  Nat.mul_pos hden (by positivity)

theorem nat_le_of_rat_lt_add_half (n k : ℕ) (X : ℚ) (h1 : (n : ℚ) ≤ X + 1 / 2) (h2 : X < k) :
    n ≤ k := by
  by_contra hc
  have : (k : ℚ) + 1 ≤ n := by exact_mod_cast (by omega : k + 1 ≤ n)
  linarith

theorem nat_ge_of_rat_ge_sub_half (n k : ℕ) (X : ℚ) (h1 : X - 1 / 2 ≤ (n : ℚ)) (h2 : (k : ℚ) ≤ X) :
    k ≤ n := by
  by_contra hc
  have : (n : ℚ) + 1 ≤ k := by exact_mod_cast (by omega : n + 1 ≤ k)
  linarith

/-- The scaled ratio that `roundToFields` rounds lies below `2 ^ 53`, and is
at least `2 ^ 52` in the normal range. -/
theorem scaled_bounds (num den : Nat) (hn : 1 ≤ num) (hd : 1 ≤ den) :
    (num : ℚ) / den * (2 : ℚ) ^ (-(max (floorLog2 num den - 52) (-1074))) < 2 ^ 53 ∧
    (-1074 ≤ floorLog2 num den - 52 →
      (2 : ℚ) ^ 52 ≤ (num : ℚ) / den * (2 : ℚ) ^ (-(max (floorLog2 num den - 52) (-1074)))) := by
  obtain ⟨lo, hi⟩ := floorLog2_spec num den hn hd
  generalize floorLog2 num den = e at lo hi ⊢
  generalize (num : ℚ) / den = x at lo hi ⊢
  have hx : 0 < x := lt_of_lt_of_le (zpow_two_pos e) lo
  constructor
  · have hq : e - 52 ≤ max (e - 52) (-1074) := le_max_left _ _
    have hp := zpow_two_pos (-(max (e - 52) (-1074)))
    calc x * (2 : ℚ) ^ (-(max (e - 52) (-1074)))
        < (2 : ℚ) ^ (e + 1) * (2 : ℚ) ^ (-(max (e - 52) (-1074))) := by
          apply mul_lt_mul_of_pos_right hi hp
      _ = (2 : ℚ) ^ (e + 1 + -(max (e - 52) (-1074))) :=
          (zpow_add₀ (by norm_num : (2 : ℚ) ≠ 0) _ _).symm
      _ ≤ (2 : ℚ) ^ (53 : ℤ) := by
          apply zpow_le_zpow_right₀ (by norm_num)
          omega
      _ = 2 ^ 53 := by norm_num
  · intro hge
    have hq : max (e - 52) (-1074) = e - 52 := max_eq_left hge
    rw [hq]
    have hp := zpow_two_pos (-(e - 52))
    calc (2 : ℚ) ^ 52 = (2 : ℚ) ^ (52 : ℤ) := by norm_num
      _ = (2 : ℚ) ^ (e + -(e - 52)) := by congr 1; ring
      _ = (2 : ℚ) ^ e * (2 : ℚ) ^ (-(e - 52)) :=
          zpow_add₀ (by norm_num : (2 : ℚ) ≠ 0) _ _
      _ ≤ x * (2 : ℚ) ^ (-(e - 52)) := by
          apply mul_le_mul_of_nonneg_right lo (le_of_lt hp)

/-- Fields returned by `roundToFields` are those of a finite value. -/
theorem roundToFields_finite (num den ex fr : Nat) (hn : 1 ≤ num) (hd : 1 ≤ den)
    (h : roundToFields num den = some (ex, fr)) : ex ≤ 2046 ∧ fr < 2 ^ 52 := by
  have hb := (scaled_bounds num den hn hd).1
  have hs := roundHalfEven_spec (num * 2 ^ (-(max (floorLog2 num den - 52) (-1074))).toNat)
    (den * 2 ^ (max (floorLog2 num den - 52) (-1074)).toNat) (scaled_den_pos den _ hd)
  rw [scaled_ratio num den _ hd, abs_le] at hs
  unfold roundToFields at h
  simp only at h
  generalize roundHalfEven (num * 2 ^ (-(max (floorLog2 num den - 52) (-1074))).toNat)
    (den * 2 ^ (max (floorLog2 num den - 52) (-1074)).toNat) = n at h hs
  generalize max (floorLog2 num den - 52) (-1074) = q at h hs hb
  have hn53 : n ≤ 2 ^ 53 := by
    apply nat_le_of_rat_lt_add_half n (2 ^ 53) ((num : ℚ) / den * (2 : ℚ) ^ (-q))
      (by linarith [hs.2])
    push_cast
    exact hb
  by_cases h53 : n = 2 ^ 53
  · simp only [h53, if_true] at h
    split at h
    · simp at h
    · rename_i hq
      norm_num at h
      omega
  · simp only [h53, if_false] at h
    split at h
    · simp at h
    · rename_i hq
      split at h
      · simp at h
        omega
      · simp at h
        omega

/-- Ratios from `2 ^ 1024` on are out of range. -/
theorem roundToFields_lt (num den : Nat) (r : Nat × Nat) (hn : 1 ≤ num) (hd : 1 ≤ den)
    (h : roundToFields num den = some r) : (num : ℚ) / den < (2 : ℚ) ^ (1024 : ℤ) := by
  by_contra hc
  rw [not_lt] at hc
  obtain ⟨lo, hi⟩ := floorLog2_spec num den hn hd
  have h1 : (2 : ℚ) ^ (1024 : ℤ) < (2 : ℚ) ^ (floorLog2 num den + 1) := lt_of_le_of_lt hc hi
  rw [zpow_lt_zpow_iff_right₀ (by norm_num : (1 : ℚ) < 2)] at h1
  unfold roundToFields at h
  simp only at h
  have hq : 972 ≤ max (floorLog2 num den - 52) (-1074) := le_trans (by omega) (le_max_left _ _)
  generalize max (floorLog2 num den - 52) (-1074) = q at h hq
  rw [if_pos (by split <;> omega)] at h
  simp at h

/-- Ratios below `2 ^ (-1075)` round to zero. -/
theorem roundToFields_zero (num den : Nat) (hn : 1 ≤ num) (hd : 1 ≤ den)
    (hx : (num : ℚ) / den < (2 : ℚ) ^ (-1075 : ℤ)) : roundToFields num den = some (0, 0) := by
  obtain ⟨lo, hi⟩ := floorLog2_spec num den hn hd
  have h1 : (2 : ℚ) ^ (floorLog2 num den) < (2 : ℚ) ^ (-1075 : ℤ) := lt_of_le_of_lt lo hx
  rw [zpow_lt_zpow_iff_right₀ (by norm_num : (1 : ℚ) < 2)] at h1
  have hq : max (floorLog2 num den - 52) (-1074) = -1074 := max_eq_right (by omega)
  have hs := roundHalfEven_spec (num * 2 ^ (-(max (floorLog2 num den - 52) (-1074))).toNat)
    (den * 2 ^ (max (floorLog2 num den - 52) (-1074)).toNat) (scaled_den_pos den _ hd)
  rw [scaled_ratio num den _ hd, abs_le] at hs
  unfold roundToFields
  simp only
  generalize roundHalfEven (num * 2 ^ (-(max (floorLog2 num den - 52) (-1074))).toNat)
    (den * 2 ^ (max (floorLog2 num den - 52) (-1074)).toNat) = n at hs
  rw [hq] at hs ⊢
  have hX : (num : ℚ) / den * (2 : ℚ) ^ (-(-1074 : ℤ)) < 1 / 2 := by
    have hp := zpow_two_pos (-(-1074 : ℤ))
    calc (num : ℚ) / den * (2 : ℚ) ^ (-(-1074 : ℤ))
        < (2 : ℚ) ^ (-1075 : ℤ) * (2 : ℚ) ^ (-(-1074 : ℤ)) := mul_lt_mul_of_pos_right hx hp
      _ = (2 : ℚ) ^ ((-1075 : ℤ) + -(-1074 : ℤ)) :=
          (zpow_add₀ (by norm_num : (2 : ℚ) ≠ 0) _ _).symm
      _ = 1 / 2 := by norm_num
  have hn0 : n = 0 := by
    by_contra hc
    have : (1 : ℚ) ≤ n := by exact_mod_cast (by omega : 1 ≤ n)
    linarith [hs.2]
  subst hn0
  norm_num

theorem roundHalfEven_of_ratio (a b m : Nat) (hb : 0 < b) (h : (a : ℚ) / b = m) :
    roundHalfEven a b = m := by
  have hbq : (b : ℚ) ≠ 0 := by exact_mod_cast (ne_of_gt hb)
  have : (a : ℚ) = ((m * b : ℕ) : ℚ) := by
    rw [div_eq_iff hbq] at h
    push_cast
    exact h
  have hab : a = m * b := by exact_mod_cast this
  rw [hab]
  exact roundHalfEven_exact m b hb

/-- Rounding is exact on the values of `float64`: a ratio equal to the
magnitude of a finite non-zero value yields the fields of that value. -/
theorem roundToFields_exact (num den : Nat) (f : Float64) (hn : 1 ≤ num) (hd : 1 ≤ den)
    (hfin : FiniteFloat f) (hnz : ¬ (f.expo = 0 ∧ f.frac = 0))
    (hx : (num : ℚ) / den = f.absVal) : roundToFields num den = some (f.expo, f.frac) := by
  obtain ⟨hex, hfr⟩ := hfin
  obtain ⟨lo, hi⟩ := floorLog2_spec num den hn hd
  unfold Float64.absVal at hx
  have hq : max (floorLog2 num den - 52) (-1074) = f.exp2 := by
    by_cases h0 : f.expo = 0
    · have hm : f.mant = f.frac := by simp [Float64.mant, h0]
      have he : f.exp2 = -1074 := by simp [Float64.exp2, h0]
      rw [hm, he] at hx
      rw [he]
      apply max_eq_right
      have hfrq : (f.frac : ℚ) < 2 ^ 52 := by exact_mod_cast hfr
      have hp := zpow_two_pos (-1074)
      have h1 : (2 : ℚ) ^ (floorLog2 num den) < (2 : ℚ) ^ (-1022 : ℤ) := by
        calc (2 : ℚ) ^ (floorLog2 num den) ≤ (num : ℚ) / den := lo
          _ = (f.frac : ℚ) * (2 : ℚ) ^ (-1074 : ℤ) := hx
          _ < 2 ^ 52 * (2 : ℚ) ^ (-1074 : ℤ) := mul_lt_mul_of_pos_right hfrq hp
          _ = (2 : ℚ) ^ (52 : ℤ) * (2 : ℚ) ^ (-1074 : ℤ) := by norm_num
          _ = (2 : ℚ) ^ ((52 : ℤ) + (-1074 : ℤ)) :=
              (zpow_add₀ (by norm_num : (2 : ℚ) ≠ 0) _ _).symm
          _ = (2 : ℚ) ^ (-1022 : ℤ) := by norm_num
      rw [zpow_lt_zpow_iff_right₀ (by norm_num : (1 : ℚ) < 2)] at h1
      omega
    · have hm : f.mant = 2 ^ 52 + f.frac := by simp [Float64.mant, h0]
      have he : f.exp2 = (f.expo : ℤ) - 1075 := by
        unfold Float64.exp2
        have : max f.expo 1 = f.expo := max_eq_left (by omega)
        rw [this]
      rw [hm] at hx
      have hp := zpow_two_pos f.exp2
      have hm1 : (2 : ℚ) ^ (52 : ℤ) ≤ ((2 ^ 52 + f.frac : ℕ) : ℚ) := by
        push_cast; norm_num
      have hm2 : ((2 ^ 52 + f.frac : ℕ) : ℚ) < (2 : ℚ) ^ (53 : ℤ) := by
        have : (f.frac : ℚ) < 2 ^ 52 := by exact_mod_cast hfr
        push_cast; norm_num; linarith
      have b1 : (2 : ℚ) ^ (52 + f.exp2) ≤ (num : ℚ) / den := by
        rw [hx, zpow_add₀ (by norm_num : (2 : ℚ) ≠ 0)]
        exact mul_le_mul_of_nonneg_right hm1 (le_of_lt hp)
      have b2 : (num : ℚ) / den < (2 : ℚ) ^ (52 + f.exp2 + 1) := by
        rw [hx]
        have : (52 : ℤ) + f.exp2 + 1 = 53 + f.exp2 := by ring
        rw [this, zpow_add₀ (by norm_num : (2 : ℚ) ≠ 0)]
        exact mul_lt_mul_of_pos_right hm2 hp
      have := zpow_bracket_unique _ _ _ lo hi b1 b2
      rw [this]
      have h52 : 52 + f.exp2 - 52 = f.exp2 := by ring
      rw [h52]
      exact max_eq_left (by omega)
  have hX : ((num * 2 ^ (-f.exp2).toNat : ℕ) : ℚ) / ((den * 2 ^ f.exp2.toNat : ℕ) : ℚ)
      = (f.mant : ℚ) := by
    rw [scaled_ratio num den _ hd, hx, mul_assoc, ← zpow_add₀ (by norm_num : (2 : ℚ) ≠ 0)]
    simp
  have hr := roundHalfEven_of_ratio _ _ _ (scaled_den_pos den f.exp2 hd) hX
  unfold roundToFields
  simp only
  rw [hq, hr]
  by_cases h0 : f.expo = 0
  · have hm : f.mant = f.frac := by simp [Float64.mant, h0]
    have he : f.exp2 = -1074 := by simp [Float64.exp2, h0]
    rw [hm, he]
    have hne : ¬ f.frac = 2 ^ 53 := by omega
    simp only [hne, if_false]
    rw [if_neg (by omega), if_pos hfr, h0]
  · have hm : f.mant = 2 ^ 52 + f.frac := by simp [Float64.mant, h0]
    have he : f.exp2 = (f.expo : ℤ) - 1075 := by
      unfold Float64.exp2
      have : max f.expo 1 = f.expo := max_eq_left (by omega)
      rw [this]
    rw [hm, he]
    have hne : ¬ 2 ^ 52 + f.frac = 2 ^ 53 := by omega
    simp only [hne, if_false]
    rw [if_neg (by omega), if_neg (by omega)]
    have e1 : ((f.expo : ℤ) - 1075 + 1075).toNat = f.expo := by omega
    have e2 : 2 ^ 52 + f.frac - 2 ^ 52 = f.frac := by omega
    rw [e1, e2]

/-! ## Decimals: trailing zeros and the nearest `float64` -/

theorem stripZerosAux_fuel (fuel : Nat) : ∀ (m : Nat) (e : Int) (fuel2 : Nat),
    m ≤ fuel → m ≤ fuel2 → stripZerosAux fuel m e = stripZerosAux fuel2 m e := by
  induction fuel with
  | zero =>
    intro m e fuel2 h1 _
    have hm : m = 0 := by omega
    subst hm
    cases fuel2 with
    | zero => rfl
    | succ f => simp [stripZerosAux]
  | succ fuel ih =>
    intro m e fuel2 h1 h2
    by_cases hc : m ≠ 0 ∧ m % 10 = 0
    · obtain ⟨f2, rfl⟩ : ∃ f2, fuel2 = f2 + 1 := ⟨fuel2 - 1, by omega⟩
      simp only [stripZerosAux, hc, ne_eq, not_false_eq_true, and_self, if_true]
      exact ih (m / 10) (e + 1) f2 (by omega) (by omega)
    · cases fuel2 with
      | zero => simp [stripZerosAux, hc]
      | succ f2 => simp [stripZerosAux, hc]

theorem zpow_ten_succ (e : ℤ) : (10 : ℚ) ^ (e + 1) = 10 * (10 : ℚ) ^ e := by
  rw [zpow_add₀ (by norm_num : (10 : ℚ) ≠ 0), zpow_one]; ring

theorem zpow_ten_pos (e : ℤ) : (0 : ℚ) < (10 : ℚ) ^ e := zpow_pos (by norm_num) e

theorem stripZerosAux_val (fuel : Nat) : ∀ (m : Nat) (e : Int),
    ((stripZerosAux fuel m e).1 : ℚ) * (10 : ℚ) ^ (stripZerosAux fuel m e).2 = (m : ℚ) * (10 : ℚ) ^ e ∧
    (1 ≤ m → 1 ≤ (stripZerosAux fuel m e).1) := by
  induction fuel with
  | zero => intro m e; simp [stripZerosAux]
  | succ fuel ih =>
    intro m e
    by_cases hc : m ≠ 0 ∧ m % 10 = 0
    · simp only [stripZerosAux, hc, ne_eq, not_false_eq_true, and_self, if_true]
      obtain ⟨h1, h2⟩ := ih (m / 10) (e + 1)
      refine ⟨?_, fun _ => h2 (by omega)⟩
      rw [h1, zpow_ten_succ]
      have hm : (m : ℚ) = 10 * ((m / 10 : ℕ) : ℚ) := by
        have : m = 10 * (m / 10) := by omega
        exact_mod_cast this
      rw [hm]
      ring
    · simp [stripZerosAux, hc]

theorem stripZeros_val (m : Nat) (e : Int) :
    ((stripZeros m e).1 : ℚ) * (10 : ℚ) ^ (stripZeros m e).2 = (m : ℚ) * (10 : ℚ) ^ e ∧
    (1 ≤ m → 1 ≤ (stripZeros m e).1) :=
  stripZerosAux_val m m e

/-- Trailing zeros moved into the exponent do not change the stripped
decimal. -/
theorem stripZeros_mul_pow (d : Nat) (t : Int) (k : Nat) (hd : 1 ≤ d) :
    stripZeros (d * 10 ^ k) (t - k) = stripZeros d t := by
  induction k with
  | zero => simp
  | succ k ih =>
    rw [← ih]
    have hpos : 1 ≤ d * 10 ^ k := Nat.mul_pos hd (by positivity)
    have hM : d * 10 ^ (k + 1) = (d * 10 ^ k) * 10 := by rw [pow_succ]; ring
    obtain ⟨M1, hM1⟩ : ∃ M1, d * 10 ^ (k + 1) = M1 + 1 := ⟨d * 10 ^ (k + 1) - 1, by omega⟩
    unfold stripZeros
    rw [hM1]
    have hc : M1 + 1 ≠ 0 ∧ (M1 + 1) % 10 = 0 := by
      constructor
      · omega
      · rw [← hM1, hM]; simp
    simp only [stripZerosAux, hc, ne_eq, not_false_eq_true, and_self, if_true]
    have hdiv : (M1 + 1) / 10 = d * 10 ^ k := by rw [← hM1, hM]; simp
    rw [hdiv]
    have he : (t - ((k + 1 : ℕ) : ℤ)) + 1 = t - (k : ℤ) := by push_cast; ring
    rw [he]
    exact stripZerosAux_fuel M1 _ _ _ (by omega) (le_refl _)

/-- Ratio that `decToFields` rounds is the value of the decimal. -/
theorem decimal_ratio (d : Nat) (t : Int) :
    ((d * 10 ^ t.toNat : ℕ) : ℚ) / ((10 ^ (-t).toNat : ℕ) : ℚ) = (d : ℚ) * (10 : ℚ) ^ t := by
  rcases le_or_lt 0 t with ht | ht
  · obtain ⟨k, rfl⟩ := Int.eq_ofNat_of_zero_le ht
    have h1 : (-(k : ℤ)).toNat = 0 := by omega
    simp only [Int.toNat_ofNat, h1, pow_zero, zpow_natCast]
    push_cast
    simp
  · obtain ⟨k, hk⟩ : ∃ k : ℕ, t = -(k : ℤ) := ⟨(-t).toNat, by omega⟩
    subst hk
    have h1 : (-(k : ℤ)).toNat = 0 := by omega
    have h2 : (- -(k : ℤ)).toNat = k := by omega
    simp only [h1, h2, pow_zero, mul_one, zpow_neg, zpow_natCast]
    push_cast
    rfl

theorem decToFields_ratio (d : Nat) (t : Int) (hd : 1 ≤ d) :
    ∃ num den, 1 ≤ num ∧ 1 ≤ den ∧ decToFields d t = roundToFields num den ∧
      (num : ℚ) / den = (d : ℚ) * (10 : ℚ) ^ t := by
  obtain ⟨hv, hp⟩ := stripZeros_val d t
  refine ⟨(stripZeros d t).1 * 10 ^ (stripZeros d t).2.toNat, 10 ^ (-(stripZeros d t).2).toNat,
    Nat.mul_pos (hp hd) (by positivity), Nat.one_le_pow _ _ (by norm_num), rfl, ?_⟩
  rw [decimal_ratio, hv]

theorem decToFields_exact (d : Nat) (t : Int) (f : Float64) (hd : 1 ≤ d) (hfin : FiniteFloat f)
    (hnz : ¬ (f.expo = 0 ∧ f.frac = 0)) (hx : (d : ℚ) * (10 : ℚ) ^ t = f.absVal) :
    decToFields d t = some (f.expo, f.frac) := by
  obtain ⟨num, den, hn, hden, he, hr⟩ := decToFields_ratio d t hd
  rw [he]
  exact roundToFields_exact num den f hn hden hfin hnz (by rw [hr, hx])

theorem decToFields_lt (d : Nat) (t : Int) (r : Nat × Nat) (hd : 1 ≤ d)
    (h : decToFields d t = some r) : (d : ℚ) * (10 : ℚ) ^ t < (2 : ℚ) ^ (1024 : ℤ) := by
  obtain ⟨num, den, hn, hden, he, hr⟩ := decToFields_ratio d t hd
  rw [he] at h
  rw [← hr]
  exact roundToFields_lt num den r hn hden h

theorem decToFields_ge (d : Nat) (t : Int) (ex fr : Nat) (hd : 1 ≤ d)
    (h : decToFields d t = some (ex, fr)) (hnz : ¬ (ex = 0 ∧ fr = 0)) :
    (2 : ℚ) ^ (-1075 : ℤ) ≤ (d : ℚ) * (10 : ℚ) ^ t := by
  obtain ⟨num, den, hn, hden, he, hr⟩ := decToFields_ratio d t hd
  rw [he] at h
  rw [← hr]
  by_contra hc
  rw [not_le] at hc
  rw [roundToFields_zero num den hn hden hc] at h
  have h0 := Option.some.inj h
  have h1 := congrArg Prod.fst h0
  have h2 := congrArg Prod.snd h0
  simp only at h1 h2
  exact hnz ⟨h1.symm, h2.symm⟩

theorem decToFields_finite (d : Nat) (t : Int) (ex fr : Nat) (hd : 1 ≤ d)
    (h : decToFields d t = some (ex, fr)) : ex ≤ 2046 ∧ fr < 2 ^ 52 := by
  obtain ⟨num, den, hn, hden, he, hr⟩ := decToFields_ratio d t hd
  rw [he] at h
  exact roundToFields_finite num den ex fr hn hden h

theorem pick_spec (q : Nat → Bool) (lo hi r den d : Nat)
    (h : (if ((decide (lo ≠ 0) && q lo) && (decide (hi ≠ 0) && q hi)) = true then
            some (if 2 * r < den then lo else if den < 2 * r then hi
              else if lo % 2 = 0 then lo else hi)
          else if (decide (lo ≠ 0) && q lo) = true then some lo
          else if (decide (hi ≠ 0) && q hi) = true then some hi
          else none) = some d) : 1 ≤ d ∧ q d = true := by
  by_cases a : (decide (lo ≠ 0) && q lo) = true
  · by_cases b : (decide (hi ≠ 0) && q hi) = true
    · rw [if_pos (by rw [a, b]; rfl)] at h
      have hd := Option.some.inj h
      subst hd
      simp only [Bool.and_eq_true, decide_eq_true_eq] at a b
      split
      · exact ⟨by omega, a.2⟩
      · split
        · exact ⟨by omega, b.2⟩
        · split
          · exact ⟨by omega, a.2⟩
          · exact ⟨by omega, b.2⟩
    · rw [if_neg (by rw [a]; simpa using b), if_pos a] at h
      have hd := Option.some.inj h
      subst hd
      simp only [Bool.and_eq_true, decide_eq_true_eq] at a
      exact ⟨by omega, a.2⟩
  · by_cases b : (decide (hi ≠ 0) && q hi) = true
    · rw [if_neg (by rw [b]; simpa using a), if_neg a, if_pos b] at h
      have hd := Option.some.inj h
      subst hd
      simp only [Bool.and_eq_true, decide_eq_true_eq] at b
      exact ⟨by omega, b.2⟩
    · have a2 : (decide (lo ≠ 0) && q lo) = false := by simpa using a
      rw [if_neg (by rw [a2]; simp), if_neg a, if_neg b] at h
      exact absurd h (by simp)

theorem shortestAt_spec (mant : Nat) (exp2 : Int) (fields : Nat × Nat) (t : Int) (d : Nat)
    (h : shortestAt mant exp2 fields t = some d) : 1 ≤ d ∧ decToFields d t = some fields := by
  have := pick_spec (fun x => decide (decToFields x t = some fields)) _ _ _ _ d h
  simpa using this

theorem shortestSearch_spec (mant : Nat) (exp2 : Int) (fields : Nat × Nat) (fuel : Nat) :
    ∀ (t : Int) (r : Nat × Int), shortestSearch mant exp2 fields fuel t = some r →
      1 ≤ r.1 ∧ decToFields r.1 r.2 = some fields := by
  induction fuel with
  | zero => intro t r h; simp [shortestSearch] at h
  | succ fuel ih =>
    intro t r h
    rw [shortestSearch] at h
    split at h
    · rename_i d hd
      have hr := Option.some.inj h
      subst hr
      exact shortestAt_spec mant exp2 fields t d hd
    · exact ih _ _ h

theorem mant_pos (f : Float64) (hnz : ¬ (f.expo = 0 ∧ f.frac = 0)) : 1 ≤ f.mant := by
  unfold Float64.mant
  split
  · omega
  · have : 0 < 2 ^ 52 := by norm_num
    omega

theorem exactDecimal_val (mant : Nat) (exp2 : Int) :
    ((exactDecimal mant exp2).1 : ℚ) * (10 : ℚ) ^ (exactDecimal mant exp2).2
      = (mant : ℚ) * (2 : ℚ) ^ exp2 ∧ (1 ≤ mant → 1 ≤ (exactDecimal mant exp2).1) := by
  unfold exactDecimal
  split
  · rename_i h
    obtain ⟨k, rfl⟩ := Int.eq_ofNat_of_zero_le h
    refine ⟨?_, fun hm => Nat.mul_pos hm (by positivity)⟩
    simp only [Int.toNat_ofNat, zpow_zero, mul_one, zpow_natCast]
    push_cast
    rfl
  · rename_i h
    obtain ⟨k, hk⟩ : ∃ k : ℕ, exp2 = -(k : ℤ) := ⟨(-exp2).toNat, by omega⟩
    subst hk
    refine ⟨?_, fun hm => Nat.mul_pos hm (by positivity)⟩
    have h2 : (- -(k : ℤ)).toNat = k := by omega
    simp only [h2, zpow_neg, zpow_natCast]
    push_cast
    have h10 : (10 : ℚ) ^ k = 2 ^ k * 5 ^ k := by rw [← mul_pow]; norm_num
    rw [h10]
    have h2k : (2 : ℚ) ^ k ≠ 0 := by positivity
    have h5k : (5 : ℚ) ^ k ≠ 0 := by positivity
    field_simp
    ring

/-- Decimal of the shortest formatting parses back to the value. -/
theorem shortestDecimal_spec (f : Float64) (hfin : FiniteFloat f)
    (hnz : ¬ (f.expo = 0 ∧ f.frac = 0)) :
    1 ≤ (shortestDecimal f).1 ∧
      decToFields (shortestDecimal f).1 (shortestDecimal f).2 = some (f.expo, f.frac) := by
  unfold shortestDecimal
  split
  · rename_i r hr
    exact shortestSearch_spec _ _ _ _ _ _ hr
  · obtain ⟨hv, hp⟩ := exactDecimal_val f.mant f.exp2
    have h1 := hp (mant_pos f hnz)
    exact ⟨h1, decToFields_exact _ _ f h1 hfin hnz hv⟩

set_option exponentiation.threshold 2000 in
theorem pow2_1024_lt : (2 : ℚ) ^ (1024 : ℤ) < (10 : ℚ) ^ (309 : ℤ) := by
  have h : (2 : ℚ) ^ (1024 : ℕ) < (10 : ℚ) ^ (309 : ℕ) := by norm_num
  rw [zpow_ofNat, zpow_ofNat]
  exact h

set_option exponentiation.threshold 2000 in
theorem pow10_neg324_lt : (10 : ℚ) ^ (-324 : ℤ) < (2 : ℚ) ^ (-1075 : ℤ) := by
  have h : (2 : ℚ) ^ (1075 : ℕ) < (10 : ℚ) ^ (324 : ℕ) := by norm_num
  rw [zpow_neg, zpow_neg, zpow_ofNat, zpow_ofNat]
  exact inv_strictAnti₀ (by positivity) h

/-- Decimal point position of a decimal that rounds to a finite non-zero
value: with `n` the number of digits of `d`, that is
`10 ^ (n - 1) ≤ d < 10 ^ n`, the position `n + t` lies between -323 and
309. -/
theorem decimal_point_bounds (d n : Nat) (t : Int) (ex fr : Nat) (hd : 1 ≤ d)
    (hlo : 10 ^ (n - 1) ≤ d) (hhi : d < 10 ^ n) (hn : 1 ≤ n)
    (h : decToFields d t = some (ex, fr)) (hnz : ¬ (ex = 0 ∧ fr = 0)) :
    -323 ≤ (n : Int) + t ∧ (n : Int) + t ≤ 309 := by
  have h1 := decToFields_lt d t (ex, fr) hd h
  have h2 := decToFields_ge d t ex fr hd h hnz
  have hten : (1 : ℚ) < 10 := by norm_num
  have hloq : (10 : ℚ) ^ (((n - 1 : ℕ) : ℤ)) ≤ (d : ℚ) := by
    rw [zpow_natCast]; exact_mod_cast hlo
  have hhiq : (d : ℚ) < (10 : ℚ) ^ ((n : ℤ)) := by
    rw [zpow_natCast]; exact_mod_cast hhi
  constructor
  · have : (10 : ℚ) ^ (-324 : ℤ) < (10 : ℚ) ^ ((n : ℤ) + t) := by
      calc (10 : ℚ) ^ (-324 : ℤ) < (2 : ℚ) ^ (-1075 : ℤ) := pow10_neg324_lt
        _ ≤ (d : ℚ) * (10 : ℚ) ^ t := h2
        _ < (10 : ℚ) ^ ((n : ℤ)) * (10 : ℚ) ^ t :=
            mul_lt_mul_of_pos_right hhiq (zpow_ten_pos t)
        _ = (10 : ℚ) ^ ((n : ℤ) + t) := (zpow_add₀ (by norm_num) _ _).symm
    have := (zpow_lt_zpow_iff_right₀ hten).1 this
    omega
  · have : (10 : ℚ) ^ ((((n - 1 : ℕ) : ℤ)) + t) < (10 : ℚ) ^ (309 : ℤ) := by
      calc (10 : ℚ) ^ ((((n - 1 : ℕ) : ℤ)) + t)
          = (10 : ℚ) ^ (((n - 1 : ℕ) : ℤ)) * (10 : ℚ) ^ t := zpow_add₀ (by norm_num) _ _
        _ ≤ (d : ℚ) * (10 : ℚ) ^ t := mul_le_mul_of_nonneg_right hloq (le_of_lt (zpow_ten_pos t))
        _ < (2 : ℚ) ^ (1024 : ℤ) := h1
        _ < (10 : ℚ) ^ (309 : ℤ) := pow2_1024_lt
    have := (zpow_lt_zpow_iff_right₀ hten).1 this
    omega

/-! ## Text of a `float64`: digits, formats, and reading back -/

theorem digitsFold_init (b : Bytes) : ∀ init : Nat,
    List.foldl (fun acc d => acc * 10 + (d - 48)) init b
      = init * 10 ^ b.length + List.foldl (fun acc d => acc * 10 + (d - 48)) 0 b := by
  induction b with
  | nil => intro init; simp
  | cons c t ih =>
    intro init
    simp only [List.foldl_cons, List.length_cons]
    rw [ih (init * 10 + (c - 48)), ih (0 * 10 + (c - 48))]
    rw [pow_succ]
    ring

theorem digitsVal_append (a b : Bytes) :
    digitsVal (a ++ b) = digitsVal a * 10 ^ b.length + digitsVal b := by
  unfold digitsVal
  rw [List.foldl_append, digitsFold_init]

theorem digitsVal_cons (c : Nat) (b : Bytes) :
    digitsVal (c :: b) = (c - 48) * 10 ^ b.length + digitsVal b := by
  have h := digitsVal_append [c] b
  simpa [digitsVal] using h

theorem digitsVal_zeros (k : Nat) : digitsVal (List.replicate k 48) = 0 := by
  induction k with
  | zero => rfl
  | succ k ih => rw [List.replicate_succ, digitsVal_cons, ih]; simp

theorem IsDigits_append {a b : Bytes} (ha : IsDigits a) (hb : IsDigits b) : IsDigits (a ++ b) := by
  intro c hc
  rcases List.mem_append.1 hc with h | h
  · exact ha c h
  · exact hb c h

theorem IsDigits_zeros (k : Nat) : IsDigits (List.replicate k 48) := by
  intro c hc
  have := List.eq_of_mem_replicate hc
  omega

/-- Digits that `natDigitsAux` puts in front of its accumulator. -/
theorem natDigitsAux_spec (fuel : Nat) : ∀ (n : Nat) (acc : Bytes), n < fuel →
    ∃ ds, natDigitsAux fuel n acc = ds ++ acc ∧ IsDigits ds ∧ digitsVal ds = n ∧
      1 ≤ ds.length ∧ n < 10 ^ ds.length ∧
      (1 ≤ n → 10 ^ (ds.length - 1) ≤ n ∧ ∃ c r, ds = c :: r ∧ 49 ≤ c ∧ c ≤ 57) := by
  induction fuel with
  | zero => intro n acc h; omega
  | succ fuel ih =>
    intro n acc hn
    by_cases h10 : n < 10
    · refine ⟨[48 + n], by simp [natDigitsAux, h10], ?_, by simp [digitsVal], by simp, by simpa using h10, ?_⟩
      · intro c hc
        simp at hc
        omega
      · intro h1
        exact ⟨by simpa using h1, 48 + n, [], rfl, by omega, by omega⟩
    · obtain ⟨ds, he, hd, hv, hl, hlt, hge⟩ := ih (n / 10) ((48 + n % 10) :: acc) (by omega)
      refine ⟨ds ++ [48 + n % 10], ?_, ?_, ?_, by simp, ?_, ?_⟩
      · simp only [natDigitsAux, h10, if_false, he, List.append_assoc, List.singleton_append]
      · apply IsDigits_append hd
        intro c hc
        simp at hc
        omega
      · rw [digitsVal_append, hv]
        simp [digitsVal]
        omega
      · rw [List.length_append, List.length_singleton, pow_succ]
        omega
      · intro _
        obtain ⟨hlo, c, r, hcr, hc1, hc2⟩ := hge (by omega)
        refine ⟨?_, c, r ++ [48 + n % 10], by rw [hcr]; rfl, hc1, hc2⟩
        rw [List.length_append, List.length_singleton, Nat.add_sub_cancel]
        obtain ⟨k, hk⟩ : ∃ k, ds.length = k + 1 := ⟨ds.length - 1, by omega⟩
        rw [hk] at hlo ⊢
        rw [Nat.add_sub_cancel] at hlo
        rw [pow_succ]
        omega

theorem natDigits_spec (n : Nat) :
    IsDigits (natDigits n) ∧ digitsVal (natDigits n) = n ∧ 1 ≤ (natDigits n).length ∧
      n < 10 ^ (natDigits n).length ∧
      (1 ≤ n → 10 ^ ((natDigits n).length - 1) ≤ n ∧
        ∃ c r, natDigits n = c :: r ∧ 49 ≤ c ∧ c ≤ 57) := by
  obtain ⟨ds, he, h⟩ := natDigitsAux_spec (n + 1) n [] (by omega)
  rw [List.append_nil] at he
  unfold natDigits
  rw [he]
  exact h

theorem spanDigits_all (ds : Bytes) (hd : IsDigits ds) : spanDigits ds = (ds, []) := by
  have h := spanDigits_append ds [] hd (by intro c hc; simp at hc)
  simpa using h

theorem spanDigits_stop (ds : Bytes) (c : Nat) (rest : Bytes) (hd : IsDigits ds)
    (hc : isDigit c = false) : spanDigits (ds ++ c :: rest) = (ds, c :: rest) :=
  spanDigits_append ds (c :: rest) hd (by intro x hx; simp at hx; rw [← hx]; exact hc)

theorem readExponent_spec (sg : Bool) (ed : Bytes) (hd : IsDigits ed) (hne : ed ≠ []) :
    readExponent ((if sg then 45 else 43) :: ed)
      = some (if sg then -(digitsVal ed : Int) else (digitsVal ed : Int)) := by
  unfold readExponent
  cases sg
  · simp [spanDigits_all ed hd, hne]
  · simp [spanDigits_all ed hd, hne]

theorem readMantissa_int (ip : Bytes) (hd : IsDigits ip) (hne : ip ≠ []) :
    readMantissa ip = some (digitsVal ip, 0) := by
  unfold readMantissa
  simp [spanDigits_all ip hd, hne]

theorem readMantissa_int_exp (ip ex : Bytes) (ev : Int) (hd : IsDigits ip) (hne : ip ≠ [])
    (hex : readExponent ex = some ev) :
    readMantissa (ip ++ 101 :: ex) = some (digitsVal ip, ev) := by
  unfold readMantissa
  simp [spanDigits_stop ip 101 ex hd (by decide), hne, hex]

theorem readMantissa_frac (ip fp : Bytes) (hd : IsDigits ip) (hne : ip ≠ [])
    (hf : IsDigits fp) :
    readMantissa (ip ++ 46 :: fp) = some (digitsVal (ip ++ fp), -(fp.length : Int)) := by
  unfold readMantissa
  simp [spanDigits_stop ip 46 fp hd (by decide), spanDigits_all fp hf, hne]

theorem readMantissa_frac_exp (ip fp ex : Bytes) (ev : Int) (hd : IsDigits ip) (hne : ip ≠ [])
    (hf : IsDigits fp) (hex : readExponent ex = some ev) :
    readMantissa (ip ++ 46 :: (fp ++ 101 :: ex))
      = some (digitsVal (ip ++ fp), ev - (fp.length : Int)) := by
  unfold readMantissa
  simp [spanDigits_stop ip 46 (fp ++ 101 :: ex) hd (by decide),
    spanDigits_stop fp 101 ex hf (by decide), hne, hex]

/-- Sign of `readDecimal`: an optional minus before text that starts with a
digit. -/
theorem readDecimal_sign (sgn : Bool) (c : Nat) (body : Bytes) (m : Nat) (e : Int)
    (hc : 48 ≤ c ∧ c ≤ 57) (h : readMantissa (c :: body) = some (m, e)) :
    readDecimal ((if sgn then [45] else []) ++ c :: body) = some (sgn, m, e) := by
  unfold readDecimal
  cases sgn
  · have h1 : c ≠ 45 := by omega
    have h2 : c ≠ 43 := by omega
    simp [h1, h2, h]
  · simp [h]

/-- Value that `parseFloat` returns for text read as a non-zero decimal. -/
theorem parseFloat_of_read (text : Bytes) (f : Float64) (m : Nat) (e : Int)
    (hr : readDecimal text = some (f.sign, m, e)) (hm : 1 ≤ m)
    (hf : decToFields m e = some (f.expo, f.frac)) : parseFloat text = .ok f := by
  unfold parseFloat
  rw [hr]
  simp only
  rw [if_neg (by omega), hf]

theorem decToFields_mul_pow (d : Nat) (t : Int) (k : Nat) (hd : 1 ≤ d) :
    decToFields (d * 10 ^ k) (t - k) = decToFields d t := by
  unfold decToFields
  rw [stripZeros_mul_pow d t k hd]

theorem fmtF_int (ds : Bytes) (k : Nat) (hne : ds ≠ []) :
    fmtF ds ((ds.length : Int) + k) = ds ++ List.replicate k 48 := by
  have hl : 1 ≤ ds.length := by
    cases ds with
    | nil => exact absurd rfl hne
    | cons c t => simp
  unfold fmtF
  have h1 : (0 : Int) < (ds.length : Int) + k := by omega
  have h2 : ((ds.length : Int) + k).toNat = ds.length + k := by omega
  have h3 : ((ds.length : Int) - ((ds.length : Int) + k)).toNat = 0 := by omega
  simp only [h1, h2, h3, if_true, lt_irrefl, if_false, List.append_nil]
  rw [Nat.min_eq_left (by omega), List.take_length]
  congr 2
  omega

theorem fmtF_frac_mid (ds : Bytes) (k n : Nat) (hn : k + n = ds.length) :
    (List.range n).map (fun (i : Nat) =>
        let j : Int := (k : Int) + (i : Int)
        if 0 ≤ j ∧ j < (ds.length : Int) then ds.getD j.toNat 48 else 48) = ds.drop k := by
  apply List.ext_getElem
  · simp; omega
  · intro i h1 h2
    simp only [List.length_map, List.length_range] at h1
    have e : ((k : Int) + (i : Int)).toNat = k + i := by omega
    have c : (0 : Int) ≤ (k : Int) + i ∧ (k : Int) + i < ds.length := by omega
    simp only [List.getElem_map, List.getElem_range, c, and_self, if_true, e]
    rw [List.getD_eq_getElem _ _ (by omega), List.getElem_drop]

theorem fmtF_frac_small (ds : Bytes) (z : Nat) :
    (List.range (z + ds.length)).map (fun (i : Nat) =>
        let j : Int := -(z : Int) + (i : Int)
        if 0 ≤ j ∧ j < (ds.length : Int) then ds.getD j.toNat 48 else 48)
      = List.replicate z 48 ++ ds := by
  apply List.ext_getElem
  · simp
  · intro i h1 h2
    simp only [List.length_map, List.length_range] at h1
    simp only [List.getElem_map, List.getElem_range]
    by_cases hi : i < z
    · rw [if_neg (by omega), List.getElem_append_left (by simpa using hi)]
      simp
    · have e : (-(z : Int) + (i : Int)).toNat = i - z := by omega
      rw [if_pos (by omega), e, List.getD_eq_getElem _ _ (by omega),
        List.getElem_append_right (by simp; omega)]
      simp

theorem fmtF_mid (ds : Bytes) (k : Nat) (hk : 1 ≤ k) (hk2 : k < ds.length) :
    fmtF ds (k : Int) = ds.take k ++ 46 :: ds.drop k := by
  unfold fmtF
  have h1 : (0 : Int) < (k : Int) := by omega
  have h3 : ((ds.length : Int) - (k : Int)).toNat = ds.length - k := by omega
  have h4 : 0 < ds.length - k := by omega
  simp only [h1, h3, h4, if_true, Int.toNat_ofNat]
  rw [Nat.min_eq_right (by omega), Nat.sub_self, List.replicate_zero, List.append_nil,
    fmtF_frac_mid ds k (ds.length - k) (by omega)]

theorem fmtF_small (ds : Bytes) (z : Nat) (hne : ds ≠ []) :
    fmtF ds (-(z : Int)) = 48 :: 46 :: (List.replicate z 48 ++ ds) := by
  have hl : 1 ≤ ds.length := by
    cases ds with
    | nil => exact absurd rfl hne
    | cons c t => simp
  unfold fmtF
  have h1 : ¬ (0 : Int) < -(z : Int) := by omega
  have h3 : ((ds.length : Int) - -(z : Int)).toNat = z + ds.length := by omega
  have h4 : 0 < z + ds.length := by omega
  simp only [h1, h3, h4, if_true, if_false]
  rw [fmtF_frac_small ds z]
  rfl

theorem fmtE_shape (c : Nat) (r : Bytes) (dp : Int) :
    fmtE (c :: r) dp = c :: ((if 0 < r.length then 46 :: r else []) ++
      101 :: (if dp - 1 < 0 then 45 else 43) ::
        (if (dp - 1).natAbs < 10 then [48, 48 + (dp - 1).natAbs]
         else if (dp - 1).natAbs < 100 then [48 + (dp - 1).natAbs / 10, 48 + (dp - 1).natAbs % 10]
         else [48 + (dp - 1).natAbs / 100, 48 + (dp - 1).natAbs / 10 % 10,
           48 + (dp - 1).natAbs % 10])) := by
  unfold fmtE
  simp only [List.length_cons, Nat.add_sub_cancel, List.headD_cons, Nat.add_one_ne_zero,
    if_false, List.singleton_append, List.cons_append, List.append_assoc, List.nil_append]
  congr 1
  by_cases hr : 0 < r.length
  · simp only [hr, if_true]
    rw [Nat.min_self, List.take_succ_cons, List.drop_succ_cons, List.drop_zero, List.take_length,
      Nat.max_eq_right (by omega), Nat.sub_self, List.replicate_zero, List.append_nil]
  · simp only [hr, if_false]

theorem cleanExp_one (pre : Bytes) (sg e : Nat) (hsg : sg = 45 ∨ sg = 43) :
    cleanExp (pre ++ 101 :: sg :: [48, 48 + e]) = pre ++ 101 :: sg :: [48 + e] := by
  unfold cleanExp
  have hrev : (pre ++ 101 :: sg :: [48, 48 + e]).reverse
      = (48 + e) :: 48 :: sg :: 101 :: pre.reverse := by simp
  rw [hrev]
  simp only [hsg, if_true]
  simp

theorem cleanExp_two (pre : Bytes) (sg d1 d2 : Nat) (hd1 : d1 ≠ 48) :
    cleanExp (pre ++ 101 :: sg :: [d1, d2]) = pre ++ 101 :: sg :: [d1, d2] := by
  unfold cleanExp
  have hrev : (pre ++ 101 :: sg :: [d1, d2]).reverse
      = d2 :: d1 :: sg :: 101 :: pre.reverse := by simp
  rw [hrev]
  split
  · rename_i d s rest heq
    simp only [List.cons.injEq] at heq
    exact absurd heq.2.1 hd1
  · rfl

theorem cleanExp_three (pre : Bytes) (sg d1 d2 d3 : Nat) (hsg : sg = 45 ∨ sg = 43) :
    cleanExp (pre ++ 101 :: sg :: [d1, d2, d3]) = pre ++ 101 :: sg :: [d1, d2, d3] := by
  unfold cleanExp
  have hrev : (pre ++ 101 :: sg :: [d1, d2, d3]).reverse
      = d3 :: d2 :: d1 :: sg :: 101 :: pre.reverse := by simp
  rw [hrev]
  split
  · rename_i d s rest heq
    simp only [List.cons.injEq] at heq
    omega
  · rfl

theorem cleanExp_fmt (pre : Bytes) (sgB : Bool) (e : Nat) (he : e < 1000) :
    ∃ ed, cleanExp (pre ++ 101 :: (if sgB then 45 else 43) ::
        (if e < 10 then [48, 48 + e]
         else if e < 100 then [48 + e / 10, 48 + e % 10]
         else [48 + e / 100, 48 + e / 10 % 10, 48 + e % 10]))
      = pre ++ 101 :: (if sgB then 45 else 43) :: ed ∧ IsDigits ed ∧ ed ≠ [] ∧ digitsVal ed = e := by
  have hsg : (if sgB then 45 else 43 : Nat) = 45 ∨ (if sgB then 45 else 43 : Nat) = 43 := by
    cases sgB <;> simp
  by_cases h1 : e < 10
  · refine ⟨[48 + e], ?_, ?_, by simp, by simp [digitsVal]⟩
    · rw [if_pos h1]; exact cleanExp_one pre _ e hsg
    · intro c hc; simp at hc; omega
  · by_cases h2 : e < 100
    · refine ⟨[48 + e / 10, 48 + e % 10], ?_, ?_, by simp, ?_⟩
      · rw [if_neg h1, if_pos h2]; exact cleanExp_two pre _ _ _ (by omega)
      · intro c hc; simp at hc; omega
      · simp [digitsVal]; omega
    · refine ⟨[48 + e / 100, 48 + e / 10 % 10, 48 + e % 10], ?_, ?_, by simp, ?_⟩
      · rw [if_neg h1, if_neg h2]; exact cleanExp_three pre _ _ _ _ hsg
      · intro c hc; simp at hc; omega
      · simp [digitsVal]; omega

/-- Number text made of an optional minus and a body that starts with a
digit: it is a JSON number and `parseFloat` reads it as `f`. -/
theorem number_of_body (f : Float64) (body ip fp ep : Bytes) (c : Nat) (rest : Bytes)
    (m : Nat) (e : Int) (hb : body = c :: rest) (hc : 48 ≤ c ∧ c ≤ 57)
    (hsplit : body = ip ++ fp ++ ep) (hip : IsInt ip) (hfp : fp = [] ∨ IsFrac fp)
    (hep : ep = [] ∨ IsExp ep) (hread : readMantissa body = some (m, e)) (hm : 1 ≤ m)
    (hf : decToFields m e = some (f.expo, f.frac)) :
    IsNumber ((if f.sign then [45] else []) ++ body) ∧
      parseFloat ((if f.sign then [45] else []) ++ body) = .ok f := by
  constructor
  · refine ⟨if f.sign then [45] else [], ip, fp, ep, ?_, ?_, hip, hfp, hep⟩
    · rw [hsplit]; simp
    · cases f.sign <;> simp
  · rw [hb] at hread ⊢
    exact parseFloat_of_read _ f m e (readDecimal_sign f.sign c rest m e hc hread) hm hf

theorem IsDigits_tail {c : Nat} {r : Bytes} (h : IsDigits (c :: r)) : IsDigits r :=
  fun x hx => h x (List.mem_cons_of_mem _ hx)

theorem IsDigits_take {ds : Bytes} (k : Nat) (h : IsDigits ds) : IsDigits (ds.take k) :=
  fun x hx => h x (List.mem_of_mem_take hx)

theorem IsDigits_drop {ds : Bytes} (k : Nat) (h : IsDigits ds) : IsDigits (ds.drop k) :=
  fun x hx => h x (List.mem_of_mem_drop hx)

/-- Format `'f'` of the decimal `d * 10 ^ t`: a JSON number that reads back
to the value the decimal rounds to. -/
theorem fmtF_roundtrip (f : Float64) (d : Nat) (t : Int) (hd : 1 ≤ d)
    (hf : decToFields d t = some (f.expo, f.frac)) :
    IsNumber ((if f.sign then [45] else []) ++
        fmtF (natDigits d) (((natDigits d).length : Int) + t)) ∧
      parseFloat ((if f.sign then [45] else []) ++
        fmtF (natDigits d) (((natDigits d).length : Int) + t)) = .ok f := by
  obtain ⟨hdig, hval, hlen, _, hge⟩ := natDigits_spec d
  obtain ⟨_, c, r, hcr, hc1, hc2⟩ := hge hd
  generalize natDigits d = ds at hdig hval hlen hcr
  have hne : ds ≠ [] := by rw [hcr]; simp
  have hr : IsDigits r := by rw [hcr] at hdig; exact IsDigits_tail hdig
  rcases le_or_lt 0 t with ht | ht
  · -- integer: the digits, then zeros
    obtain ⟨k, rfl⟩ := Int.eq_ofNat_of_zero_le ht
    rw [fmtF_int ds k hne]
    have hall : IsDigits (ds ++ List.replicate k 48) := IsDigits_append hdig (IsDigits_zeros k)
    refine number_of_body f _ (ds ++ List.replicate k 48) [] [] c (r ++ List.replicate k 48)
      (d * 10 ^ k) 0 (by rw [hcr]; rfl) ⟨by omega, hc2⟩ (by simp) ?_ (Or.inl rfl) (Or.inl rfl)
      ?_ (Nat.mul_pos hd (by positivity)) ?_
    · exact Or.inr ⟨c, r ++ List.replicate k 48, by rw [hcr]; rfl, hc1, hc2,
        IsDigits_append hr (IsDigits_zeros k)⟩
    · rw [readMantissa_int _ hall (by simp [hne]), digitsVal_append, hval, digitsVal_zeros]
      simp
    · have h := decToFields_mul_pow d (k : Int) k hd
      rw [sub_self] at h
      rw [h]
      exact hf
  · rcases lt_or_le 0 ((ds.length : Int) + t) with hp | hp
    · -- the decimal point inside the digits
      obtain ⟨kk, hkk⟩ : ∃ kk : Nat, (ds.length : Int) + t = kk := ⟨((ds.length : Int) + t).toNat, by omega⟩
      rw [hkk, fmtF_mid ds kk (by omega) (by omega)]
      have htk : ds.take kk = c :: r.take (kk - 1) := by
        obtain ⟨j, hj⟩ : ∃ j, kk = j + 1 := ⟨kk - 1, by omega⟩
        rw [hj, hcr]; rfl
      have hdl : (ds.drop kk).length = ds.length - kk := by simp
      obtain ⟨x, xs, hx⟩ : ∃ x xs, ds.drop kk = x :: xs := by
        cases hq : ds.drop kk with
        | nil => rw [hq] at hdl; simp at hdl; omega
        | cons x xs => exact ⟨x, xs, rfl⟩
      refine number_of_body f _ (ds.take kk) (46 :: ds.drop kk) [] c (r.take (kk - 1) ++ 46 :: ds.drop kk)
        d t (by rw [htk]; rfl) ⟨by omega, hc2⟩ (by simp) ?_ (Or.inr ?_) (Or.inl rfl) ?_ hd hf
      · exact Or.inr ⟨c, r.take (kk - 1), htk, hc1, hc2, IsDigits_take _ hr⟩
      · exact ⟨x, xs, by rw [hx], by rw [← hx]; exact IsDigits_drop _ hdig⟩
      · rw [readMantissa_frac _ _ (IsDigits_take _ hdig) (by rw [htk]; simp) (IsDigits_drop _ hdig),
          List.take_append_drop, hval, hdl]
        congr 2
        omega
    · -- the decimal point before the digits
      obtain ⟨z, hz⟩ : ∃ z : Nat, (ds.length : Int) + t = -(z : Int) := ⟨(-((ds.length : Int) + t)).toNat, by omega⟩
      rw [hz, fmtF_small ds z hne]
      have hzd : IsDigits (List.replicate z 48 ++ ds) := IsDigits_append (IsDigits_zeros z) hdig
      obtain ⟨x, xs, hx⟩ : ∃ x xs, List.replicate z 48 ++ ds = x :: xs := by
        cases hq : List.replicate z 48 ++ ds with
        | nil => simp [hne] at hq
        | cons x xs => exact ⟨x, xs, rfl⟩
      refine number_of_body f _ [48] (46 :: (List.replicate z 48 ++ ds)) [] 48
        (46 :: (List.replicate z 48 ++ ds)) d t rfl ⟨by omega, by omega⟩ (by simp) (Or.inl rfl)
        (Or.inr ?_) (Or.inl rfl) ?_ hd hf
      · exact ⟨x, xs, by rw [hx], by rw [← hx]; exact hzd⟩
      · have h := readMantissa_frac [48] (List.replicate z 48 ++ ds) (by intro y hy; simp at hy; omega)
          (by simp) hzd
        rw [List.singleton_append] at h
        have h0 : digitsVal [48] = 0 := rfl
        rw [h, digitsVal_append, digitsVal_append, digitsVal_zeros, hval, h0]
        simp only [zero_mul, zero_add, List.length_append, List.length_replicate]
        congr 2
        push_cast
        omega

/-- Format `'e'` of the decimal `d * 10 ^ t`, with the exponent cleaned: a
JSON number that reads back to the value the decimal rounds to. -/
theorem fmtE_roundtrip (f : Float64) (d : Nat) (t : Int) (hd : 1 ≤ d)
    (hf : decToFields d t = some (f.expo, f.frac))
    (hb : -1000 < ((natDigits d).length : Int) + t - 1 ∧
      ((natDigits d).length : Int) + t - 1 < 1000) :
    IsNumber (cleanExp ((if f.sign then [45] else []) ++
        fmtE (natDigits d) (((natDigits d).length : Int) + t))) ∧
      parseFloat (cleanExp ((if f.sign then [45] else []) ++
        fmtE (natDigits d) (((natDigits d).length : Int) + t))) = .ok f := by
  obtain ⟨hdig, hval, hlen, _, hge⟩ := natDigits_spec d
  obtain ⟨_, c, r, hcr, hc1, hc2⟩ := hge hd
  generalize natDigits d = ds at hdig hval hlen hcr hb
  subst hcr
  have hr : IsDigits r := IsDigits_tail hdig
  have hlen2 : ((c :: r).length : Int) = (r.length : Int) + 1 := by simp
  rw [hlen2] at hb ⊢
  generalize hdp : (r.length : Int) + 1 + t = dp at hb ⊢
  rw [fmtE_shape c r dp]
  have hsgn : (if dp - 1 < 0 then 45 else 43 : Nat)
      = (if decide (dp - 1 < 0) then 45 else 43 : Nat) := by
    by_cases h : dp - 1 < 0 <;> simp [h]
  rw [hsgn]
  have hassoc : ∀ (tail : Bytes), (if f.sign then [45] else []) ++
      c :: ((if 0 < r.length then 46 :: r else []) ++ tail)
      = ((if f.sign then [45] else []) ++ c :: (if 0 < r.length then 46 :: r else [])) ++ tail := by
    intro tail; simp
  rw [hassoc]
  obtain ⟨ed, hclean, hed, hedne, hedv⟩ :=
    cleanExp_fmt ((if f.sign then [45] else []) ++ c :: (if 0 < r.length then 46 :: r else []))
      (decide (dp - 1 < 0)) (dp - 1).natAbs (by omega)
  rw [hclean, ← hassoc]
  have hex : readExponent ((if decide (dp - 1 < 0) then 45 else 43) :: ed) = some (dp - 1) := by
    rw [readExponent_spec _ ed hed hedne, hedv]
    by_cases h : dp - 1 < 0
    · simp only [h, decide_True, if_true]; congr 1; omega
    · simp only [h, decide_False, Bool.false_eq_true, if_false]; congr 1; omega
  obtain ⟨x, xs, hx⟩ : ∃ x xs, ed = x :: xs := by
    cases ed with
    | nil => exact absurd rfl hedne
    | cons x xs => exact ⟨x, xs, rfl⟩
  have hep : IsExp (101 :: (if decide (dp - 1 < 0) then 45 else 43) :: ed) := by
    refine ⟨101, [if decide (dp - 1 < 0) then 45 else 43], x, xs, by rw [hx]; rfl, Or.inl rfl, ?_,
      by rw [← hx]; exact hed⟩
    by_cases h : dp - 1 < 0 <;> simp [h]
  have hc : IsDigits [c] := by intro y hy; simp at hy; omega
  by_cases hrl : 0 < r.length
  · obtain ⟨y, ys, hy⟩ : ∃ y ys, r = y :: ys := by
      cases r with
      | nil => simp at hrl
      | cons y ys => exact ⟨y, ys, rfl⟩
    rw [if_pos hrl]
    refine number_of_body f _ [c] (46 :: r) (101 :: (if decide (dp - 1 < 0) then 45 else 43) :: ed)
      c _ d t rfl ⟨by omega, hc2⟩ (by simp) (Or.inr ⟨c, [], rfl, hc1, hc2, by intro y hy; simp at hy⟩)
      (Or.inr ⟨y, ys, by rw [hy], by rw [← hy]; exact hr⟩) (Or.inr hep) ?_ hd hf
    have h := readMantissa_frac_exp [c] r _ (dp - 1) hc (by simp) hr hex
    rw [List.singleton_append] at h
    rw [List.cons_append, h, List.singleton_append, hval]
    congr 2
    omega
  · have hr0 : r = [] := by
      cases r with
      | nil => rfl
      | cons y ys => simp at hrl
    subst hr0
    rw [if_neg hrl]
    refine number_of_body f _ [c] [] (101 :: (if decide (dp - 1 < 0) then 45 else 43) :: ed)
      c _ d t rfl ⟨by omega, hc2⟩ (by simp) (Or.inr ⟨c, [], rfl, hc1, hc2, by intro y hy; simp at hy⟩)
      (Or.inl rfl) (Or.inr hep) ?_ hd hf
    have h := readMantissa_int_exp [c] _ (dp - 1) hc (by simp) hex
    rw [List.singleton_append] at h
    rw [List.nil_append, h, hval]
    congr 2
    simp at hdp
    omega

theorem formatFloat_zero (s : Bool) :
    IsNumber (formatFloat ⟨s, 0, 0⟩ false) ∧ parseFloat (formatFloat ⟨s, 0, 0⟩ false) = .ok ⟨s, 0, 0⟩ := by
  constructor
  · refine ⟨if s then [45] else [], [48], [], [], ?_, ?_, Or.inl rfl, Or.inl rfl, Or.inl rfl⟩
    · cases s <;> rfl
    · cases s <;> simp
  · cases s <;> rfl

theorem formatFloat_nonzero (f : Float64) (useE : Bool) (hnz : ¬ (f.expo = 0 ∧ f.frac = 0)) :
    formatFloat f useE = (if f.sign then [45] else []) ++
      (if useE then
        fmtE (natDigits (shortestDecimal f).1)
          (((natDigits (shortestDecimal f).1).length : Int) + (shortestDecimal f).2)
       else
        fmtF (natDigits (shortestDecimal f).1)
          (((natDigits (shortestDecimal f).1).length : Int) + (shortestDecimal f).2)) := by
  unfold formatFloat shortestDigits
  rw [if_neg hnz]

/-- Text that `json.Marshal` writes for a finite `float64` is a JSON number
that `strconv.ParseFloat` reads back as the same `float64`. -/
theorem encodeFloat_roundtrip (f : Float64) (hfin : FiniteFloat f) :
    ∃ text, encodeFloat f = .ok text ∧ IsNumber text ∧ parseFloat text = .ok f := by
  have hinf : (f.isInf || f.isNaN) = false := by
    have h1 : f.expo ≠ 2047 := by have := hfin.1; omega
    simp [Float64.isInf, Float64.isNaN, h1]
  unfold encodeFloat
  rw [hinf]
  simp only [Bool.false_eq_true, if_false]
  by_cases hz : f.expo = 0 ∧ f.frac = 0
  · have hf : f = ⟨f.sign, 0, 0⟩ := by
      cases f with
      | mk s e fr => simp only at hz; rw [hz.1, hz.2]
    have hcond : (!(decide (f.expo = 0) && decide (f.frac = 0)) &&
        (f.absLt f1eMinus6 || !f.absLt f1e21)) = false := by simp [hz.1, hz.2]
    rw [hcond]
    simp only [Bool.false_eq_true, if_false]
    refine ⟨_, rfl, ?_⟩
    rw [hf]
    exact formatFloat_zero f.sign
  · obtain ⟨hd, hdec⟩ := shortestDecimal_spec f hfin hz
    split
    · refine ⟨_, rfl, ?_⟩
      rw [formatFloat_nonzero f true hz]
      simp only [if_true]
      obtain ⟨_, _, hlen, hlt, hge⟩ := natDigits_spec (shortestDecimal f).1
      have hb := decimal_point_bounds (shortestDecimal f).1 (natDigits (shortestDecimal f).1).length
        (shortestDecimal f).2 f.expo f.frac hd (hge hd).1 hlt hlen hdec hz
      exact fmtE_roundtrip f _ _ hd hdec ⟨by omega, by omega⟩
    · refine ⟨_, rfl, ?_⟩
      rw [formatFloat_nonzero f false hz]
      simp only [Bool.false_eq_true, if_false]
      exact fmtF_roundtrip f _ _ hd hdec

theorem parseFloat_finite (text : Bytes) (f : Float64) (h : parseFloat text = .ok f) :
    FiniteFloat f := by
  unfold parseFloat at h
  split at h
  · simp at h
  · rename_i neg m e _
    split at h
    · simp only [Except.ok.injEq] at h
      subst h
      exact ⟨by simp, by simp⟩
    · rename_i hm
      split at h
      · simp at h
      · rename_i ex fr hdec
        simp only [Except.ok.injEq] at h
        subst h
        exact decToFields_finite m e ex fr (by omega) hdec

/-! ## Inputs on which the claims of the specification fail -/

theorem normalizeJSON_duplicate_members :
    normalizeJSON (ascii "\x7b\"a\":true,\"a\":false\x7d") = (ascii "\x7b\"a\":false\x7d", none) ∧
    normalizeJSON (ascii "\x7b\"a\":false,\"a\":true\x7d") = (ascii "\x7b\"a\":true\x7d", none) := by
  constructor <;> decide!

theorem not_Utf8_ff : ¬ Utf8 [34, 255, 34] := by
  intro h
  have hv := utf8Valid_of_Utf8 _ h
  exact absurd hv (by decide)

/-- C6 fails at the three bytes `22 FF 22`, a string whose content is not
UTF-8: the sequence is not valid JSON, yet `normalizeJSON` returns without
error, and `GetJSONAsString` on a 200 answer with that body returns the
string with U+FFFD in place of the byte `FF`, not the body. -/
theorem GetJSONAsString_invalid_utf8_body :
    ¬ ValidJSON [34, 255, 34] ∧
    normalizeJSON [34, 255, 34] = ([34, 239, 191, 189, 34], none) ∧
    (GetJSONAsString exampleNet
        (NewBoskClientWithoutAuth (constTransport 200 "200 OK" [34, 255, 34]) "http://bosk/")
        "http://bosk/a" []).ret = [34, 239, 191, 189, 34] :=
  ⟨fun h => not_Utf8_ff h.2, by decide!, by decide!⟩

/-! ## Round trip of a decoded value through `json.Marshal` and `json.Unmarshal` -/

theorem bytesLt_irrefl (a : Bytes) : bytesLt a a = false := by
  induction a with
  | nil => rfl
  | cons x xs ih => simp [bytesLt, ih]

theorem bytesLt_trans (a : Bytes) : ∀ b c : Bytes, bytesLt a b = true → bytesLt b c = true →
    bytesLt a c = true := by
  induction a with
  | nil =>
    intro b c h1 h2
    cases b with
    | nil => simp [bytesLt] at h1
    | cons y ys =>
      cases c with
      | nil => simp [bytesLt] at h2
      | cons z zs => rfl
  | cons x xs ih =>
    intro b c h1 h2
    cases b with
    | nil => simp [bytesLt] at h1
    | cons y ys =>
      cases c with
      | nil => simp [bytesLt] at h2
      | cons z zs =>
        simp only [bytesLt, Bool.or_eq_true, Bool.and_eq_true, decide_eq_true_eq] at h1 h2 ⊢
        rcases h1 with h1 | ⟨h1, h1t⟩
        · rcases h2 with h2 | ⟨h2, _⟩
          · left; omega
          · left; omega
        · rcases h2 with h2 | ⟨h2, h2t⟩
          · left; omega
          · right; exact ⟨by omega, ih ys zs h1t h2t⟩

theorem bytesLt_total (a : Bytes) : ∀ b : Bytes, a ≠ b → bytesLt a b = false →
    bytesLt b a = true := by
  induction a with
  | nil =>
    intro b hne h
    cases b with
    | nil => exact absurd rfl hne
    | cons y ys => simp [bytesLt] at h
  | cons x xs ih =>
    intro b hne h
    cases b with
    | nil => rfl
    | cons y ys =>
      simp only [bytesLt, Bool.or_eq_false_iff, Bool.and_eq_false_iff, decide_eq_false_iff_not] at h
      simp only [bytesLt, Bool.or_eq_true, Bool.and_eq_true, decide_eq_true_eq]
      obtain ⟨h1, h2⟩ := h
      by_cases hxy : y < x
      · left; exact hxy
      · right
        have hxe : x = y := by omega
        refine ⟨hxe.symm, ih ys ?_ ?_⟩
        · intro he; exact hne (by rw [hxe, he])
        · rcases h2 with h2 | h2
          · exact absurd hxe h2
          · exact h2

theorem bytesLt_asymm (a b : Bytes) (h : bytesLt a b = true) : bytesLt b a = false := by
  cases hb : bytesLt b a with
  | false => rfl
  | true =>
    have := bytesLt_trans a b a h hb
    rw [bytesLt_irrefl] at this
    exact absurd this (by simp)

theorem bytesLt_ne (a b : Bytes) (h : bytesLt a b = true) : a ≠ b := by
  intro he
  rw [he, bytesLt_irrefl] at h
  exact absurd h (by simp)

theorem mapSet_keys (key : Bytes) (v : Value) (ms : List (Bytes × Value)) :
    ∀ y ∈ (mapSet key v ms).map Prod.fst, y = key ∨ y ∈ ms.map Prod.fst := by
  induction ms with
  | nil => intro y hy; simp [mapSet] at hy; exact Or.inl hy
  | cons p ms ih =>
    obtain ⟨k, w⟩ := p
    intro y hy
    unfold mapSet at hy
    split at hy
    · simp only [List.map_cons, List.mem_cons] at hy ⊢
      rcases hy with h | h
      · exact Or.inl h
      · exact Or.inr (Or.inr h)
    · split at hy
      · simp only [List.map_cons, List.mem_cons] at hy ⊢
        rcases hy with h | h | h
        · exact Or.inl h
        · exact Or.inr (Or.inl h)
        · exact Or.inr (Or.inr h)
      · simp only [List.map_cons, List.mem_cons] at hy ⊢
        rcases hy with h | h
        · exact Or.inr (Or.inl h)
        · rcases ih y h with h2 | h2
          · exact Or.inl h2
          · exact Or.inr (Or.inr h2)

theorem mapSet_sorted (key : Bytes) (v : Value) (ms : List (Bytes × Value))
    (h : KeysSorted ms) : KeysSorted (mapSet key v ms) := by
  induction ms with
  | nil => simp [mapSet, KeysSorted]
  | cons p ms ih =>
    obtain ⟨k, w⟩ := p
    unfold KeysSorted at h ih ⊢
    simp only [List.map_cons, List.pairwise_cons] at h
    obtain ⟨hk, hms⟩ := h
    unfold mapSet
    split
    · rename_i he
      simp only [List.map_cons, List.pairwise_cons]
      exact ⟨by rw [he]; exact hk, hms⟩
    · rename_i hne
      split
      · rename_i hlt
        simp only [List.map_cons, List.pairwise_cons, List.mem_cons]
        refine ⟨?_, hk, hms⟩
        intro y hy
        rcases hy with rfl | hy
        · exact hlt
        · exact bytesLt_trans key k y hlt (hk y hy)
      · rename_i hnlt
        simp only [List.map_cons, List.pairwise_cons]
        refine ⟨?_, ih hms⟩
        intro y hy
        rcases mapSet_keys key v ms y hy with rfl | hy2
        · exact bytesLt_total y k hne (by simpa using hnlt)
        · exact hk y hy2

theorem mapSet_canon (key : Bytes) (v : Value) (ms : List (Bytes × Value))
    (hk : Utf8 key) (hv : v.Canon) (h : Value.CanonMembers ms) :
    Value.CanonMembers (mapSet key v ms) := by
  induction ms with
  | nil => simp only [mapSet, Value.CanonMembers]; exact ⟨hk, hv, trivial⟩
  | cons p ms ih =>
    obtain ⟨k, w⟩ := p
    simp only [Value.CanonMembers] at h
    unfold mapSet
    split
    · simp only [Value.CanonMembers]; exact ⟨hk, hv, h.2.2⟩
    · split
      · simp only [Value.CanonMembers]; exact ⟨hk, hv, h⟩
      · simp only [Value.CanonMembers]; exact ⟨h.1, h.2.1, ih h.2.2⟩

theorem mapSet_depth (key : Bytes) (v : Value) (ms : List (Bytes × Value)) :
    Value.depthMembers (mapSet key v ms) ≤ max v.depth (Value.depthMembers ms) := by
  induction ms with
  | nil => simp [mapSet, Value.depthMembers]
  | cons p ms ih =>
    obtain ⟨k, w⟩ := p
    unfold mapSet
    split
    · simp only [Value.depthMembers]; omega
    · split
      · simp only [Value.depthMembers]; omega
      · simp only [Value.depthMembers]; omega

/-- Assignment under a key larger than every key of the map adds the entry at
the end. -/
theorem mapSet_append (key : Bytes) (v : Value) (acc : List (Bytes × Value))
    (h : ∀ k ∈ acc.map Prod.fst, bytesLt k key = true) :
    mapSet key v acc = acc ++ [(key, v)] := by
  induction acc with
  | nil => rfl
  | cons p acc ih =>
    obtain ⟨k, w⟩ := p
    have hk : bytesLt k key = true := h k (by simp)
    have hne : key ≠ k := fun he => bytesLt_ne k key hk he.symm
    have hnlt : bytesLt key k = false := bytesLt_asymm k key hk
    unfold mapSet
    rw [if_neg hne, hnlt]
    simp only [Bool.false_eq_true, if_false, List.cons_append]
    rw [ih (fun y hy => h y (by simp only [List.map_cons, List.mem_cons]; exact Or.inr hy))]

mutual
theorem decodeValue_canon : ∀ (s : Syn) (v : Value), decodeValue s = .ok v →
    v.Canon ∧ v.depth ≤ s.depth
  | .null, v, h => by
    simp only [decodeValue, Except.ok.injEq] at h; subst h
    simp [Value.Canon, Value.depth]
  | .bool b, v, h => by
    simp only [decodeValue, Except.ok.injEq] at h; subst h
    simp [Value.Canon, Value.depth]
  | .number lit, v, h => by
    simp only [decodeValue] at h
    split at h
    · rename_i f hf
      simp only [Except.ok.injEq] at h; subst h
      unfold convertNumber at hf
      split at hf
      · rename_i g hg
        simp only [Except.ok.injEq] at hf; subst hf
        exact ⟨by simp only [Value.Canon]; exact parseFloat_finite lit g hg, by simp [Value.depth]⟩
      · simp at hf
    · simp at h
  | .string raw, v, h => by
    simp only [decodeValue] at h
    split at h
    · rename_i s hs
      simp only [Except.ok.injEq] at h; subst h
      exact ⟨by simp only [Value.Canon]; exact unquote_utf8 raw s hs, by simp [Value.depth]⟩
    · simp at h
  | .array xs, v, h => by
    simp only [decodeValue] at h
    split at h
    · rename_i vs hvs
      simp only [Except.ok.injEq] at h; subst h
      obtain ⟨h1, h2⟩ := decodeArray_canon xs vs hvs
      exact ⟨by simp only [Value.Canon]; exact h1, by simp only [Value.depth, Syn.depth]; omega⟩
    · simp at h
  | .object ms, v, h => by
    simp only [decodeValue] at h
    split at h
    · rename_i m hm
      simp only [Except.ok.injEq] at h; subst h
      obtain ⟨h1, h2, h3⟩ := decodeObject_canon ms [] m hm (by simp [Value.CanonMembers])
        (by simp [KeysSorted])
      refine ⟨by simp only [Value.Canon]; exact ⟨h1, h2⟩, ?_⟩
      simp only [Value.depth, Syn.depth, Value.depthMembers] at h3 ⊢
      omega
    · simp at h
theorem decodeArray_canon : ∀ (xs : List Syn) (vs : List Value), decodeArray xs = .ok vs →
    Value.CanonList vs ∧ Value.depthList vs ≤ depthList xs
  | [], vs, h => by
    simp only [decodeArray, Except.ok.injEq] at h; subst h
    simp [Value.CanonList, Value.depthList]
  | x :: xs, vs, h => by
    simp only [decodeArray] at h
    split at h
    · simp at h
    · rename_i v hv
      split at h
      · rename_i ws hws
        simp only [Except.ok.injEq] at h; subst h
        obtain ⟨a1, a2⟩ := decodeValue_canon x v hv
        obtain ⟨b1, b2⟩ := decodeArray_canon xs ws hws
        refine ⟨by simp only [Value.CanonList]; exact ⟨a1, b1⟩, ?_⟩
        simp only [Value.depthList, depthList]
        omega
      · simp at h
theorem decodeObject_canon : ∀ (ms : List (Bytes × Syn)) (acc m : List (Bytes × Value)),
    decodeObject ms acc = .ok m → Value.CanonMembers acc → KeysSorted acc →
    Value.CanonMembers m ∧ KeysSorted m ∧
      Value.depthMembers m ≤ max (Value.depthMembers acc) (depthMembers ms)
  | [], acc, m, h, hc, hs => by
    simp only [decodeObject, Except.ok.injEq] at h; subst h
    exact ⟨hc, hs, by simp [depthMembers]⟩
  | (k, x) :: ms, acc, m, h, hc, hs => by
    simp only [decodeObject] at h
    split at h
    · simp at h
    · rename_i key hkey
      split at h
      · simp at h
      · rename_i v hv
        obtain ⟨a1, a2⟩ := decodeValue_canon x v hv
        obtain ⟨b1, b2, b3⟩ := decodeObject_canon ms (mapSet key v acc) m h
          (mapSet_canon key v acc (unquote_utf8 k key hkey) a1 hc) (mapSet_sorted key v acc hs)
        refine ⟨b1, b2, ?_⟩
        have hd := mapSet_depth key v acc
        simp only [depthMembers]
        omega
end

/-- Members whose names and values decode to the entries of a sorted map are
decoded to that map, after the entries already assigned. -/
theorem decodeObject_sorted (sm : List (Bytes × Syn)) : ∀ (ms acc : List (Bytes × Value)),
    List.Forall₂ (fun (p : Bytes × Syn) (q : Bytes × Value) =>
      unquote p.1 = some q.1 ∧ decodeValue p.2 = .ok q.2) sm ms →
    KeysSorted (acc ++ ms) → decodeObject sm acc = .ok (acc ++ ms) := by
  induction sm with
  | nil =>
    intro ms acc h _
    cases h
    simp [decodeObject]
  | cons p sm ih =>
    intro ms acc h hs
    obtain ⟨rk, sx⟩ := p
    cases h with
    | cons hpq hrest =>
      rename_i q ms2
      obtain ⟨k, v⟩ := q
      simp only at hpq
      simp only [decodeObject, hpq.1, hpq.2]
      have hs2 := hs
      unfold KeysSorted at hs2
      rw [List.map_append, List.pairwise_append] at hs2
      have hk : ∀ y ∈ acc.map Prod.fst, bytesLt y k = true :=
        fun y hy => hs2.2.2 y hy k (by simp)
      rw [mapSet_append k v acc hk]
      have := ih ms2 (acc ++ [(k, v)]) hrest (by rw [List.append_assoc]; exact hs)
      rw [this, List.append_assoc]
      rfl

mutual
theorem encodeValue_roundtrip : ∀ (v : Value) (out : Bytes), v.Canon → encodeValue v = .ok out →
    ∃ s : Syn, s.Text out ∧ decodeValue s = .ok v ∧ s.depth = v.depth
  | .null, out, _, h => by
    simp only [encodeValue, Except.ok.injEq] at h; subst h
    exact ⟨.null, by simp [Syn.Text], by simp [decodeValue], by simp [Syn.depth, Value.depth]⟩
  | .bool true, out, _, h => by
    simp only [encodeValue, Except.ok.injEq] at h; subst h
    exact ⟨.bool true, by simp [Syn.Text], by simp [decodeValue], by simp [Syn.depth, Value.depth]⟩
  | .bool false, out, _, h => by
    simp only [encodeValue, Except.ok.injEq] at h; subst h
    exact ⟨.bool false, by simp [Syn.Text], by simp [decodeValue], by simp [Syn.depth, Value.depth]⟩
  | .number f, out, hc, h => by
    simp only [encodeValue] at h
    simp only [Value.Canon] at hc
    obtain ⟨text, ht, hn, hp⟩ := encodeFloat_roundtrip f hc
    rw [ht] at h
    simp only [Except.ok.injEq] at h; subst h
    exact ⟨.number text, by simp [Syn.Text, hn], by simp [decodeValue, convertNumber, hp],
      by simp [Syn.depth, Value.depth]⟩
  | .string s, out, hc, h => by
    simp only [encodeValue, Except.ok.injEq] at h; subst h
    simp only [Value.Canon] at hc
    obtain ⟨raw, he, hch, hu⟩ := encodeString_roundtrip s hc
    exact ⟨.string raw, by simp [Syn.Text, he, hch], by simp [decodeValue, hu],
      by simp [Syn.depth, Value.depth]⟩
  | .array [], out, _, h => by
    simp only [encodeValue, encodeElems, Except.ok.injEq] at h; subst h
    exact ⟨.array [], by simp only [Syn.Text]; exact ⟨[], IsWS_nil, rfl⟩,
      by simp [decodeValue, decodeArray],
      by simp [Syn.depth, Value.depth, depthList, Value.depthList]⟩
  | .array (x :: xs), out, hc, h => by
    simp only [encodeValue] at h
    split at h
    · rename_i b hb
      simp only [Except.ok.injEq] at h; subst h
      simp only [Value.Canon] at hc
      obtain ⟨ss, hdec, hdep, htail⟩ := encodeElems_roundtrip (x :: xs) b hc hb (by simp)
      cases ss with
      | nil => simp [decodeArray] at hdec
      | cons s ss2 =>
        simp only [ElemsTail] at htail
        obtain ⟨w1, u, w2, r2, hw1, hu, hw2, hr2, he⟩ := htail
        simp only [List.cons.injEq, true_and] at he
        refine ⟨.array (s :: ss2), ?_, ?_, ?_⟩
        · simp only [Syn.Text]
          exact ⟨w1, u, w2, r2, hw1, hu, hw2, hr2, by rw [he]⟩
        · simp only [decodeValue, hdec]
        · simp only [Syn.depth, Value.depth, hdep]
    · simp at h
  | .object [], out, _, h => by
    simp only [encodeValue, encodeMembers, Except.ok.injEq] at h; subst h
    exact ⟨.object [], by simp only [Syn.Text]; exact ⟨[], IsWS_nil, rfl⟩,
      by simp [decodeValue, decodeObject],
      by simp [Syn.depth, Value.depth, depthMembers, Value.depthMembers]⟩
  | .object (p :: ms), out, hc, h => by
    simp only [encodeValue] at h
    split at h
    · rename_i b hb
      simp only [Except.ok.injEq] at h; subst h
      simp only [Value.Canon] at hc
      obtain ⟨sm, hrel, hdep, htail⟩ := encodeMembers_roundtrip (p :: ms) b hc.1 hb (by simp)
      have hdec := decodeObject_sorted sm (p :: ms) [] hrel (by simpa using hc.2)
      cases sm with
      | nil => cases hrel
      | cons q sm2 =>
        obtain ⟨rk, sx⟩ := q
        simp only [MembersTail] at htail
        obtain ⟨w1, w2, w3, u, w4, r2, hw1, hk, hw2, hw3, hu, hw4, hr2, he⟩ := htail
        simp only [List.cons.injEq, true_and] at he
        refine ⟨.object ((rk, sx) :: sm2), ?_, ?_, ?_⟩
        · simp only [Syn.Text]
          exact ⟨w1, w2, w3, u, w4, r2, hw1, hk, hw2, hw3, hu, hw4, hr2, by rw [he]; simp⟩
        · simp only [decodeValue, hdec]
          simp
        · simp only [Syn.depth, Value.depth, hdep]
    · simp at h
theorem encodeElems_roundtrip : ∀ (xs : List Value) (out : Bytes), Value.CanonList xs →
    encodeElems xs = .ok out → xs ≠ [] →
    ∃ ss, decodeArray ss = .ok xs ∧ depthList ss = Value.depthList xs ∧ ElemsTail ss (44 :: out)
  | [], _, _, _, hne => absurd rfl hne
  | x :: xs, out, hc, h, _ => by
    simp only [encodeElems] at h
    split at h
    · simp at h
    · rename_i a ha
      split at h
      · simp at h
      · rename_i b hb
        simp only [Except.ok.injEq] at h
        simp only [Value.CanonList] at hc
        obtain ⟨s, hs, hds, hdp⟩ := encodeValue_roundtrip x a hc.1 ha
        by_cases hx : xs = []
        · subst hx
          simp only [List.isEmpty_nil, if_true] at h; subst h
          refine ⟨[s], by simp [decodeArray, hds], by simp [depthList, Value.depthList, hdp], ?_⟩
          simp only [ElemsTail]
          exact ⟨[], a, [], [], IsWS_nil, hs, IsWS_nil, rfl, by simp⟩
        · have hemp : xs.isEmpty = false := by
            cases xs with
            | nil => exact absurd rfl hx
            | cons y ys => rfl
          simp only [hemp, Bool.false_eq_true, if_false] at h; subst h
          obtain ⟨ss, hdss, hdps, htl⟩ := encodeElems_roundtrip xs b hc.2 hb hx
          refine ⟨s :: ss, by simp [decodeArray, hds, hdss],
            by simp [depthList, Value.depthList, hdp, hdps], ?_⟩
          simp only [ElemsTail]
          exact ⟨[], a, [], 44 :: b, IsWS_nil, hs, IsWS_nil, htl, by simp⟩
theorem encodeMembers_roundtrip : ∀ (ms : List (Bytes × Value)) (out : Bytes),
    Value.CanonMembers ms → encodeMembers ms = .ok out → ms ≠ [] →
    ∃ sm, List.Forall₂ (fun (p : Bytes × Syn) (q : Bytes × Value) =>
        unquote p.1 = some q.1 ∧ decodeValue p.2 = .ok q.2) sm ms ∧
      depthMembers sm = Value.depthMembers ms ∧ MembersTail sm (44 :: out)
  | [], _, _, _, hne => absurd rfl hne
  | (k, x) :: ms, out, hc, h, _ => by
    simp only [encodeMembers] at h
    split at h
    · simp at h
    · rename_i a ha
      split at h
      · simp at h
      · rename_i b hb
        simp only [Except.ok.injEq] at h
        simp only [Value.CanonMembers] at hc
        obtain ⟨s, hs, hds, hdp⟩ := encodeValue_roundtrip x a hc.2.1 ha
        obtain ⟨raw, he, hch, hu⟩ := encodeString_roundtrip k hc.1
        by_cases hx : ms = []
        · subst hx
          simp only [List.isEmpty_nil, if_true] at h; subst h
          refine ⟨[(raw, s)], List.Forall₂.cons ⟨hu, hds⟩ List.Forall₂.nil,
            by simp [depthMembers, Value.depthMembers, hdp], ?_⟩
          simp only [MembersTail]
          exact ⟨[], [], [], a, [], [], IsWS_nil, hch, IsWS_nil, IsWS_nil, hs, IsWS_nil, rfl,
            by rw [he]; simp⟩
        · have hemp : ms.isEmpty = false := by
            cases ms with
            | nil => exact absurd rfl hx
            | cons y ys => rfl
          simp only [hemp, Bool.false_eq_true, if_false] at h; subst h
          obtain ⟨sm, hrel, hdps, htl⟩ := encodeMembers_roundtrip ms b hc.2.2 hb hx
          refine ⟨(raw, s) :: sm, List.Forall₂.cons ⟨hu, hds⟩ hrel,
            by simp [depthMembers, Value.depthMembers, hdp, hdps], ?_⟩
          simp only [MembersTail]
          exact ⟨[], [], [], a, [], 44 :: b, IsWS_nil, hch, IsWS_nil, IsWS_nil, hs, IsWS_nil, htl,
            by rw [he]; simp⟩
end

mutual
theorem encodeValue_total : ∀ (v : Value), v.Canon → ∃ out, encodeValue v = .ok out
  | .null, _ => ⟨_, rfl⟩
  | .bool true, _ => ⟨_, rfl⟩
  | .bool false, _ => ⟨_, rfl⟩
  | .number f, hc => by
    simp only [Value.Canon] at hc
    obtain ⟨text, ht, -, -⟩ := encodeFloat_roundtrip f hc
    exact ⟨text, by simp only [encodeValue]; exact ht⟩
  | .string s, _ => ⟨_, rfl⟩
  | .array xs, hc => by
    simp only [Value.Canon] at hc
    obtain ⟨b, hb⟩ := encodeElems_total xs hc
    simp only [encodeValue, hb]
    exact ⟨_, rfl⟩
  | .object ms, hc => by
    simp only [Value.Canon] at hc
    obtain ⟨b, hb⟩ := encodeMembers_total ms hc.1
    simp only [encodeValue, hb]
    exact ⟨_, rfl⟩
theorem encodeElems_total : ∀ (xs : List Value), Value.CanonList xs →
    ∃ out, encodeElems xs = .ok out
  | [], _ => ⟨_, rfl⟩
  | x :: xs, hc => by
    simp only [Value.CanonList] at hc
    obtain ⟨a, ha⟩ := encodeValue_total x hc.1
    obtain ⟨b, hb⟩ := encodeElems_total xs hc.2
    simp only [encodeElems, ha, hb]
    exact ⟨_, rfl⟩
theorem encodeMembers_total : ∀ (ms : List (Bytes × Value)), Value.CanonMembers ms →
    ∃ out, encodeMembers ms = .ok out
  | [], _ => ⟨_, rfl⟩
  | (k, x) :: ms, hc => by
    simp only [Value.CanonMembers] at hc
    obtain ⟨a, ha⟩ := encodeValue_total x hc.2.1
    obtain ⟨b, hb⟩ := encodeMembers_total ms hc.2.2
    simp only [encodeMembers, ha, hb]
    exact ⟨_, rfl⟩
end

end Bosk
